import Mathlib

/-!
Verification development for the requirement-quality review assistant
(`req_analyzer.py`, `streamlit_app.py`, `smoke_test.py`).

Strings are modelled as `List Char` (Python `str` is a sequence of code
points).  Python's `json.loads` / `json.dumps` standard-library functions are
modelled by an executable recursive-descent scanner (`parseValue` etc., fuel
indexed) and serializer (`dumpsVal`) that follow CPython's `json` package on
the standard JSON grammar, with these documented restrictions: float literals
(and the `NaN`/`Infinity` extensions) are outside the model — floating point
does not embed shallowly — and `\uXXXX` escapes denoting lone surrogates are
rejected (Lean `Char` holds unicode scalar values only).  All claims are
settled relative to this model.
-/

/-- Code points of a string literal. -/
def chars (s : String) : List Char := s.data

/-- JSON whitespace, exactly the four characters CPython's `json` skips. -/
def isJsonWs (c : Char) : Bool := c == ' ' || c == '\t' || c == '\n' || c == '\x0d'

/-- Skip JSON whitespace (models the `_w(s, idx).end()` moves of CPython). -/
def skipWs (l : List Char) : List Char := l.dropWhile isJsonWs

/-- Whitespace stripped by Python's `str.strip()` (ASCII part; the less common
unicode space code points are outside the model). -/
def pyIsSpace (c : Char) : Bool :=
  c == ' ' || c == '\t' || c == '\n' || c == '\x0d' || c == '\x0b' || c == '\x0c'

/-- `str.lstrip()`. -/
def pyStripLeft (l : List Char) : List Char := l.dropWhile pyIsSpace

/-- `str.rstrip()`. -/
def pyStripRight (l : List Char) : List Char := (l.reverse.dropWhile pyIsSpace).reverse

/-- Python `str.strip()`. -/
def pyStrip (l : List Char) : List Char := pyStripRight (pyStripLeft l)

/-- First index of `c`, if present (helper for Python `str.find`/`str.rfind`). -/
def pyFindAux (c : Char) : List Char → Option Nat
  | [] => none
  | x :: t => if x = c then some 0 else (pyFindAux c t).map (· + 1)

/-- Python `text.find(c)`: first index of `c`, or `-1`. -/
def pyFind (l : List Char) (c : Char) : Int :=
  match pyFindAux c l with
  | some n => (n : Int)
  | none => -1

/-- Python `text.rfind(c)`: last index of `c`, or `-1`. -/
def pyRfind (l : List Char) (c : Char) : Int :=
  match pyFindAux c l.reverse with
  | some n => ((l.length - 1 - n : Nat) : Int)
  | none => -1

/-- Python slice `l[a:b]` for non-negative bounds (clamping semantics). -/
def pySlice (l : List Char) (a b : Nat) : List Char := (l.take b).drop a

/-- The substring from the first `\x7b` to the last `\x7d` inclusive;
empty when there is no such non-empty span (no `\x7b`, or every `\x7d`
precedes the first `\x7b`). -/
def braceSpan (l : List Char) : List Char :=
  (((l.dropWhile fun c => !(c == '\x7b')).reverse.dropWhile fun c => !(c == '\x7d')).reverse)

/-- Parsed JSON values as produced by `json.loads`: numbers are restricted to
integers (see the file comment), objects are insertion-ordered key/value lists
as in a Python `dict`. -/
inductive Json where
  | null
  | bool (b : Bool)
  | num (n : Int)
  | str (s : List Char)
  | arr (xs : List Json)
  | obj (members : List (List Char × Json))
  deriving Repr

/-- Parse-error kinds; each constructor stands for the corresponding CPython
`json.JSONDecodeError` message: "Expecting value", "Expecting property name
enclosed in double quotes", "Expecting colon delimiter", "Expecting comma
delimiter", "Unterminated string", "Invalid control character", "Invalid
escape", "Invalid unicode escape", "Extra data".  `outOfFuel` is internal to
the model and provably unreachable at the fuel `json_loads` supplies. -/
inductive JsonErrMsg where
  | expectingValue
  | expectingPropertyName
  | expectingColonDelimiter
  | expectingCommaDelimiter
  | unterminatedString
  | invalidControlCharacter
  | invalidEscape
  | invalidUniEscape
  | extraData
  | outOfFuel
  deriving Repr, DecidableEq

/-- Value of a hex digit character. -/
def hexVal (c : Char) : Option Nat :=
  if '0' ≤ c ∧ c ≤ '9' then some (c.toNat - 48)
  else if 'a' ≤ c ∧ c ≤ 'f' then some (c.toNat - 87)
  else if 'A' ≤ c ∧ c ≤ 'F' then some (c.toNat - 55)
  else none

/-- Short escapes accepted after a backslash (CPython `BACKSLASH` table). -/
def escChar (e : Char) : Option Char :=
  if e = '"' then some '"'
  else if e = '\\' then some '\\'
  else if e = '/' then some '/'
  else if e = 'b' then some '\x08'
  else if e = 'f' then some '\x0c'
  else if e = 'n' then some '\n'
  else if e = 'r' then some '\x0d'
  else if e = 't' then some '\t'
  else none

/-- Decode the escape sequence following a backslash: a short escape or
`\uXXXX` with a non-surrogate value (model restriction, see file comment).
Returns the decoded character and the remaining input. -/
def scanEsc : List Char → Except JsonErrMsg (Char × List Char)
  | [] => .error .unterminatedString
  | e :: rest2 =>
    if e = 'u' then
      match rest2 with
      | h1 :: h2 :: h3 :: h4 :: rest3 =>
        match hexVal h1, hexVal h2, hexVal h3, hexVal h4 with
        | some a, some b, some c2, some d =>
          let n := ((a * 16 + b) * 16 + c2) * 16 + d
          if n < 0xD800 ∨ 0xDFFF < n then .ok (Char.ofNat n, rest3)
          else .error .invalidUniEscape
        | _, _, _, _ => .error .invalidUniEscape
      | _ => .error .invalidUniEscape
    else
      match escChar e with
      | some ec => .ok (ec, rest2)
      | none => .error .invalidEscape

/-- Scan a JSON string body (after the opening quote), CPython `py_scanstring`
with `strict=True`: raw control characters are rejected.  Returns the decoded
content and the input after the closing quote.  Fuel only bounds recursion
depth and provably never runs out at the fuel the callers supply. -/
def scanString : Nat → List Char → Except JsonErrMsg (List Char × List Char)
  | 0, _ => .error .outOfFuel
  | fuel+1, l =>
    match l with
    | [] => .error .unterminatedString
    | c :: rest =>
      if c = '"' then .ok ([], rest)
      else if c = '\\' then
        match scanEsc rest with
        | .ok (ec, rest2) =>
          match scanString fuel rest2 with
          | .ok (s, r) => .ok (ec :: s, r)
          | .error e2 => .error e2
        | .error e2 => .error e2
      else if c.toNat < 32 then .error .invalidControlCharacter
      else
        match scanString fuel rest with
        | .ok (s, r) => .ok (c :: s, r)
        | .error e2 => .error e2

/-- One-step unfolding of `scanString` at positive fuel. -/
theorem scanString_succ (f : Nat) (l : List Char) :
    scanString (f+1) l =
      match l with
      | [] => .error .unterminatedString
      | c :: rest =>
        if c = '"' then .ok ([], rest)
        else if c = '\\' then
          match scanEsc rest with
          | .ok (ec, rest2) =>
            match scanString f rest2 with
            | .ok (s, r) => .ok (ec :: s, r)
            | .error e2 => .error e2
          | .error e2 => .error e2
        else if c.toNat < 32 then .error .invalidControlCharacter
        else
          match scanString f rest with
          | .ok (s, r) => .ok (c :: s, r)
          | .error e2 => .error e2 := by
  cases l <;> rfl

/-- Numeric value of a digit string (most significant first). -/
def digitsToNat (ds : List Char) : Nat := ds.foldl (fun a c => a * 10 + (c.toNat - 48)) 0

/-- Scan the integer part per CPython's `NUMBER_RE`: `0` alone, or a nonzero
digit followed by digits (fraction/exponent are outside the model). -/
def scanUIntPart (l : List Char) : Except JsonErrMsg (Int × List Char) :=
  match l with
  | [] => .error .expectingValue
  | c :: rest =>
    if c = '0' then .ok (0, rest)
    else if c.isDigit then
      .ok ((digitsToNat (l.takeWhile Char.isDigit) : Int), l.dropWhile Char.isDigit)
    else .error .expectingValue

/-- Scan an (integer) JSON number, optional leading minus. -/
def scanNumber (l : List Char) : Except JsonErrMsg (Int × List Char) :=
  if l.head? = some '-' then
    match scanUIntPart l.tail with
    | .ok (n, r) => .ok (-n, r)
    | .error e => .error e
  else scanUIntPart l

/-- Python `dict` insertion: update the value in place when the key exists,
append otherwise (this is `dict(pairs)` semantics for duplicate keys). -/
def insertKey : List (List Char × Json) → List Char → Json → List (List Char × Json)
  | [], k, v => [(k, v)]
  | (k2, v2) :: t, k, v => if k2 = k then (k2, v) :: t else (k2, v2) :: insertKey t k v

mutual
/-- One JSON value starting at the head of the input (CPython `_scan_once`,
same dispatch order); whitespace is not skipped first.  Fuel only bounds
recursion depth; at the fuel `json_loads` supplies, `outOfFuel` is
unreachable (`parseValue_no_fuel_error`). -/
def parseValue : Nat → List Char → Except JsonErrMsg (Json × List Char)
  | 0, _ => .error .outOfFuel
  | fuel+1, l =>
    match l with
    | [] => .error .expectingValue
    | c :: rest =>
      if c = '"' then
        match scanString fuel rest with
        | .ok (s, r) => .ok (.str s, r)
        | .error e => .error e
      else if c = '\x7b' then
        let w := skipWs rest
        if w.head? = some '\x7d' then .ok (.obj [], w.tail)
        else parseMembers fuel w []
      else if c = '[' then
        let w := skipWs rest
        if w.head? = some ']' then .ok (.arr [], w.tail)
        else parseElems fuel w []
      else if l.take 4 = chars "null" then .ok (.null, l.drop 4)
      else if l.take 4 = chars "true" then .ok (.bool true, l.drop 4)
      else if l.take 5 = chars "false" then .ok (.bool false, l.drop 5)
      else
        match scanNumber l with
        | .ok (n, r) => .ok (.num n, r)
        | .error e => .error e

/-- Members of an object after `\x7b` and whitespace, the non-empty case
(CPython `JSONObject` loop). -/
def parseMembers : Nat → List Char → List (List Char × Json) →
    Except JsonErrMsg (Json × List Char)
  | 0, _, _ => .error .outOfFuel
  | fuel+1, l, acc =>
    match l with
    | '"' :: rest =>
      match scanString fuel rest with
      | .error e => .error e
      | .ok (key, r1) =>
        match skipWs r1 with
        | ':' :: r2 =>
          match parseValue fuel (skipWs r2) with
          | .error e => .error e
          | .ok (v, r3) =>
            match skipWs r3 with
            | '\x7d' :: r4 => .ok (.obj (insertKey acc key v), r4)
            | ',' :: r4 => parseMembers fuel (skipWs r4) (insertKey acc key v)
            | _ => .error .expectingCommaDelimiter
        | _ => .error .expectingColonDelimiter
    | _ => .error .expectingPropertyName

/-- Items of an array after `[` and whitespace, the non-empty case
(CPython `JSONArray` loop). -/
def parseElems : Nat → List Char → List Json → Except JsonErrMsg (Json × List Char)
  | 0, _, _ => .error .outOfFuel
  | fuel+1, l, acc =>
    match parseValue fuel l with
    | .error e => .error e
    | .ok (v, r1) =>
      match skipWs r1 with
      | ']' :: r2 => .ok (.arr (acc ++ [v]), r2)
      | ',' :: r2 => parseElems fuel (skipWs r2) (acc ++ [v])
      | _ => .error .expectingCommaDelimiter
end

/-- A `json.JSONDecodeError`: the message kind together with the `doc`
attribute (the string handed to `json.loads`). -/
structure JsonFail where
  msg : JsonErrMsg
  doc : List Char
  deriving Repr, DecidableEq

/-- Python `json.loads` (see the file comment for model restrictions):
skip whitespace, scan one value, require only whitespace to follow.  The fuel
`2 * length + 1` provably never runs out (`parseValue_no_fuel_error`). -/
def json_loads (l : List Char) : Except JsonFail Json :=
  match parseValue (2 * l.length + 1) (skipWs l) with
  | .error m => .error ⟨m, l⟩
  | .ok (v, rest) => if skipWs rest = [] then .ok v else .error ⟨.extraData, l⟩

/-- `true` iff `json.loads` fails on this input. -/
def loadsFails (l : List Char) : Bool :=
  match json_loads l with
  | .ok _ => false
  | .error _ => true

namespace ReqAnalyzer

/-- The failures `req_analyzer.extract_json` can raise: its explicit
`ValueError("No JSON found in output:\n" + text)`, or the
`json.JSONDecodeError` propagated out of `json.loads`. -/
inductive ExtractErr where
  | noJson (raw : List Char)
  | decode (e : JsonFail)
  deriving Repr, DecidableEq

/-- `req_analyzer.extract_json`:
`start = text.find("\x7b"); end = text.rfind("\x7d")`; raise when either is
`-1`, otherwise `json.loads(text[start:end + 1])`. -/
def extract_json (text : List Char) : Except ExtractErr Json :=
  let start := pyFind text '\x7b'
  let stop := pyRfind text '\x7d'
  if start = -1 ∨ stop = -1 then .error (.noJson text)
  else
    match json_loads (pySlice text start.toNat (stop.toNat + 1)) with
    | .ok v => .ok v
    | .error e => .error (.decode e)

end ReqAnalyzer

/-- Models `re.search(r"\x7b.*\x7d", text, flags=re.DOTALL)`: the leftmost
match of a greedy `.*` bracketed by braces starts at the first `\x7b` and ends
at the last `\x7d`; a match exists iff some `\x7d` follows the first `\x7b`. -/
def re_search_brace (l : List Char) : Option (List Char) :=
  if (l.dropWhile fun c => !(c == '\x7b')).contains '\x7d' then some (braceSpan l)
  else none

namespace StreamlitApp

/-- The failures `streamlit_app.extract_json` can raise:
`ValueError("Model did not return JSON. Raw output:\n" + text)`, or
`ValueError(f"Failed to parse JSON block: ...")` carrying the decode error,
the candidate block and the (stripped) raw text. -/
inductive ExtractErr where
  | noJson (raw : List Char)
  | malformed (e : JsonFail) (jsonStr : List Char) (raw : List Char)
  deriving Repr, DecidableEq

/-- `streamlit_app.extract_json`: strip, try `json.loads` on the whole text,
else search for a `\x7b.*\x7d` block and parse that. -/
def extract_json (text0 : List Char) : Except ExtractErr Json :=
  let text := pyStrip text0
  match json_loads text with
  | .ok v => .ok v
  | .error _ =>
    match re_search_brace text with
    | none => .error (.noJson text)
    | some json_str =>
      match json_loads json_str with
      | .ok v => .ok v
      | .error e => .error (.malformed e json_str text)

end StreamlitApp

-- ### Serialization (`json.dumps`, default separators, compact)

/-- Lowercase hex digit, as in CPython's `'\\u%04x'` formatting. -/
def hexDigitChar (n : Nat) : Char :=
  if n < 10 then Char.ofNat (48 + n) else Char.ofNat (87 + n)

/-- Escape one character as `json.dumps` does (`ensure_ascii=False` flavour:
quote, backslash and control characters only; `/` is not escaped). -/
def escapeChar (c : Char) : List Char :=
  if c = '"' then ['\\', '"']
  else if c = '\\' then ['\\', '\\']
  else if c = '\n' then ['\\', 'n']
  else if c = '\t' then ['\\', 't']
  else if c = '\x0d' then ['\\', 'r']
  else if c = '\x08' then ['\\', 'b']
  else if c = '\x0c' then ['\\', 'f']
  else if c.toNat < 32 then ['\\', 'u', '0', '0', hexDigitChar (c.toNat / 16), hexDigitChar (c.toNat % 16)]
  else [c]

/-- Escape a string body. -/
def escapeStr (s : List Char) : List Char := (s.map escapeChar).flatten

/-- Decimal digits of `n`, most significant first, for `n > 0`; the first
argument is structural fuel (`natDigitsAux n n` is exact). -/
def natDigitsAux : Nat → Nat → List Char
  | 0, _ => []
  | fuel+1, n => if n = 0 then [] else natDigitsAux fuel (n / 10) ++ [Char.ofNat (48 + n % 10)]

/-- Python `str` of a natural number. -/
def natRepr (n : Nat) : List Char := if n = 0 then ['0'] else natDigitsAux n n

/-- Python `str` of an `int`. -/
def intRepr : Int → List Char
  | .ofNat n => natRepr n
  | .negSucc m => '-' :: natRepr (m + 1)

mutual
/-- `json.dumps` with the default separators `(', ', ': ')` and no indent. -/
def dumpsVal : Json → List Char
  | .null => chars "null"
  | .bool true => chars "true"
  | .bool false => chars "false"
  | .num n => intRepr n
  | .str s => '"' :: escapeStr s ++ ['"']
  | .arr xs => '[' :: dumpsItems xs ++ [']']
  | .obj ms => '\x7b' :: dumpsMembers ms ++ ['\x7d']

/-- Array items joined by `", "`. -/
def dumpsItems : List Json → List Char
  | [] => []
  | [x] => dumpsVal x
  | x :: y :: t => dumpsVal x ++ ',' :: ' ' :: dumpsItems (y :: t)

/-- Object members `"key": value` joined by `", "`. -/
def dumpsMembers : List (List Char × Json) → List Char
  | [] => []
  | [(k, v)] => '"' :: escapeStr k ++ '"' :: ':' :: ' ' :: dumpsVal v
  | (k, v) :: p :: t =>
    '"' :: escapeStr k ++ '"' :: ':' :: ' ' :: dumpsVal v ++ ',' :: ' ' :: dumpsMembers (p :: t)
end

mutual
/-- Well-formedness of a parsed value: object keys are pairwise distinct at
every level.  Every `json.loads` result satisfies this (`parse_wf` below); it
is the invariant that makes serialize-then-reparse the identity. -/
def wfVal : Json → Bool
  | .null => true
  | .bool _ => true
  | .num _ => true
  | .str _ => true
  | .arr xs => wfItems xs
  | .obj ms => wfMems ms

/-- All array items well-formed. -/
def wfItems : List Json → Bool
  | [] => true
  | x :: t => wfVal x && wfItems t

/-- Keys pairwise distinct and all values well-formed. -/
def wfMems : List (List Char × Json) → Bool
  | [] => true
  | (k, v) :: t => !(t.any fun p => p.1 == k) && wfVal v && wfMems t
end

namespace SmokeTest

/-- The Python type a required key's value must be an instance of. -/
inductive PyKind where
  | str
  | int
  | list
  deriving Repr, DecidableEq

/-- `smoke_test.REQUIRED_KEYS`, in source (dict insertion) order. -/
def REQUIRED_KEYS : List (List Char × PyKind) :=
  [(chars "summary", .str),
   (chars "clarity_score", .int),
   (chars "clarity_score_reason", .str),
   (chars "ambiguities", .list),
   (chars "missing_information", .list),
   (chars "assumptions", .list),
   (chars "risks_and_dependencies", .list),
   (chars "edge_cases", .list),
   (chars "acceptance_criteria", .list),
   (chars "test_scenarios", .list)]

/-- Python `isinstance(v, t)` on parsed-JSON values; note `bool` is a
subclass of `int` in Python, so booleans pass the `int` check. -/
def isinstanceJ (v : Json) : PyKind → Bool
  | .str => match v with | .str _ => true | _ => false
  | .int => match v with | .num _ => true | .bool _ => true | _ => false
  | .list => match v with | .arr _ => true | _ => false

/-- `t.__name__` of the expected type. -/
def pyKindName : PyKind → List Char
  | .str => chars "str"
  | .int => chars "int"
  | .list => chars "list"

/-- `type(v).__name__` of a parsed-JSON value. -/
def jsonTypeName : Json → List Char
  | .null => chars "NoneType"
  | .bool _ => chars "bool"
  | .num _ => chars "int"
  | .str _ => chars "str"
  | .arr _ => chars "list"
  | .obj _ => chars "dict"

/-- The key/type loop of `smoke_test.main`: first failure message, if any. -/
def checkKeys : List (List Char × PyKind) → List (List Char × Json) → Option (List Char)
  | [], _ => none
  | (k, t) :: rest, data =>
    match List.lookup k data with
    | none => some (chars "FAIL: missing key: " ++ k)
    | some v =>
      if isinstanceJ v t then checkKeys rest data
      else some (chars "FAIL: key " ++ k ++ chars " expected " ++ pyKindName t ++
        chars ", got " ++ jsonTypeName v)

/-- Outcome of the smoke test on a report: `passed` is the final
`print("OK: ...")`, `failed msg` is a `print(msg)` followed by `sys.exit(2)`. -/
inductive VR where
  | passed
  | failed (msg : List Char)
  deriving Repr, DecidableEq

/-- Integer value of an `int`-instance value (`True == 1`, `False == 0`). -/
def jsonIntVal : Json → Int
  | .num n => n
  | .bool b => if b then 1 else 0
  | _ => 0

/-- Python `str` of an `int`-instance value (as interpolated in the range
failure message). -/
def pyStrOfIntLike : Json → List Char
  | .num n => intRepr n
  | .bool true => chars "True"
  | .bool false => chars "False"
  | _ => []

/-- The validation in `smoke_test.main` on the parsed report `data` (the
file-existence check precedes and is outside this model): every required key
present with the right type, then `0 <= clarity_score <= 100`.  The `none`
branch of the final lookup is unreachable: `checkKeys` already guaranteed the
key (CPython would raise `TypeError` comparing `None`; no claim touches it). -/
def validate_report (data : List (List Char × Json)) : VR :=
  match checkKeys REQUIRED_KEYS data with
  | some msg => .failed msg
  | none =>
    match List.lookup (chars "clarity_score") data with
    | some cs =>
      if 0 ≤ jsonIntVal cs ∧ jsonIntVal cs ≤ 100 then .passed
      else .failed (chars "FAIL: clarity_score out of range: " ++ pyStrOfIntLike cs)
    | none => .failed (chars "FAIL: clarity_score out of range: None")

/-- The report with the value at key `k` replaced by `v` (used to state the
one-field-modified scenarios of the spec). -/
def setKey (data : List (List Char × Json)) (k : List Char) (v : Json) :
    List (List Char × Json) :=
  data.map fun p => if p.1 = k then (k, v) else p

end SmokeTest

namespace StreamlitApp

/-- One entry of the `answers` list built in the UI:
`\x7b"id": qid, "question": qtext, "answer": ans\x7d`. -/
structure AnsweredQuestion where
  id : List Char
  question : List Char
  answer : List Char

/-- One transcript block,
`f"\x7bitem['id']\x7d. \x7bitem['question']\x7d\nAnswer: \x7bitem.get('answer','').strip()\x7d"`. -/
def qa_block (item : AnsweredQuestion) : List Char :=
  item.id ++ chars ". " ++ item.question ++ chars "\nAnswer: " ++ pyStrip item.answer

/-- The local `qa_text` of `improve_with_answers`: blocks accumulated by the
`for` loop, joined with `"\n\n"`, then `.strip()`ed. -/
def improve_qa_text (q_and_a : List AnsweredQuestion) : List Char :=
  pyStrip (List.intercalate (chars "\n\n")
    (q_and_a.foldl (fun acc item => acc ++ [qa_block item]) []))

/-- `IMPROVE_PROMPT` up to the `schema` placeholder. -/
def IMPROVE_PROMPT_part1 : List Char :=
  chars "You are a Senior QA Lead and Requirements Analyst.\n\nTask:\nUse the stakeholder answers to improve the requirement analysis and produce a refreshed quality report.\n\nReturn ONLY valid JSON in this exact schema (no markdown, no extra text):\n"

/-- `IMPROVE_PROMPT` between the `schema` and `requirement` placeholders. -/
def IMPROVE_PROMPT_part2 : List Char :=
  chars "\n\nRules:\n- clarity_score must be an integer 0–100.\n- Keep each list item short and specific (one sentence).\n- Acceptance criteria: atomic, testable, prefer Gherkin.\n- Test scenarios: provide 6–12 realistic scenarios:\n  \"Title — Preconditions — Steps — Expected Result\".\n- If any answers are still vague, call that out under missing_information.\n\nOriginal Requirement:\n"

/-- `IMPROVE_PROMPT` between the `requirement` and `qa_text` placeholders
(the template ends with the `qa_text` placeholder). -/
def IMPROVE_PROMPT_part3 : List Char :=
  chars "\n\nClarifying Q&A:\n"

/-- `json.dumps(ANALYZE_SCHEMA, indent=2)`, the text filled into the `schema`
placeholder. -/
def ANALYZE_SCHEMA_text : List Char :=
  chars "\x7b\n  \"summary\": \"string\",\n  \"clarity_score\": 0,\n  \"clarity_score_reason\": \"string\",\n  \"ambiguities\": [\n    \"string\"\n  ],\n  \"missing_information\": [\n    \"string\"\n  ],\n  \"assumptions\": [\n    \"string\"\n  ],\n  \"risks_and_dependencies\": [\n    \"string\"\n  ],\n  \"edge_cases\": [\n    \"string\"\n  ],\n  \"acceptance_criteria\": [\n    \"string\"\n  ],\n  \"test_scenarios\": [\n    \"string\"\n  ]\n\x7d"

/-- The prompt built by `improve_with_answers`:
`IMPROVE_PROMPT.format(schema=..., requirement=..., qa_text=...)`.  The
template contains exactly the three placeholders, so `.format` is literal
segment concatenation. -/
def improve_with_answers_prompt (requirement : List Char)
    (q_and_a : List AnsweredQuestion) : List Char :=
  IMPROVE_PROMPT_part1 ++ ANALYZE_SCHEMA_text ++ IMPROVE_PROMPT_part2 ++ requirement ++
    IMPROVE_PROMPT_part3 ++ improve_qa_text q_and_a

/-- Modelled from the spec: the transcript the spec describes for the
`qa_text` placeholder — "a newline-joined transcript of
`\"<id>. <question>\nAnswer: <answer>\"` per question" — built verbatim from
each question's id, question text and answer.  Used only to compare the
spec's wording against `improve_qa_text`. -/
def specQaTranscript (q_and_a : List AnsweredQuestion) : List Char :=
  List.intercalate (chars "\n")
    (q_and_a.map fun item =>
      item.id ++ chars ". " ++ item.question ++ chars "\nAnswer: " ++ item.answer)

end StreamlitApp

-- ### Sanity checks of the model against CPython behaviour

example : json_loads (chars " \x7b\"a\": 1\x7d ") =
    .ok (.obj [(chars "a", .num 1)]) := rfl
example : json_loads (chars "[1, -20, \"x\", true, null]") =
    .ok (.arr [.num 1, .num (-20), .str (chars "x"), .bool true, .null]) := rfl
example : json_loads (chars "") = .error ⟨.expectingValue, []⟩ := rfl
example : json_loads (chars "\x7b1: 2\x7d") =
    .error ⟨.expectingPropertyName, chars "\x7b1: 2\x7d"⟩ := rfl
example : json_loads (chars "01") = .error ⟨.extraData, chars "01"⟩ := rfl
example : json_loads (chars "truex") = .error ⟨.extraData, chars "truex"⟩ := rfl
example : json_loads (chars "\x7b\"a\": 1, \"a\": 2\x7d") =
    .ok (.obj [(chars "a", .num 2)]) := rfl
example : json_loads (chars "\"a\\n\\u0041\"") = .ok (.str (chars "a\nA")) := rfl
example : json_loads (chars "[\x7b\x7d]") = .ok (.arr [.obj []]) := rfl
example : ReqAnalyzer.extract_json (chars "hi \x7b\"a\": []\x7d bye") =
    .ok (.obj [(chars "a", .arr [])]) := rfl
example : ReqAnalyzer.extract_json (chars "no braces") =
    .error (.noJson (chars "no braces")) := rfl
example : ReqAnalyzer.extract_json (chars "\x7d\x7b") =
    .error (.decode ⟨.expectingValue, []⟩) := rfl
example : StreamlitApp.extract_json (chars " 42 ") = .ok (.num 42) := rfl
example : StreamlitApp.extract_json (chars "text \x7b\"a\": 1\x7d end") =
    .ok (.obj [(chars "a", .num 1)]) := rfl
example : StreamlitApp.extract_json (chars "\x7d\x7b") =
    .error (.noJson (chars "\x7d\x7b")) := rfl
example : dumpsVal (.obj [(chars "a", .arr [.num 1, .bool true])]) =
    chars "\x7b\"a\": [1, true]\x7d" := by simp [dumpsVal, dumpsMembers, dumpsItems,
      escapeStr, escapeChar, intRepr, natRepr, natDigitsAux, chars]
example : intRepr (-1) = ['-', '1'] := rfl

/-- A well-typed report used in sanity checks and witnesses below. -/
def sampleReport : List (List Char × Json) :=
  [(chars "summary", .str (chars "ok")),
   (chars "clarity_score", .num 80),
   (chars "clarity_score_reason", .str (chars "clear")),
   (chars "ambiguities", .arr []),
   (chars "missing_information", .arr []),
   (chars "assumptions", .arr []),
   (chars "risks_and_dependencies", .arr []),
   (chars "edge_cases", .arr []),
   (chars "acceptance_criteria", .arr []),
   (chars "test_scenarios", .arr [])]

example : SmokeTest.validate_report sampleReport = .passed := rfl

-- ### Generic list lemmas

theorem dropWhile_append_all {p : Char → Bool} {a : List Char} (b : List Char)
    (h : ∀ c ∈ a, p c = true) : (a ++ b).dropWhile p = b.dropWhile p := by
  induction a with
  | nil => rfl
  | cons x t ih =>
    simp only [List.cons_append, List.dropWhile_cons, h x (by simp)]
    exact ih fun c hc => h c (by simp [hc])

theorem dropWhile_cons_neg {p : Char → Bool} {c : Char} (h : p c = false) (t : List Char) :
    (c :: t).dropWhile p = c :: t := by
  simp [List.dropWhile_cons, h]

theorem dropWhile_head_false {p : Char → Bool} : ∀ {l : List Char} {c : Char} {t : List Char},
    l.dropWhile p = c :: t → p c = false
  | [], _, _, h => by simp at h
  | x :: xs, c, t, h => by
    by_cases hx : p x = true
    · exact dropWhile_head_false (by simpa [List.dropWhile_cons, hx] using h)
    · simp only [List.dropWhile_cons, hx, if_false] at h
      simp only [Bool.not_eq_true] at hx
      obtain ⟨rfl, rfl⟩ := by simpa using h
      exact hx

theorem length_dropWhile_le (p : Char → Bool) (l : List Char) :
    (l.dropWhile p).length ≤ l.length := by
  induction l with
  | nil => simp
  | cons x t ih =>
    simp only [List.dropWhile_cons]
    split
    · exact le_trans ih (by simp)
    · simp

theorem skipWs_length_le (l : List Char) : (skipWs l).length ≤ l.length :=
  length_dropWhile_le isJsonWs l

theorem contains_iff_mem {l : List Char} {c : Char} : l.contains c = true ↔ c ∈ l :=
  List.elem_iff

-- ### `pyFindAux` / `pyFind` / `pyRfind` lemmas

theorem pyFindAux_none {c : Char} : ∀ {l : List Char},
    pyFindAux c l = none ↔ ∀ x ∈ l, x ≠ c
  | [] => by simp [pyFindAux]
  | x :: t => by
    simp only [pyFindAux]
    by_cases hx : x = c
    · simp [hx]
    · simp only [hx, if_false, Option.map_eq_none']
      constructor
      · intro h y hy
        rcases List.mem_cons.1 hy with rfl | hy
        · exact hx
        · exact (pyFindAux_none.1 h) y hy
      · intro h
        exact pyFindAux_none.2 fun y hy => h y (by simp [hy])

theorem pyFindAux_some {c : Char} : ∀ {l : List Char} {n : Nat},
    pyFindAux c l = some n →
    ∃ a b, l = a ++ c :: b ∧ a.length = n ∧ ∀ x ∈ a, x ≠ c
  | [], n, h => by simp [pyFindAux] at h
  | x :: t, n, h => by
    by_cases hx : x = c
    · have hn0 : n = 0 := by
        simp [pyFindAux, hx] at h
        omega
      exact ⟨[], t, by simp [hx], by simp [hn0], by simp⟩
    · simp only [pyFindAux, hx, if_false, Option.map_eq_some'] at h
      obtain ⟨m, hm, rfl⟩ := h
      obtain ⟨a, b, rfl, rfl, ha⟩ := pyFindAux_some hm
      refine ⟨x :: a, b, by simp, by simp, ?_⟩
      intro y hy
      rcases List.mem_cons.1 hy with rfl | hy
      · exact hx
      · exact ha y hy

theorem pyFindAux_dropWhile {c : Char} : ∀ {l : List Char} {n : Nat},
    pyFindAux c l = some n → l.dropWhile (fun x => !(x == c)) = l.drop n
  | [], n, h => by simp [pyFindAux] at h
  | x :: t, n, h => by
    by_cases hx : x = c
    · have : n = 0 := by simp [pyFindAux, hx] at h; omega
      subst this
      simp [List.dropWhile_cons, hx]
    · simp only [pyFindAux, hx, if_false, Option.map_eq_some'] at h
      obtain ⟨m, hm, rfl⟩ := h
      simpa [List.dropWhile_cons, hx] using pyFindAux_dropWhile hm

theorem pyFindAux_none_dropWhile {c : Char} {l : List Char} (h : pyFindAux c l = none) :
    l.dropWhile (fun x => !(x == c)) = [] := by
  rw [List.dropWhile_eq_nil_iff]
  intro x hx
  simpa using (pyFindAux_none.1 h) x hx

theorem pyFindAux_isSome_of_mem {c : Char} {l : List Char} (h : c ∈ l) :
    (pyFindAux c l).isSome := by
  cases hf : pyFindAux c l with
  | some n => rfl
  | none => exact absurd rfl ((pyFindAux_none.1 hf) c h)

/-- On inputs holding both braces, the console slice
`text[start:end + 1]` is exactly `braceSpan text`. -/
theorem console_slice_eq_braceSpan {l : List Char} {n k : Nat}
    (hn : pyFindAux '\x7b' l = some n) (hk : pyFindAux '\x7d' l.reverse = some k) :
    pySlice l n (l.length - 1 - k + 1) = braceSpan l := by
  obtain ⟨a, b, hl, hlen, ha⟩ := pyFindAux_some hn
  obtain ⟨d, e, hrev, hdlen, hd⟩ := pyFindAux_some hk
  have hlrev : l = e.reverse ++ '\x7d' :: d.reverse := by
    have := congrArg List.reverse hrev
    simpa [List.reverse_append] using this
  have hLl : l.length = k + 1 + e.length := by
    have := congrArg List.length hrev
    simp at this
    omega
  have hnl : n < l.length := by
    have := congrArg List.length hl
    simp at this
    omega
  set m := l.length - 1 - k with hm
  have hme : m = e.length := by omega
  -- the slice side
  have hlen2 : (e.reverse ++ ['\x7d'] : List Char).length = m + 1 := by
    simp only [List.length_append, List.length_reverse, List.length_cons, List.length_nil]
    omega
  have hslice : pySlice l n (m + 1) = ((e.reverse ++ ['\x7d']).drop n : List Char) := by
    have h1 : l.take (m + 1) = e.reverse ++ ['\x7d'] := by
      rw [hlrev]
      have h2 : e.reverse ++ '\x7d' :: d.reverse = (e.reverse ++ ['\x7d']) ++ d.reverse := by simp
      rw [h2, List.take_left' hlen2]
    simp [pySlice, h1]
  -- the braceSpan side
  have hbs : braceSpan l = ((l.reverse.take (l.length - n)).dropWhile
      (fun x => !(x == '\x7d'))).reverse := by
    have hdr : (l.drop n).reverse = l.reverse.take (l.length - n) := by
      rw [List.take_reverse]
      have h3 : l.length - (l.length - n) = n := by omega
      rw [h3]
    unfold braceSpan
    rw [pyFindAux_dropWhile hn, hdr]
  rw [hslice, hbs]
  by_cases hcase : n ≤ m
  · -- the span is non-empty: first brace before last closing brace
    have htake : l.reverse.take (l.length - n) = d ++ '\x7d' :: e.take (m - n) := by
      rw [hrev]
      have harith : l.length - n = d.length + (m - n + 1) := by omega
      rw [harith, List.take_append, List.take_succ_cons]
    rw [htake]
    rw [dropWhile_append_all _ (fun c hc => by simpa using hd c hc)]
    rw [dropWhile_cons_neg (by simp)]
    rw [List.drop_append_of_le_length (by rw [List.length_reverse]; omega)]
    simp only [List.reverse_cons]
    have h4 : (e.take (m - n)).reverse = e.reverse.drop n := by
      rw [List.reverse_take]
      have h5 : e.length - (m - n) = n := by omega
      rw [h5]
    rw [h4]
  · -- every closing brace precedes the first opening brace: both sides empty
    have htake : l.reverse.take (l.length - n) = d.take (l.length - n) := by
      rw [hrev, List.take_append_of_le_length (by omega)]
    rw [htake]
    have hall : (d.take (l.length - n)).dropWhile (fun x => !(x == '\x7d')) = [] := by
      rw [List.dropWhile_eq_nil_iff]
      intro x hx
      have : x ∈ d := List.take_subset _ _ hx
      simpa using hd x this
    rw [hall]
    simp
    omega
-- ### `pyFind` / `pyRfind` as `-1` tests

theorem pyFind_ne_neg_one_iff {l : List Char} {c : Char} : pyFind l c ≠ -1 ↔ c ∈ l := by
  unfold pyFind
  cases hf : pyFindAux c l with
  | some n =>
    have h1 : ((n : Int) ≠ -1) := by omega
    have h2 : c ∈ l := by
      obtain ⟨a, b, hl, -, -⟩ := pyFindAux_some hf
      rw [hl]
      simp
    simp [h1, h2]
  | none =>
    have h2 : c ∉ l := fun hc => (pyFindAux_none.1 hf) c hc rfl
    simp [h2]

theorem pyRfind_ne_neg_one_iff {l : List Char} {c : Char} : pyRfind l c ≠ -1 ↔ c ∈ l := by
  unfold pyRfind
  cases hf : pyFindAux c l.reverse with
  | some n =>
    have h1 : ((l.length - 1 - n : Nat) : Int) ≠ -1 := by omega
    have h2 : c ∈ l := by
      obtain ⟨a, b, hl, -, -⟩ := pyFindAux_some hf
      rw [← List.mem_reverse, hl]
      simp
    simp [h1, h2]
  | none =>
    have h2 : c ∉ l := fun hc => (pyFindAux_none.1 hf) c (List.mem_reverse.2 hc) rfl
    simp [h2]

-- ### Whitespace padding and `pyStrip`

theorem pyIsSpace_ne_lbrace {c : Char} (h : pyIsSpace c = true) : c ≠ '\x7b' := by
  simp only [pyIsSpace, Bool.or_eq_true, beq_iff_eq] at h
  rcases h with ((((h | h) | h) | h) | h) | h <;> subst h <;> decide

theorem pyIsSpace_ne_rbrace {c : Char} (h : pyIsSpace c = true) : c ≠ '\x7d' := by
  simp only [pyIsSpace, Bool.or_eq_true, beq_iff_eq] at h
  rcases h with ((((h | h) | h) | h) | h) | h <;> subst h <;> decide

/-- `pyStrip` only removes whitespace at the two ends. -/
theorem pyStrip_decomp (l : List Char) :
    ∃ a b, l = a ++ pyStrip l ++ b ∧ (∀ c ∈ a, pyIsSpace c = true) ∧
      (∀ c ∈ b, pyIsSpace c = true) := by
  refine ⟨l.takeWhile pyIsSpace, ((pyStripLeft l).reverse.takeWhile pyIsSpace).reverse,
    ?_, fun c hc => List.mem_takeWhile_imp hc, fun c hc => List.mem_takeWhile_imp (by
      simpa using hc)⟩
  conv_lhs => rw [← List.takeWhile_append_dropWhile pyIsSpace l]
  rw [List.append_assoc]
  congr 1
  show pyStripLeft l = pyStrip l ++ _
  conv_lhs => rw [← List.reverse_reverse (pyStripLeft l),
    ← List.takeWhile_append_dropWhile pyIsSpace (pyStripLeft l).reverse]
  rw [List.reverse_append]
  rfl

/-- `braceSpan` ignores brace-free padding on either side. -/
theorem braceSpan_pad {a x b : List Char}
    (ha : ∀ c ∈ a, c ≠ '\x7b') (hb1 : ∀ c ∈ b, c ≠ '\x7b') (hb2 : ∀ c ∈ b, c ≠ '\x7d') :
    braceSpan (a ++ x ++ b) = braceSpan x := by
  unfold braceSpan
  rw [List.append_assoc,
    dropWhile_append_all (x ++ b) (fun c hc => by simpa using ha c hc)]
  rw [List.dropWhile_append]
  split
  · next hemp =>
    have hx : x.dropWhile (fun c => !(c == '\x7b')) = [] := by
      simpa using hemp
    have hbnil : b.dropWhile (fun c => !(c == '\x7b')) = [] := by
      rw [List.dropWhile_eq_nil_iff]
      intro c hc
      simpa using hb1 c hc
    rw [hbnil, hx]
  · next hemp =>
    rw [List.reverse_append,
      dropWhile_append_all _ (fun c hc => by
        simp only [List.mem_reverse] at hc
        simpa using hb2 c hc)]

/-- The match condition of `re_search_brace` ignores brace-free padding. -/
theorem braceCond_pad {a x b : List Char}
    (ha : ∀ c ∈ a, c ≠ '\x7b') (hb1 : ∀ c ∈ b, c ≠ '\x7b') (hb2 : ∀ c ∈ b, c ≠ '\x7d') :
    ((a ++ x ++ b).dropWhile fun c => !(c == '\x7b')).contains '\x7d' =
      ((x.dropWhile fun c => !(c == '\x7b')).contains '\x7d') := by
  rw [List.append_assoc,
    dropWhile_append_all (x ++ b) (fun c hc => by simpa using ha c hc)]
  rw [List.dropWhile_append]
  split
  · next hemp =>
    have hx : x.dropWhile (fun c => !(c == '\x7b')) = [] := by simpa using hemp
    have hbnil : b.dropWhile (fun c => !(c == '\x7b')) = [] := by
      rw [List.dropWhile_eq_nil_iff]
      intro c hc
      simpa using hb1 c hc
    rw [hbnil, hx]
  · next hemp =>
    by_cases hmem : '\x7d' ∈ x.dropWhile (fun c => !(c == '\x7b'))
    · rw [contains_iff_mem.2 (by simp [hmem]), contains_iff_mem.2 hmem]
    · have h1 : ((x.dropWhile fun c => !(c == '\x7b')) ++ b).contains '\x7d' = false := by
        rw [← Bool.not_eq_true]
        intro hcon
        rcases List.mem_append.1 (contains_iff_mem.1 hcon) with h | h
        · exact hmem h
        · exact hb2 _ h rfl
      have h2 : (x.dropWhile fun c => !(c == '\x7b')).contains '\x7d' = false := by
        rw [← Bool.not_eq_true]
        intro hcon
        exact hmem (contains_iff_mem.1 hcon)
      rw [h1, h2]

theorem braceSpan_pyStrip (s : List Char) : braceSpan (pyStrip s) = braceSpan s := by
  obtain ⟨a, b, hs, ha, hb⟩ := pyStrip_decomp s
  conv_rhs => rw [hs]
  rw [braceSpan_pad (fun c hc => pyIsSpace_ne_lbrace (ha c hc))
    (fun c hc => pyIsSpace_ne_lbrace (hb c hc)) (fun c hc => pyIsSpace_ne_rbrace (hb c hc))]

theorem braceCond_pyStrip (s : List Char) :
    ((pyStrip s).dropWhile fun c => !(c == '\x7b')).contains '\x7d' =
      ((s.dropWhile fun c => !(c == '\x7b')).contains '\x7d') := by
  obtain ⟨a, b, hs, ha, hb⟩ := pyStrip_decomp s
  conv_rhs => rw [hs]
  rw [braceCond_pad (fun c hc => pyIsSpace_ne_lbrace (ha c hc))
    (fun c hc => pyIsSpace_ne_lbrace (hb c hc)) (fun c hc => pyIsSpace_ne_rbrace (hb c hc))]

/-- `braceSpan` is empty exactly when no `\x7d` follows the first `\x7b`. -/
theorem braceSpan_eq_nil_iff {s : List Char} :
    braceSpan s = [] ↔
      ((s.dropWhile fun c => !(c == '\x7b')).contains '\x7d') = false := by
  unfold braceSpan
  constructor
  · intro h
    rw [← Bool.not_eq_true]
    intro hcon
    have hmem := contains_iff_mem.1 hcon
    have : (s.dropWhile fun c => !(c == '\x7b')).reverse.dropWhile
        (fun x => !(x == '\x7d')) = [] := by
      simpa using h
    rw [List.dropWhile_eq_nil_iff] at this
    have := this '\x7d' (by simpa using hmem)
    simp at this
  · intro h
    have : ∀ x ∈ (s.dropWhile fun c => !(c == '\x7b')).reverse,
        (fun x => !(x == '\x7d')) x = true := by
      intro x hx
      simp only [List.mem_reverse] at hx
      have : x ≠ '\x7d' := by
        intro heq
        subst heq
        rw [contains_iff_mem.2 hx] at h
        exact absurd h (by simp)
      simpa using this
    rw [List.dropWhile_eq_nil_iff.2 this]
    rfl

-- ### Behaviour of the two extractors, reduced to `json_loads` on `braceSpan`

/-- Console extractor, missing-brace case. -/
theorem console_noJson {s : List Char} (h : '\x7b' ∉ s ∨ '\x7d' ∉ s) :
    ReqAnalyzer.extract_json s = .error (.noJson s) := by
  have hcond : pyFind s '\x7b' = -1 ∨ pyRfind s '\x7d' = -1 := by
    rcases h with h | h
    · left
      by_contra hne
      exact h (pyFind_ne_neg_one_iff.1 hne)
    · right
      by_contra hne
      exact h (pyRfind_ne_neg_one_iff.1 hne)
  simp [ReqAnalyzer.extract_json, hcond]

/-- Console extractor, both braces present: it is `json.loads` on the brace
span, decode errors wrapped. -/
theorem console_eval {s : List Char} (h1 : '\x7b' ∈ s) (h2 : '\x7d' ∈ s) :
    ReqAnalyzer.extract_json s =
      match json_loads (braceSpan s) with
      | .ok v => .ok v
      | .error e => .error (.decode e) := by
  cases hf1 : pyFindAux '\x7b' s with
  | none => exact absurd rfl ((pyFindAux_none.1 hf1) _ h1)
  | some n =>
    cases hf2 : pyFindAux '\x7d' s.reverse with
    | none => exact absurd rfl ((pyFindAux_none.1 hf2) _ (List.mem_reverse.2 h2))
    | some k =>
      have hfind : pyFind s '\x7b' = (n : Int) := by
        unfold pyFind
        rw [hf1]
      have hrfind : pyRfind s '\x7d' = ((s.length - 1 - k : Nat) : Int) := by
        unfold pyRfind
        rw [hf2]
      have hcond : ¬(pyFind s '\x7b' = -1 ∨ pyRfind s '\x7d' = -1) := by
        rw [hfind, hrfind]
        push_neg
        constructor <;> omega
      unfold ReqAnalyzer.extract_json
      rw [if_neg hcond, hfind, hrfind]
      simp only [Int.toNat_ofNat]
      rw [console_slice_eq_braceSpan hf1 hf2]

/-- Browser extractor, direct-parse success. -/
theorem streamlit_direct {s : List Char} {v : Json} (h : json_loads (pyStrip s) = .ok v) :
    StreamlitApp.extract_json s = .ok v := by
  simp [StreamlitApp.extract_json, h]

/-- Browser extractor, direct parse failed: regex fallback on the brace span. -/
theorem streamlit_fallback {s : List Char} {e : JsonFail}
    (h : json_loads (pyStrip s) = .error e) :
    StreamlitApp.extract_json s =
      (if ((s.dropWhile fun c => !(c == '\x7b')).contains '\x7d') = true then
        match json_loads (braceSpan s) with
        | .ok v => .ok v
        | .error e2 => .error (.malformed e2 (braceSpan s) (pyStrip s))
      else .error (.noJson (pyStrip s))) := by
  unfold StreamlitApp.extract_json
  simp only [h]
  unfold re_search_brace
  rw [braceCond_pyStrip, braceSpan_pyStrip]
  by_cases hc : ((s.dropWhile fun c => !(c == '\x7b')).contains '\x7d') = true
  · simp only [if_pos hc]
  · simp only [if_neg hc]

-- ### String-scanner lemmas

theorem scanEsc_consumes {l : List Char} {ec : Char} {r : List Char}
    (h : scanEsc l = .ok (ec, r)) : r.length < l.length := by
  match l with
  | [] => simp [scanEsc] at h
  | e :: rest2 =>
    simp only [scanEsc] at h
    split at h
    · match rest2 with
      | h1 :: h2 :: h3 :: h4 :: rest3 =>
        simp only at h
        split at h
        · split at h
          · simp only [Except.ok.injEq, Prod.mk.injEq] at h
            rw [← h.2]
            simp only [List.length_cons]
            omega
          · simp at h
        · simp at h
      | [] => simp at h
      | [_] => simp at h
      | [_, _] => simp at h
      | [_, _, _] => simp at h
    · split at h
      · simp only [Except.ok.injEq, Prod.mk.injEq] at h
        rw [← h.2]
        simp only [List.length_cons]
        omega
      · simp at h

theorem scanEsc_no_fuel {l : List Char} : scanEsc l ≠ .error .outOfFuel := by
  match l with
  | [] => simp [scanEsc]
  | e :: rest2 =>
    simp only [scanEsc]
    split
    · match rest2 with
      | h1 :: h2 :: h3 :: h4 :: rest3 =>
        simp only
        split
        · split <;> simp
        · simp
      | [] => simp
      | [_] => simp
      | [_, _] => simp
      | [_, _, _] => simp
    · split <;> simp

theorem scanEsc_splice {l : List Char} {ec : Char} {r : List Char}
    (h : scanEsc l = .ok (ec, r)) :
    ∃ ce, l = ce ++ r ∧ ∀ r', scanEsc (ce ++ r') = .ok (ec, r') := by
  match l with
  | [] => simp [scanEsc] at h
  | e :: rest2 =>
    simp only [scanEsc] at h
    split at h
    · next heu =>
      match rest2 with
      | h1 :: h2 :: h3 :: h4 :: rest3 =>
        simp only at h
        split at h
        · next a b c2 d ha hb hc2 hd =>
          split at h
          · next hval =>
            simp only [Except.ok.injEq, Prod.mk.injEq] at h
            obtain ⟨rfl, rfl⟩ := h
            refine ⟨[e, h1, h2, h3, h4], by simp, fun r' => ?_⟩
            simp only [List.cons_append, List.nil_append, scanEsc, heu, if_true]
            simp only [ha, hb, hc2, hd]
            simp [hval]
          · simp at h
        · simp at h
      | [] => simp at h
      | [_] => simp at h
      | [_, _] => simp at h
      | [_, _, _] => simp at h
    · next heu =>
      split at h
      · next ec2 hec =>
        simp only [Except.ok.injEq, Prod.mk.injEq] at h
        obtain ⟨rfl, rfl⟩ := h
        refine ⟨[e], by simp, fun r' => ?_⟩
        simp [scanEsc, heu, hec]
      · simp at h

theorem scanString_consumes : ∀ (f : Nat) {l s r : List Char},
    scanString f l = .ok (s, r) → r.length < l.length := by
  intro f
  induction f with
  | zero => intro l s r h; simp [scanString] at h
  | succ f ih =>
    intro l s r h
    match l with
    | [] => simp [scanString] at h
    | c :: rest =>
      simp only [scanString] at h
      split at h
      · simp only [Except.ok.injEq, Prod.mk.injEq] at h
        simp [← h.2]
      · split at h
        · cases hesc : scanEsc rest with
          | error e2 => rw [hesc] at h; simp at h
          | ok p =>
            obtain ⟨ec, rest2⟩ := p
            rw [hesc] at h
            dsimp only at h
            cases hrec : scanString f rest2 with
            | error e2 => rw [hrec] at h; simp at h
            | ok q =>
              obtain ⟨s', r'⟩ := q
              rw [hrec] at h
              simp only [Except.ok.injEq, Prod.mk.injEq] at h
              have h1 := ih hrec
              have h2 := scanEsc_consumes hesc
              rw [← h.2]
              simp only [List.length_cons]
              omega
        · split at h
          · simp at h
          · cases hrec : scanString f rest with
            | error e2 => rw [hrec] at h; simp at h
            | ok q =>
              obtain ⟨s', r'⟩ := q
              rw [hrec] at h
              simp only [Except.ok.injEq, Prod.mk.injEq] at h
              have h1 := ih hrec
              rw [← h.2]
              simp only [List.length_cons]
              omega

theorem scanString_no_fuel : ∀ (f : Nat) {l : List Char}, l.length + 1 ≤ f →
    scanString f l ≠ .error .outOfFuel := by
  intro f
  induction f with
  | zero => intro l hl; omega
  | succ f ih =>
    intro l hl
    match l with
    | [] => simp [scanString]
    | c :: rest =>
      simp only [scanString]
      split
      · simp
      · split
        · cases hesc : scanEsc rest with
          | error e2 =>
            dsimp only
            have h2 := scanEsc_no_fuel (l := rest)
            rw [hesc] at h2
            simpa using h2
          | ok p =>
            obtain ⟨ec, rest2⟩ := p
            dsimp only
            have h2 := scanEsc_consumes hesc
            have h3 := ih (l := rest2) (by simp at hl; omega)
            cases hrec : scanString f rest2 with
            | error e2 =>
              rw [hrec] at h3
              dsimp only
              simpa using h3
            | ok q => simp
        · split
          · simp
          · have h3 := ih (l := rest) (by simp at hl; omega)
            cases hrec : scanString f rest with
            | error e2 =>
              rw [hrec] at h3
              dsimp only
              simpa using h3
            | ok q => simp

/-- Removing a suffix of the rest of a successful string scan leaves a
successful scan of the same content. -/
theorem scanString_splice : ∀ (f : Nat) {l s r0 r1 : List Char},
    scanString f l = .ok (s, r0 ++ r1) →
    ∃ cs, l = cs ++ r0 ++ r1 ∧ scanString f (cs ++ r0) = .ok (s, r0) := by
  intro f
  induction f with
  | zero =>
    intro l s r0 r1 h
    simp [scanString] at h
  | succ f ih =>
    intro l s r0 r1 h
    match l with
    | [] =>
      rw [scanString_succ] at h
      simp at h
    | c :: rest =>
      rw [scanString_succ] at h
      dsimp only at h
      split at h <;> rename_i hc1
      · simp only [Except.ok.injEq, Prod.mk.injEq] at h
        obtain ⟨hs, hr⟩ := h
        subst hc1
        refine ⟨['"'], by simp [hr], ?_⟩
        rw [scanString_succ]
        simp [← hs]
      · split at h <;> rename_i hc2
        · cases hesc : scanEsc rest with
          | error e2 =>
            rw [hesc] at h
            simp at h
          | ok p =>
            obtain ⟨ec, rest2⟩ := p
            rw [hesc] at h
            dsimp only at h
            cases hrec : scanString f rest2 with
            | error e2 =>
              rw [hrec] at h
              simp at h
            | ok q =>
              obtain ⟨s', r'⟩ := q
              rw [hrec] at h
              simp only [Except.ok.injEq, Prod.mk.injEq] at h
              obtain ⟨hs, hr⟩ := h
              subst hr
              obtain ⟨cs', hsplit, hnew⟩ := ih hrec
              obtain ⟨ce, hce, hesc'⟩ := scanEsc_splice hesc
              subst hc2
              refine ⟨'\\' :: ce ++ cs', ?_, ?_⟩
              · simp [hce, hsplit]
              · have harr : ('\\' :: ce ++ cs') ++ r0 = '\\' :: (ce ++ (cs' ++ r0)) := by
                  simp
                rw [harr, scanString_succ]
                dsimp only
                rw [if_neg (by decide), if_pos rfl, hesc' (cs' ++ r0)]
                dsimp only
                rw [hnew]
                dsimp only
                rw [← hs]
        · split at h <;> rename_i hc3
          · simp at h
          · cases hrec : scanString f rest with
            | error e2 =>
              rw [hrec] at h
              simp at h
            | ok q =>
              obtain ⟨s', r'⟩ := q
              rw [hrec] at h
              simp only [Except.ok.injEq, Prod.mk.injEq] at h
              obtain ⟨hs, hr⟩ := h
              subst hr
              obtain ⟨cs', hsplit, hnew⟩ := ih hrec
              refine ⟨c :: cs', by simp [hsplit], ?_⟩
              have harr : (c :: cs') ++ r0 = c :: (cs' ++ r0) := by simp
              rw [harr, scanString_succ]
              dsimp only
              rw [if_neg hc1, if_neg hc2, if_neg hc3, hnew]
              dsimp only
              rw [← hs]

theorem scanString_mono : ∀ (f : Nat) {l : List Char} {res},
    scanString f l = res → res ≠ .error .outOfFuel → scanString (f+1) l = res := by
  intro f
  induction f with
  | zero =>
    intro l res h hne
    simp [scanString] at h
    exact absurd h.symm hne
  | succ f ih =>
    intro l res h hne
    match l with
    | [] =>
      simp only [scanString] at h ⊢
      exact h
    | c :: rest =>
      rw [scanString_succ] at h
      rw [scanString_succ]
      dsimp only at h ⊢
      split at h <;> rename_i hc1
      · simpa [hc1] using h
      · rw [if_neg hc1]
        split at h <;> rename_i hc2
        · rw [if_pos hc2]
          cases hesc : scanEsc rest with
          | error e2 =>
            rw [hesc] at h
            dsimp only at h ⊢
            exact h
          | ok p =>
            obtain ⟨ec, rest2⟩ := p
            rw [hesc] at h
            dsimp only at h ⊢
            cases hrec : scanString f rest2 with
            | error e2 =>
              rw [hrec] at h
              dsimp only at h
              have he2 : (Except.error e2 : Except JsonErrMsg (List Char × List Char)) ≠
                  .error .outOfFuel := by
                intro heq
                exact hne (by rw [← h, heq])
              rw [ih hrec he2]
              dsimp only
              exact h
            | ok q =>
              rw [hrec] at h
              dsimp only at h
              rw [ih hrec (by simp)]
              exact h
        · rw [if_neg hc2]
          split at h <;> rename_i hc3
          · rw [if_pos hc3]
            exact h
          · rw [if_neg hc3]
            cases hrec : scanString f rest with
            | error e2 =>
              rw [hrec] at h
              dsimp only at h
              have he2 : (Except.error e2 : Except JsonErrMsg (List Char × List Char)) ≠
                  .error .outOfFuel := by
                intro heq
                exact hne (by rw [← h, heq])
              rw [ih hrec he2]
              dsimp only
              exact h
            | ok q =>
              rw [hrec] at h
              dsimp only at h
              rw [ih hrec (by simp)]
              exact h

-- ### Number-scanner lemmas

theorem scanUIntPart_consumes {l : List Char} {n : Int} {r : List Char}
    (h : scanUIntPart l = .ok (n, r)) : r.length < l.length := by
  match l with
  | [] => simp [scanUIntPart] at h
  | c :: rest =>
    simp only [scanUIntPart] at h
    split at h <;> rename_i hc0
    · simp only [Except.ok.injEq, Prod.mk.injEq] at h
      rw [← h.2]
      simp
    · split at h <;> rename_i hcd
      · simp only [Except.ok.injEq, Prod.mk.injEq] at h
        rw [← h.2]
        rw [List.dropWhile_cons, if_pos hcd]
        have := length_dropWhile_le Char.isDigit rest
        simp only [List.length_cons]
        omega
      · simp at h

theorem scanNumber_consumes {l : List Char} {n : Int} {r : List Char}
    (h : scanNumber l = .ok (n, r)) : r.length < l.length := by
  unfold scanNumber at h
  split at h <;> rename_i hminus
  · match l with
    | [] => simp at hminus
    | c :: rest =>
      split at h
      · rename_i heq
        simp only [Except.ok.injEq, Prod.mk.injEq] at h
        have := scanUIntPart_consumes heq
        simp only [List.tail_cons] at this
        rw [← h.2]
        simp only [List.length_cons]
        omega
      · simp at h
  · exact scanUIntPart_consumes h

-- ### One-step unfoldings of the value parser

theorem parseValue_succ (f : Nat) (l : List Char) :
    parseValue (f+1) l =
      match l with
      | [] => .error .expectingValue
      | c :: rest =>
        if c = '"' then
          match scanString f rest with
          | .ok (s, r) => .ok (.str s, r)
          | .error e => .error e
        else if c = '\x7b' then
          let w := skipWs rest
          if w.head? = some '\x7d' then .ok (.obj [], w.tail)
          else parseMembers f w []
        else if c = '[' then
          let w := skipWs rest
          if w.head? = some ']' then .ok (.arr [], w.tail)
          else parseElems f w []
        else if l.take 4 = chars "null" then .ok (.null, l.drop 4)
        else if l.take 4 = chars "true" then .ok (.bool true, l.drop 4)
        else if l.take 5 = chars "false" then .ok (.bool false, l.drop 5)
        else
          match scanNumber l with
          | .ok (n, r) => .ok (.num n, r)
          | .error e => .error e := by
  cases l <;> rfl

theorem parseMembers_succ (f : Nat) (l : List Char) (acc : List (List Char × Json)) :
    parseMembers (f+1) l acc =
      match l with
      | '"' :: rest =>
        match scanString f rest with
        | .error e => .error e
        | .ok (key, r1) =>
          match skipWs r1 with
          | ':' :: r2 =>
            match parseValue f (skipWs r2) with
            | .error e => .error e
            | .ok (v, r3) =>
              match skipWs r3 with
              | '\x7d' :: r4 => .ok (.obj (insertKey acc key v), r4)
              | ',' :: r4 => parseMembers f (skipWs r4) (insertKey acc key v)
              | _ => .error .expectingCommaDelimiter
          | _ => .error .expectingColonDelimiter
      | _ => .error .expectingPropertyName := by
  cases l <;> rfl

theorem parseElems_succ (f : Nat) (l : List Char) (acc : List Json) :
    parseElems (f+1) l acc =
      match parseValue f l with
      | .error e => .error e
      | .ok (v, r1) =>
        match skipWs r1 with
        | ']' :: r2 => .ok (.arr (acc ++ [v]), r2)
        | ',' :: r2 => parseElems f (skipWs r2) (acc ++ [v])
        | _ => .error .expectingCommaDelimiter := rfl

-- ### Consumption: a successful parse always consumes at least one character

theorem parse_consumes : ∀ f : Nat,
    (∀ {l : List Char} {v : Json} {r : List Char},
      parseValue f l = .ok (v, r) → r.length < l.length) ∧
    (∀ {l : List Char} {acc : List (List Char × Json)} {v : Json} {r : List Char},
      parseMembers f l acc = .ok (v, r) → r.length < l.length) ∧
    (∀ {l : List Char} {acc : List Json} {v : Json} {r : List Char},
      parseElems f l acc = .ok (v, r) → r.length < l.length) := by
  intro f
  induction f with
  | zero =>
    refine ⟨?_, ?_, ?_⟩ <;> intros <;> simp_all [parseValue, parseMembers, parseElems]
  | succ f ih =>
    obtain ⟨ihv, ihm, ihe⟩ := ih
    refine ⟨?_, ?_, ?_⟩
    · intro l v r h
      match l with
      | [] => rw [parseValue_succ] at h; simp at h
      | c :: rest =>
        rw [parseValue_succ] at h
        dsimp only at h
        split at h <;> rename_i hc1
        · split at h <;> rename_i heq
          · rename_i s' r'
            simp only [Except.ok.injEq, Prod.mk.injEq] at h
            have := scanString_consumes f heq
            rw [← h.2]
            simp only [List.length_cons]
            omega
          · simp at h
        · split at h <;> rename_i hc2
          · split at h <;> rename_i hw
            · simp only [Except.ok.injEq, Prod.mk.injEq] at h
              have h1 := length_dropWhile_le isJsonWs rest
              rw [← h.2]
              have h2 : (skipWs rest) ≠ [] := by
                intro hnil
                rw [hnil] at hw
                simp at hw
              have h3 := List.length_tail (skipWs rest)
              have h4 : 0 < (skipWs rest).length := List.length_pos.2 h2
              simp only [List.length_cons]
              unfold skipWs at h3 h1 ⊢
              omega
            · have := ihm h
              have h1 := length_dropWhile_le isJsonWs rest
              unfold skipWs at this
              simp only [List.length_cons]
              omega
          · split at h <;> rename_i hc3
            · split at h <;> rename_i hw
              · simp only [Except.ok.injEq, Prod.mk.injEq] at h
                have h1 := length_dropWhile_le isJsonWs rest
                rw [← h.2]
                have h2 : (skipWs rest) ≠ [] := by
                  intro hnil
                  rw [hnil] at hw
                  simp at hw
                have h3 := List.length_tail (skipWs rest)
                have h4 : 0 < (skipWs rest).length := List.length_pos.2 h2
                simp only [List.length_cons]
                unfold skipWs at h3 h1 ⊢
                omega
              · have := ihe h
                have h1 := length_dropWhile_le isJsonWs rest
                unfold skipWs at this
                simp only [List.length_cons]
                omega
            · split at h <;> rename_i h4
              · simp only [Except.ok.injEq, Prod.mk.injEq] at h
                have hlen : (c :: rest).length ≥ 4 := by
                  have := congrArg List.length h4
                  simp [chars] at this
                  simp only [List.length_cons]
                  omega
                rw [← h.2]
                simp only [List.length_drop]
                simp only [List.length_cons] at hlen ⊢
                omega
              · split at h <;> rename_i h5
                · simp only [Except.ok.injEq, Prod.mk.injEq] at h
                  have hlen : (c :: rest).length ≥ 4 := by
                    have := congrArg List.length h5
                    simp [chars] at this
                    simp only [List.length_cons]
                    omega
                  rw [← h.2]
                  simp only [List.length_drop]
                  simp only [List.length_cons] at hlen ⊢
                  omega
                · split at h <;> rename_i h6
                  · simp only [Except.ok.injEq, Prod.mk.injEq] at h
                    have hlen : (c :: rest).length ≥ 5 := by
                      have := congrArg List.length h6
                      simp [chars] at this
                      simp only [List.length_cons]
                      omega
                    rw [← h.2]
                    simp only [List.length_drop]
                    simp only [List.length_cons] at hlen ⊢
                    omega
                  · split at h <;> rename_i heq
                    · rename_i n' r'
                      simp only [Except.ok.injEq, Prod.mk.injEq] at h
                      have := scanNumber_consumes heq
                      rw [← h.2]
                      exact this
                    · simp at h
    · intro l acc v r h
      match l with
      | [] => rw [parseMembers_succ] at h; simp at h
      | c :: rest =>
        rw [parseMembers_succ] at h
        split at h <;> rename_i hpat
        · rename_i rest'
          injection hpat with hpc hpr
          subst hpr
          split at h <;> rename_i heqs
          · simp at h
          · rename_i key r1
            have hs1 := scanString_consumes f heqs
            split at h <;> rename_i hw1
            · rename_i r2
              have hw1l : (skipWs r1).length = r2.length + 1 := by rw [hw1]; simp
              have hw1le := length_dropWhile_le isJsonWs r1
              split at h <;> rename_i heqv
              · simp at h
              · rename_i v' r3
                have hv := ihv heqv
                have hw2le := length_dropWhile_le isJsonWs r2
                split at h <;> rename_i hw3
                · rename_i r4
                  have hw3l : (skipWs r3).length = r4.length + 1 := by rw [hw3]; simp
                  have hw3le := length_dropWhile_le isJsonWs r3
                  simp only [Except.ok.injEq, Prod.mk.injEq] at h
                  rw [← h.2]
                  unfold skipWs at hw1l hw1le hw3l hw3le hv
                  simp only [List.length_cons]
                  omega
                · rename_i r4
                  have hw3l : (skipWs r3).length = r4.length + 1 := by rw [hw3]; simp
                  have hw3le := length_dropWhile_le isJsonWs r3
                  have hrec := ihm h
                  have hw4le := length_dropWhile_le isJsonWs r4
                  unfold skipWs at hw1l hw1le hw3l hw3le hv hrec hw4le
                  simp only [List.length_cons]
                  omega
                · simp at h
            · simp at h
        · simp at h
    · intro l acc v r h
      rw [parseElems_succ] at h
      split at h <;> rename_i heqv
      · simp at h
      · rename_i v' r1
        have hv := ihv heqv
        split at h <;> rename_i hw1
        · rename_i r2
          have hw1l : (skipWs r1).length = r2.length + 1 := by rw [hw1]; simp
          have hw1le := length_dropWhile_le isJsonWs r1
          simp only [Except.ok.injEq, Prod.mk.injEq] at h
          rw [← h.2]
          unfold skipWs at hw1l hw1le
          omega
        · rename_i r2
          have hw1l : (skipWs r1).length = r2.length + 1 := by rw [hw1]; simp
          have hw1le := length_dropWhile_le isJsonWs r1
          have hrec := ihe h
          have hw2le := length_dropWhile_le isJsonWs r2
          unfold skipWs at hw1l hw1le hrec hw2le
          omega
        · simp at h

-- ### The fuel `json_loads` supplies never runs out

theorem scanUIntPart_no_fuel {l : List Char} : scanUIntPart l ≠ .error .outOfFuel := by
  match l with
  | [] => simp [scanUIntPart]
  | c :: rest =>
    simp only [scanUIntPart]
    split
    · simp
    · split <;> simp

theorem scanNumber_no_fuel {l : List Char} : scanNumber l ≠ .error .outOfFuel := by
  unfold scanNumber
  split
  · cases heq : scanUIntPart l.tail with
    | ok q =>
      obtain ⟨n, r⟩ := q
      simp
    | error e =>
      dsimp only
      have h2 := scanUIntPart_no_fuel (l := l.tail)
      rw [heq] at h2
      simpa using h2
  · exact scanUIntPart_no_fuel

theorem parse_no_fuel : ∀ f : Nat,
    (∀ {l : List Char}, 2 * l.length + 1 ≤ f → parseValue f l ≠ .error .outOfFuel) ∧
    (∀ {l : List Char} {acc : List (List Char × Json)}, 2 * l.length + 1 ≤ f →
      parseMembers f l acc ≠ .error .outOfFuel) ∧
    (∀ {l : List Char} {acc : List Json}, 2 * l.length + 2 ≤ f →
      parseElems f l acc ≠ .error .outOfFuel) := by
  intro f
  induction f with
  | zero =>
    refine ⟨?_, ?_, ?_⟩ <;> (intros; omega)
  | succ f ih =>
    obtain ⟨ihv, ihm, ihe⟩ := ih
    refine ⟨?_, ?_, ?_⟩
    · intro l hf
      match l with
      | [] =>
        rw [parseValue_succ]
        simp
      | c :: rest =>
        rw [parseValue_succ]
        dsimp only
        split <;> rename_i hc1
        · cases heq : scanString f rest with
          | ok q =>
            obtain ⟨s', r'⟩ := q
            simp
          | error e =>
            dsimp only
            have h2 := scanString_no_fuel f (l := rest) (by simp at hf ⊢; omega)
            rw [heq] at h2
            simpa using h2
        · split <;> rename_i hc2
          · split
            · simp
            · refine ihm ?_
              have h1 := skipWs_length_le rest
              simp only [List.length_cons] at hf
              omega
          · split <;> rename_i hc3
            · split
              · simp
              · refine ihe ?_
                have h1 := skipWs_length_le rest
                simp only [List.length_cons] at hf
                omega
            · split
              · simp
              · split
                · simp
                · split
                  · simp
                  · cases heq : scanNumber (c :: rest) with
                    | ok q =>
                      obtain ⟨n', r'⟩ := q
                      simp
                    | error e =>
                      dsimp only
                      have h2 := scanNumber_no_fuel (l := c :: rest)
                      rw [heq] at h2
                      simpa using h2
    · intro l acc hf
      match l with
      | [] =>
        rw [parseMembers_succ]
        simp
      | c :: rest =>
        rw [parseMembers_succ]
        split <;> rename_i hpat
        · rename_i rest'
          injection hpat with hpc hpr
          subst hpr
          cases heqs : scanString f rest with
          | error e =>
            dsimp only
            have h2 := scanString_no_fuel f (l := rest) (by simp at hf ⊢; omega)
            rw [heqs] at h2
            simpa using h2
          | ok q =>
            obtain ⟨key, r1⟩ := q
            dsimp only
            have hs1 := scanString_consumes f heqs
            split <;> rename_i hw1
            · rename_i r2
              have hw1l : (skipWs r1).length = r2.length + 1 := by rw [hw1]; simp
              have hw1le := skipWs_length_le r1
              cases heqv : parseValue f (skipWs r2) with
              | error e =>
                dsimp only
                have hw2le := skipWs_length_le r2
                have h2 := ihv (l := skipWs r2) (by
                  simp only [List.length_cons] at hf
                  omega)
                rw [heqv] at h2
                simpa using h2
              | ok q2 =>
                obtain ⟨v', r3⟩ := q2
                dsimp only
                have hv := (parse_consumes f).1 heqv
                have hw2le := skipWs_length_le r2
                split <;> rename_i hw3
                · simp
                · rename_i r4
                  have hw3l : (skipWs r3).length = r4.length + 1 := by rw [hw3]; simp
                  have hw3le := skipWs_length_le r3
                  refine ihm ?_
                  have hw4le := skipWs_length_le r4
                  simp only [List.length_cons] at hf
                  omega
                · simp
            · simp
        · simp
    · intro l acc hf
      rw [parseElems_succ]
      cases heqv : parseValue f l with
      | error e =>
        dsimp only
        have h2 := ihv (l := l) (by omega)
        rw [heqv] at h2
        simpa using h2
      | ok q =>
        obtain ⟨v', r1⟩ := q
        dsimp only
        have hv := (parse_consumes f).1 heqv
        split <;> rename_i hw1
        · simp
        · rename_i r2
          have hw1l : (skipWs r1).length = r2.length + 1 := by rw [hw1]; simp
          have hw1le := skipWs_length_le r1
          refine ihe ?_
          have hw2le := skipWs_length_le r2
          omega
        · simp

-- ### Fuel monotonicity: results other than fuel exhaustion are stable

theorem parse_mono : ∀ f : Nat,
    (∀ {l : List Char} {res}, parseValue f l = res → res ≠ .error .outOfFuel →
      parseValue (f+1) l = res) ∧
    (∀ {l : List Char} {acc : List (List Char × Json)} {res},
      parseMembers f l acc = res → res ≠ .error .outOfFuel →
      parseMembers (f+1) l acc = res) ∧
    (∀ {l : List Char} {acc : List Json} {res},
      parseElems f l acc = res → res ≠ .error .outOfFuel →
      parseElems (f+1) l acc = res) := by
  intro f
  induction f with
  | zero =>
    refine ⟨?_, ?_, ?_⟩ <;> intro _ <;> intros <;> simp_all [parseValue, parseMembers, parseElems]
  | succ f ih =>
    obtain ⟨ihv, ihm, ihe⟩ := ih
    refine ⟨?_, ?_, ?_⟩
    · intro l res h hne
      match l with
      | [] =>
        rw [parseValue_succ] at h ⊢
        exact h
      | c :: rest =>
        rw [parseValue_succ] at h
        rw [parseValue_succ]
        dsimp only at h ⊢
        split at h <;> rename_i hc1
        · rw [if_pos hc1]
          cases hscan : scanString f rest with
          | error e =>
            rw [hscan] at h
            dsimp only at h
            have he : e ≠ JsonErrMsg.outOfFuel := by
              intro heq
              exact hne (by rw [← h, heq])
            rw [scanString_mono f hscan (by simp [he])]
            dsimp only
            exact h
          | ok q =>
            rw [hscan] at h
            rw [scanString_mono f hscan (by simp)]
            exact h
        · rw [if_neg hc1]
          split at h <;> rename_i hc2
          · rw [if_pos hc2]
            split at h <;> rename_i hw
            · rw [if_pos hw]
              exact h
            · rw [if_neg hw]
              exact ihm h hne
          · rw [if_neg hc2]
            split at h <;> rename_i hc3
            · rw [if_pos hc3]
              split at h <;> rename_i hw
              · rw [if_pos hw]
                exact h
              · rw [if_neg hw]
                exact ihe h hne
            · rw [if_neg hc3]
              split at h <;> rename_i h4
              · rw [if_pos h4]
                exact h
              · rw [if_neg h4]
                split at h <;> rename_i h5
                · rw [if_pos h5]
                  exact h
                · rw [if_neg h5]
                  split at h <;> rename_i h6
                  · rw [if_pos h6]
                    exact h
                  · rw [if_neg h6]
                    exact h
    · intro l acc res h hne
      match l with
      | [] =>
        rw [parseMembers_succ] at h ⊢
        exact h
      | c :: rest =>
        rw [parseMembers_succ] at h
        rw [parseMembers_succ]
        split at h <;> rename_i hpat
        · rename_i rest'
          injection hpat with hpc hpr
          subst hpc
          subst hpr
          cases hscan : scanString f rest with
          | error e =>
            rw [hscan] at h
            dsimp only at h
            have he : e ≠ JsonErrMsg.outOfFuel := by
              intro heq
              exact hne (by rw [← h, heq])
            rw [scanString_mono f hscan (by simp [he])]
            dsimp only
            exact h
          | ok q =>
            obtain ⟨key, r1⟩ := q
            rw [hscan] at h
            rw [scanString_mono f hscan (by simp)]
            dsimp only at h ⊢
            split at h <;> rename_i hw1
            · rename_i r2
              cases heqv : parseValue f (skipWs r2) with
              | error e =>
                rw [heqv] at h
                dsimp only at h
                have he : e ≠ JsonErrMsg.outOfFuel := by
                  intro heq
                  exact hne (by rw [← h, heq])
                rw [ihv heqv (by simp [he])]
                dsimp only
                exact h
              | ok q2 =>
                obtain ⟨v', r3⟩ := q2
                rw [heqv] at h
                rw [ihv heqv (by simp)]
                dsimp only at h ⊢
                split at h <;> rename_i hw3
                · exact h
                · exact ihm h hne
                · exact h
            · exact h
        · exact h
    · intro l acc res h hne
      rw [parseElems_succ] at h
      rw [parseElems_succ]
      cases heqv : parseValue f l with
      | error e =>
        rw [heqv] at h
        dsimp only at h
        have he : e ≠ JsonErrMsg.outOfFuel := by
          intro heq
          exact hne (by rw [← h, heq])
        rw [ihv heqv (by simp [he])]
        dsimp only
        exact h
      | ok q =>
        obtain ⟨v', r1⟩ := q
        rw [heqv] at h
        rw [ihv heqv (by simp)]
        dsimp only at h ⊢
        split at h <;> rename_i hw1
        · exact h
        · exact ihe h hne
        · exact h

theorem parseValue_mono_le {f g : Nat} (hfg : f ≤ g) {l : List Char} {res}
    (h : parseValue f l = res) (hne : res ≠ .error .outOfFuel) : parseValue g l = res := by
  induction g with
  | zero =>
    have : f = 0 := by omega
    subst this
    exact h
  | succ g ihg =>
    rcases Nat.lt_or_ge f (g+1) with hlt | hge
    · exact (parse_mono g).1 (ihg (by omega)) hne
    · have : f = g + 1 := by omega
      subst this
      exact h

/-- Any two sufficient fuels give the same parse. -/
theorem parseValue_fuel_irrel {f g : Nat} {l : List Char}
    (hf : 2 * l.length + 1 ≤ f) (hg : 2 * l.length + 1 ≤ g) :
    parseValue f l = parseValue g l := by
  rcases Nat.le_total f g with hfg | hgf
  · exact (parseValue_mono_le hfg rfl ((parse_no_fuel f).1 hf)).symm
  · exact parseValue_mono_le hgf rfl ((parse_no_fuel g).1 hg)

-- ### Whitespace and takeWhile helpers for the splice lemma

theorem takeWhile_append_of {p : Char → Bool} {a r : List Char}
    (ha : ∀ c ∈ a, p c = true) (hr : ∀ c, r.head? = some c → p c = false) :
    (a ++ r).takeWhile p = a ∧ (a ++ r).dropWhile p = r := by
  induction a with
  | nil =>
    simp only [List.nil_append]
    match r with
    | [] => simp
    | c :: t =>
      have := hr c rfl
      simp [List.takeWhile_cons, List.dropWhile_cons, this]
  | cons x t ih =>
    have hx := ha x (by simp)
    have ih2 := ih (fun c hc => ha c (by simp [hc]))
    simp only [List.cons_append, List.takeWhile_cons, List.dropWhile_cons, hx, if_true]
    simp [ih2.1, ih2.2]

theorem skipWs_append_ws {a x : List Char}
    (ha : ∀ c ∈ a, isJsonWs c = true) (hx : ∀ c, x.head? = some c → isJsonWs c = false) :
    skipWs (a ++ x) = x := by
  unfold skipWs
  rw [dropWhile_append_all x ha]
  match x with
  | [] => rfl
  | c :: t => exact dropWhile_cons_neg (hx c rfl) t

theorem skipWs_decomp (l : List Char) :
    l = l.takeWhile isJsonWs ++ skipWs l :=
  (List.takeWhile_append_dropWhile isJsonWs l).symm

theorem skipWs_head_false {l : List Char} {c : Char} {t : List Char}
    (h : skipWs l = c :: t) : isJsonWs c = false :=
  dropWhile_head_false h

-- ### Splice lemmas for the number scanner

theorem scanUIntPart_splice {l : List Char} {n : Int} {r0 r1 : List Char}
    (h : scanUIntPart l = .ok (n, r0 ++ r1)) :
    ∃ cu, cu ≠ [] ∧ l = cu ++ r0 ++ r1 ∧ scanUIntPart (cu ++ r0) = .ok (n, r0) := by
  match l with
  | [] => simp [scanUIntPart] at h
  | c :: rest =>
    simp only [scanUIntPart] at h
    split at h <;> rename_i hc0
    · simp only [Except.ok.injEq, Prod.mk.injEq] at h
      refine ⟨[c], by simp, by simp [h.2], ?_⟩
      subst hc0
      simp only [List.cons_append, List.nil_append, scanUIntPart]
      simp [← h.1]
    · split at h <;> rename_i hcd
      · simp only [Except.ok.injEq, Prod.mk.injEq] at h
        obtain ⟨hn, hr⟩ := h
        refine ⟨(c :: rest).takeWhile Char.isDigit, ?_, ?_, ?_⟩
        · simp [List.takeWhile_cons, hcd]
        · conv_lhs => rw [← List.takeWhile_append_dropWhile Char.isDigit (c :: rest)]
          rw [hr]
          simp
        · have hdig : ∀ x ∈ (c :: rest).takeWhile Char.isDigit, x.isDigit = true :=
            fun x hx => List.mem_takeWhile_imp hx
          have hr0 : ∀ x, r0.head? = some x → x.isDigit = false := by
            intro x hx
            match r0, hx with
            | y :: t, rfl =>
              exact dropWhile_head_false (p := Char.isDigit) (by rw [hr]; rfl)
          obtain ⟨htw, hdw⟩ := takeWhile_append_of hdig hr0
          have hne : (c :: rest).takeWhile Char.isDigit = c :: rest.takeWhile Char.isDigit := by
            simp [List.takeWhile_cons, hcd]
          rw [hne]
          simp only [List.cons_append, scanUIntPart]
          rw [if_neg hc0, if_pos hcd]
          rw [hne] at htw hdw
          simp only [List.cons_append] at htw hdw
          rw [List.takeWhile_cons, if_pos hcd] at htw ⊢
          rw [List.dropWhile_cons, if_pos hcd] at hdw ⊢
          rw [htw, hdw, ← hn, hne]
      · simp at h

theorem scanNumber_head {l : List Char} {n : Int} {r : List Char}
    (h : scanNumber l = .ok (n, r)) :
    ∃ c rest, l = c :: rest ∧ (c = '-' ∨ c.isDigit = true) := by
  unfold scanNumber at h
  split at h <;> rename_i hminus
  · match l with
    | [] => simp at hminus
    | c :: rest =>
      simp only [List.head?_cons, Option.some.injEq] at hminus
      exact ⟨c, rest, rfl, Or.inl hminus⟩
  · match l with
    | [] => simp [scanUIntPart] at h
    | c :: rest =>
      simp only [scanUIntPart] at h
      split at h <;> rename_i hc0
      · exact ⟨c, rest, rfl, Or.inr (by simp [hc0])⟩
      · split at h <;> rename_i hcd
        · exact ⟨c, rest, rfl, Or.inr hcd⟩
        · simp at h

theorem scanNumber_splice {l : List Char} {n : Int} {r0 r1 : List Char}
    (h : scanNumber l = .ok (n, r0 ++ r1)) :
    ∃ cn, cn ≠ [] ∧ l = cn ++ r0 ++ r1 ∧ scanNumber (cn ++ r0) = .ok (n, r0) := by
  unfold scanNumber at h
  split at h <;> rename_i hminus
  · match l with
    | [] => simp at hminus
    | c :: rest =>
      simp only [List.head?_cons, Option.some.injEq] at hminus
      subst hminus
      simp only [List.tail_cons] at h
      split at h <;> rename_i heq
      · simp only [Except.ok.injEq, Prod.mk.injEq] at h
        obtain ⟨hn, hr⟩ := h
        rename_i n2 r2
        subst hr
        obtain ⟨cu, hcu, hsplit, hnew⟩ := scanUIntPart_splice heq
        refine ⟨'-' :: cu, by simp, by simp [hsplit], ?_⟩
        unfold scanNumber
        rw [if_pos (by simp)]
        simp only [List.cons_append, List.tail_cons]
        rw [hnew]
        dsimp only
        rw [← hn]
      · simp at h
  · obtain ⟨cu, hcu, hsplit, hnew⟩ := scanUIntPart_splice h
    refine ⟨cu, hcu, hsplit, ?_⟩
    unfold scanNumber
    rw [if_neg ?_]
    · exact hnew
    · intro hhead
      match cu, hcu with
      | c :: ct, _ =>
        simp only [List.cons_append, List.head?_cons, Option.some.injEq] at hhead
        rw [hsplit] at hminus
        simp [hhead] at hminus

theorem chars_null : chars "null" = ['n', 'u', 'l', 'l'] := rfl

theorem chars_true : chars "true" = ['t', 'r', 'u', 'e'] := rfl

theorem chars_false : chars "false" = ['f', 'a', 'l', 's', 'e'] := rfl

theorem head_of_take_eq {x c0 : Char} {t w : List Char} {n : Nat}
    (h : (x :: t).take (n+1) = c0 :: w) : x = c0 := by
  simp only [List.take_succ_cons, List.cons.injEq] at h
  exact h.1

theorem number_head_ne {c : Char} (hc0 : c = '-' ∨ c.isDigit = true) :
    c ≠ '"' ∧ c ≠ '\x7b' ∧ c ≠ '[' ∧ c ≠ 'n' ∧ c ≠ 't' ∧ c ≠ 'f' := by
  rcases hc0 with rfl | hd
  · exact ⟨by decide, by decide, by decide, by decide, by decide, by decide⟩
  · refine ⟨?_, ?_, ?_, ?_, ?_, ?_⟩ <;> (intro heq; subst heq; revert hd; decide)

/-- Removing a suffix of the final rest of a successful parse leaves a
successful parse of the same value: the scanners never look past the
characters they consume, except that a number must not be followed by a
digit — and a prefix of the old rest preserves that boundary. -/
theorem parse_splice : ∀ f : Nat,
    (∀ {l : List Char} {v : Json} {s0 s1 : List Char},
      parseValue f l = .ok (v, s0 ++ s1) →
      ∃ cs, l = cs ++ s0 ++ s1 ∧ parseValue f (cs ++ s0) = .ok (v, s0)) ∧
    (∀ {l : List Char} {acc : List (List Char × Json)} {v : Json} {s0 s1 : List Char},
      parseMembers f l acc = .ok (v, s0 ++ s1) →
      ∃ cs, l = cs ++ s0 ++ s1 ∧ parseMembers f (cs ++ s0) acc = .ok (v, s0)) ∧
    (∀ {l : List Char} {acc : List Json} {v : Json} {s0 s1 : List Char},
      parseElems f l acc = .ok (v, s0 ++ s1) →
      ∃ cs, l = cs ++ s0 ++ s1 ∧ parseElems f (cs ++ s0) acc = .ok (v, s0)) := by
  intro f
  induction f with
  | zero =>
    refine ⟨?_, ?_, ?_⟩ <;> intros <;> simp_all [parseValue, parseMembers, parseElems]
  | succ f ih =>
    obtain ⟨ihv, ihm, ihe⟩ := ih
    refine ⟨?_, ?_, ?_⟩
    · intro l v s0 s1 h
      match l with
      | [] =>
        rw [parseValue_succ] at h
        simp at h
      | c :: rest =>
        rw [parseValue_succ] at h
        dsimp only at h
        split at h <;> rename_i hc1
        · -- string
          split at h <;> rename_i heq
          · rename_i key r'
            simp only [Except.ok.injEq, Prod.mk.injEq] at h
            obtain ⟨hv, hr⟩ := h
            subst hr
            subst hc1
            obtain ⟨css, hsp, hnew⟩ := scanString_splice f heq
            refine ⟨'"' :: css, by simp [hsp], ?_⟩
            have hform : ('"' :: css) ++ s0 = '"' :: (css ++ s0) := by simp
            rw [hform, parseValue_succ]
            dsimp only
            rw [if_pos rfl, hnew]
            dsimp only
            rw [← hv]
          · simp at h
        · split at h <;> rename_i hc2
          · -- object
            subst hc2
            split at h <;> rename_i hw
            · -- empty object
              simp only [Except.ok.injEq, Prod.mk.injEq] at h
              obtain ⟨hv, ht⟩ := h
              have hcons : skipWs rest = '\x7d' :: (s0 ++ s1) := by
                cases hsw : skipWs rest with
                | nil =>
                  rw [hsw] at hw
                  simp at hw
                | cons x t =>
                  rw [hsw] at hw ht
                  simp only [List.head?_cons, Option.some.injEq] at hw
                  simp only [List.tail_cons] at ht
                  rw [hw, ht]
              have hds := skipWs_decomp rest
              rw [hcons] at hds
              refine ⟨'\x7b' :: (rest.takeWhile isJsonWs ++ ['\x7d']), ?_, ?_⟩
              · rw [List.cons_append]
                conv_lhs => rw [hds]
                simp
              · have hform : ('\x7b' :: (rest.takeWhile isJsonWs ++ ['\x7d'])) ++ s0 =
                    '\x7b' :: (rest.takeWhile isJsonWs ++ ('\x7d' :: s0)) := by simp
                rw [hform, parseValue_succ]
                dsimp only
                rw [if_neg (by decide), if_pos rfl]
                rw [skipWs_append_ws (fun c hc => List.mem_takeWhile_imp hc)
                  (by intro c hc; simp only [List.head?_cons, Option.some.injEq] at hc; subst hc; decide)]
                simp only [List.head?_cons, List.tail_cons]
                simp only [if_true]
                rw [← hv]
            · -- non-empty object
              obtain ⟨cm, hsp, hnew⟩ := ihm h
              have hcm : cm ≠ [] := by
                intro hnil
                subst hnil
                have := (parse_consumes f).2.1 hnew
                simp at this
              match cm, hcm with
              | x :: cm', _ =>
                have hxws : isJsonWs x = false := skipWs_head_false (by rw [hsp]; rfl)
                have hxbr : x ≠ '\x7d' := by
                  intro hx
                  rw [hsp, hx] at hw
                  simp at hw
                have hds := skipWs_decomp rest
                rw [hsp] at hds
                refine ⟨'\x7b' :: (rest.takeWhile isJsonWs ++ (x :: cm')), ?_, ?_⟩
                · rw [List.cons_append]
                  conv_lhs => rw [hds]
                  simp
                · have hform : ('\x7b' :: (rest.takeWhile isJsonWs ++ (x :: cm'))) ++ s0 =
                      '\x7b' :: (rest.takeWhile isJsonWs ++ (x :: (cm' ++ s0))) := by simp
                  rw [hform, parseValue_succ]
                  dsimp only
                  rw [if_neg (by decide), if_pos rfl]
                  rw [skipWs_append_ws (fun c hc => List.mem_takeWhile_imp hc)
                    (by intro c hc; simp only [List.head?_cons, Option.some.injEq] at hc; subst hc; exact hxws)]
                  rw [if_neg (by simp [hxbr])]
                  have : x :: (cm' ++ s0) = (x :: cm') ++ s0 := by simp
                  rw [this]
                  exact hnew
          · split at h <;> rename_i hc3
            · -- array
              subst hc3
              split at h <;> rename_i hw
              · -- empty array
                simp only [Except.ok.injEq, Prod.mk.injEq] at h
                obtain ⟨hv, ht⟩ := h
                have hcons : skipWs rest = ']' :: (s0 ++ s1) := by
                  cases hsw : skipWs rest with
                  | nil =>
                    rw [hsw] at hw
                    simp at hw
                  | cons x t =>
                    rw [hsw] at hw ht
                    simp only [List.head?_cons, Option.some.injEq] at hw
                    simp only [List.tail_cons] at ht
                    rw [hw, ht]
                have hds := skipWs_decomp rest
                rw [hcons] at hds
                refine ⟨'[' :: (rest.takeWhile isJsonWs ++ [']']), ?_, ?_⟩
                · rw [List.cons_append]
                  conv_lhs => rw [hds]
                  simp
                · have hform : ('[' :: (rest.takeWhile isJsonWs ++ [']'])) ++ s0 =
                      '[' :: (rest.takeWhile isJsonWs ++ (']' :: s0)) := by simp
                  rw [hform, parseValue_succ]
                  dsimp only
                  rw [if_neg (by decide), if_neg (by decide), if_pos rfl]
                  rw [skipWs_append_ws (fun c hc => List.mem_takeWhile_imp hc)
                    (by intro c hc; simp only [List.head?_cons, Option.some.injEq] at hc; subst hc; decide)]
                  simp only [List.head?_cons, List.tail_cons]
                  simp only [if_true]
                  rw [← hv]
              · -- non-empty array
                obtain ⟨cm, hsp, hnew⟩ := ihe h
                have hcm : cm ≠ [] := by
                  intro hnil
                  subst hnil
                  have := (parse_consumes f).2.2 hnew
                  simp at this
                match cm, hcm with
                | x :: cm', _ =>
                  have hxws : isJsonWs x = false := skipWs_head_false (by rw [hsp]; rfl)
                  have hxbr : x ≠ ']' := by
                    intro hx
                    rw [hsp, hx] at hw
                    simp at hw
                  have hds := skipWs_decomp rest
                  rw [hsp] at hds
                  refine ⟨'[' :: (rest.takeWhile isJsonWs ++ (x :: cm')), ?_, ?_⟩
                  · rw [List.cons_append]
                    conv_lhs => rw [hds]
                    simp
                  · have hform : ('[' :: (rest.takeWhile isJsonWs ++ (x :: cm'))) ++ s0 =
                        '[' :: (rest.takeWhile isJsonWs ++ (x :: (cm' ++ s0))) := by simp
                    rw [hform, parseValue_succ]
                    dsimp only
                    rw [if_neg (by decide), if_neg (by decide), if_pos rfl]
                    rw [skipWs_append_ws (fun c hc => List.mem_takeWhile_imp hc)
                      (by intro c hc; simp only [List.head?_cons, Option.some.injEq] at hc; subst hc; exact hxws)]
                    rw [if_neg (by simp [hxbr])]
                    have : x :: (cm' ++ s0) = (x :: cm') ++ s0 := by simp
                    rw [this]
                    exact hnew
            · split at h <;> rename_i h4
              · -- null literal
                simp only [Except.ok.injEq, Prod.mk.injEq] at h
                obtain ⟨hv, hd⟩ := h
                refine ⟨chars "null", ?_, ?_⟩
                · conv_lhs => rw [← List.take_append_drop 4 (c :: rest)]
                  rw [h4, hd, List.append_assoc]
                · have hform : chars "null" ++ s0 = 'n' :: ('u' :: ('l' :: ('l' :: s0))) := rfl
                  rw [hform, parseValue_succ]
                  dsimp only
                  rw [if_neg (by decide), if_neg (by decide), if_neg (by decide),
                    if_pos (by rfl)]
                  simp only [List.drop_succ_cons, List.drop_zero]
                  rw [← hv]
              · split at h <;> rename_i h5
                · -- true literal
                  simp only [Except.ok.injEq, Prod.mk.injEq] at h
                  obtain ⟨hv, hd⟩ := h
                  refine ⟨chars "true", ?_, ?_⟩
                  · conv_lhs => rw [← List.take_append_drop 4 (c :: rest)]
                    rw [h5, hd, List.append_assoc]
                  · have hform : chars "true" ++ s0 = 't' :: ('r' :: ('u' :: ('e' :: s0))) := rfl
                    rw [hform, parseValue_succ]
                    dsimp only
                    rw [if_neg (by decide), if_neg (by decide), if_neg (by decide)]
                    rw [if_neg (fun hcon => by
                      rw [chars_null] at hcon
                      exact absurd (head_of_take_eq hcon) (by decide))]
                    rw [if_pos (by rfl)]
                    simp only [List.drop_succ_cons, List.drop_zero]
                    rw [← hv]
                · split at h <;> rename_i h6
                  · -- false literal
                    simp only [Except.ok.injEq, Prod.mk.injEq] at h
                    obtain ⟨hv, hd⟩ := h
                    refine ⟨chars "false", ?_, ?_⟩
                    · conv_lhs => rw [← List.take_append_drop 5 (c :: rest)]
                      rw [h6, hd, List.append_assoc]
                    · have hform : chars "false" ++ s0 =
                        'f' :: ('a' :: ('l' :: ('s' :: ('e' :: s0)))) := rfl
                      rw [hform, parseValue_succ]
                      dsimp only
                      rw [if_neg (by decide), if_neg (by decide), if_neg (by decide)]
                      rw [if_neg (fun hcon => by
                        rw [chars_null] at hcon
                        exact absurd (head_of_take_eq hcon) (by decide))]
                      rw [if_neg (fun hcon => by
                        rw [chars_true] at hcon
                        exact absurd (head_of_take_eq hcon) (by decide))]
                      rw [if_pos (by rfl)]
                      simp only [List.drop_succ_cons, List.drop_zero]
                      rw [← hv]
                  · -- number
                    split at h <;> rename_i heq
                    · rename_i n' r'
                      simp only [Except.ok.injEq, Prod.mk.injEq] at h
                      obtain ⟨hv, hr⟩ := h
                      subst hr
                      obtain ⟨cn, hcn, hsp, hnew⟩ := scanNumber_splice heq
                      obtain ⟨c0, rest0, hc0form, hc0⟩ := scanNumber_head heq
                      have hcc : c0 = c := by
                        injection hc0form with h1 h2
                        exact h1.symm
                      subst hcc
                      obtain ⟨hne1, hne2, hne3, hne4, hne5, hne6⟩ := number_head_ne hc0
                      refine ⟨cn, hsp, ?_⟩
                      match cn, hcn with
                      | x :: cn', _ =>
                        have hx : x = c0 := by
                          have := congrArg List.head? hsp
                          simpa using this.symm
                        subst hx
                        rw [List.cons_append, parseValue_succ]
                        dsimp only
                        rw [if_neg hne1, if_neg hne2, if_neg hne3]
                        rw [if_neg (fun hcon => hne4 (by
                          rw [chars_null] at hcon
                          exact head_of_take_eq hcon))]
                        rw [if_neg (fun hcon => hne5 (by
                          rw [chars_true] at hcon
                          exact head_of_take_eq hcon))]
                        rw [if_neg (fun hcon => hne6 (by
                          rw [chars_false] at hcon
                          exact head_of_take_eq hcon))]
                        have halign : x :: (cn' ++ s0) = (x :: cn') ++ s0 := by simp
                        rw [halign, hnew]
                        dsimp only
                        rw [← hv]
                    · simp at h
    · intro l acc v s0 s1 h
      rw [parseMembers_succ] at h
      split at h
      · rename_i rest
        split at h <;> rename_i heqs
        · simp at h
        · rename_i key r1
          split at h <;> rename_i hw1
          · rename_i r2
            split at h <;> rename_i heqv
            · simp at h
            · rename_i v' r3
              split at h <;> rename_i hw3
              · -- closing brace
                rename_i r4
                simp only [Except.ok.injEq, Prod.mk.injEq] at h
                obtain ⟨hv, hr4⟩ := h
                subst hr4
                have hds3 := skipWs_decomp r3
                rw [hw3] at hds3
                have hr3' : r3 = (r3.takeWhile isJsonWs ++ ('\x7d' :: s0)) ++ s1 := by
                  conv_lhs => rw [hds3]
                  simp
                rw [hr3'] at heqv
                obtain ⟨cv, hspv, hnewv⟩ := ihv heqv
                have hcv : cv ≠ [] := by
                  intro hnil
                  subst hnil
                  have := (parse_consumes f).1 hnewv
                  simp at this
                match cv, hcv with
                | y :: cv', _ =>
                  have hyws : isJsonWs y = false := skipWs_head_false (by rw [hspv]; rfl)
                  have hds2 := skipWs_decomp r2
                  rw [hspv] at hds2
                  have hds1 := skipWs_decomp r1
                  rw [hw1] at hds1
                  have hr1' : r1 = (r1.takeWhile isJsonWs ++ (':' ::
                      (r2.takeWhile isJsonWs ++ (y :: (cv' ++
                      (r3.takeWhile isJsonWs ++ ('\x7d' :: s0))))))) ++ s1 := by
                    conv_lhs => rw [hds1, hds2]
                    simp
                  rw [hr1'] at heqs
                  obtain ⟨css, hsps, hnews⟩ := scanString_splice f heqs
                  refine ⟨'"' :: (css ++ (r1.takeWhile isJsonWs ++ (':' ::
                    (r2.takeWhile isJsonWs ++ (y :: (cv' ++
                    (r3.takeWhile isJsonWs ++ ['\x7d']))))))), ?_, ?_⟩
                  · rw [hsps]
                    simp
                  · have hform : ('"' :: (css ++ (r1.takeWhile isJsonWs ++ (':' ::
                        (r2.takeWhile isJsonWs ++ (y :: (cv' ++
                        (r3.takeWhile isJsonWs ++ ['\x7d'])))))))) ++ s0 =
                        '"' :: (css ++ (r1.takeWhile isJsonWs ++ (':' ::
                        (r2.takeWhile isJsonWs ++ (y :: (cv' ++
                        (r3.takeWhile isJsonWs ++ ('\x7d' :: s0)))))))) := by simp
                    have hsk1 : skipWs (r1.takeWhile isJsonWs ++ (':' ::
                        (r2.takeWhile isJsonWs ++ (y :: (cv' ++
                        (r3.takeWhile isJsonWs ++ ('\x7d' :: s0))))))) =
                        ':' :: (r2.takeWhile isJsonWs ++ (y :: (cv' ++
                        (r3.takeWhile isJsonWs ++ ('\x7d' :: s0))))) :=
                      skipWs_append_ws (fun c hc => List.mem_takeWhile_imp hc)
                        (by intro c hc; simp only [List.head?_cons, Option.some.injEq] at hc
                            subst hc; decide)
                    have hsk2 : skipWs (r2.takeWhile isJsonWs ++ (y :: (cv' ++
                        (r3.takeWhile isJsonWs ++ ('\x7d' :: s0))))) =
                        y :: (cv' ++ (r3.takeWhile isJsonWs ++ ('\x7d' :: s0))) :=
                      skipWs_append_ws (fun c hc => List.mem_takeWhile_imp hc)
                        (by intro c hc; simp only [List.head?_cons, Option.some.injEq] at hc
                            subst hc; exact hyws)
                    have hsk3 : skipWs (r3.takeWhile isJsonWs ++ ('\x7d' :: s0)) =
                        '\x7d' :: s0 :=
                      skipWs_append_ws (fun c hc => List.mem_takeWhile_imp hc)
                        (by intro c hc; simp only [List.head?_cons, Option.some.injEq] at hc
                            subst hc; decide)
                    rw [List.cons_append] at hnewv
                    rw [hform, parseMembers_succ]
                    simp [hnews, hsk1, hsk2, hnewv, hsk3, hv]
              · -- comma, next member
                rename_i r4
                obtain ⟨cm, hspm, hnewm⟩ := ihm h
                have hcm : cm ≠ [] := by
                  intro hnil
                  subst hnil
                  have := (parse_consumes f).2.1 hnewm
                  simp at this
                match cm, hcm with
                | x :: cm', _ =>
                  have hxws : isJsonWs x = false := skipWs_head_false (by rw [hspm]; rfl)
                  have hds4 := skipWs_decomp r4
                  rw [hspm] at hds4
                  have hds3 := skipWs_decomp r3
                  rw [hw3] at hds3
                  have hr3' : r3 = (r3.takeWhile isJsonWs ++ (',' ::
                      (r4.takeWhile isJsonWs ++ (x :: (cm' ++ s0))))) ++ s1 := by
                    conv_lhs => rw [hds3, hds4]
                    simp
                  rw [hr3'] at heqv
                  obtain ⟨cv, hspv, hnewv⟩ := ihv heqv
                  have hcv : cv ≠ [] := by
                    intro hnil
                    subst hnil
                    have := (parse_consumes f).1 hnewv
                    simp at this
                  match cv, hcv with
                  | y :: cv', _ =>
                    have hyws : isJsonWs y = false :=
                      skipWs_head_false (by rw [hspv]; rfl)
                    have hds2 := skipWs_decomp r2
                    rw [hspv] at hds2
                    have hds1 := skipWs_decomp r1
                    rw [hw1] at hds1
                    have hr1' : r1 = (r1.takeWhile isJsonWs ++ (':' ::
                        (r2.takeWhile isJsonWs ++ (y :: (cv' ++
                        (r3.takeWhile isJsonWs ++ (',' ::
                        (r4.takeWhile isJsonWs ++ (x :: (cm' ++ s0)))))))))) ++ s1 := by
                      conv_lhs => rw [hds1, hds2]
                      simp
                    rw [hr1'] at heqs
                    obtain ⟨css, hsps, hnews⟩ := scanString_splice f heqs
                    refine ⟨'"' :: (css ++ (r1.takeWhile isJsonWs ++ (':' ::
                      (r2.takeWhile isJsonWs ++ (y :: (cv' ++
                      (r3.takeWhile isJsonWs ++ (',' ::
                      (r4.takeWhile isJsonWs ++ (x :: cm')))))))))), ?_, ?_⟩
                    · rw [hsps]
                      simp
                    · have hform : ('"' :: (css ++ (r1.takeWhile isJsonWs ++ (':' ::
                          (r2.takeWhile isJsonWs ++ (y :: (cv' ++
                          (r3.takeWhile isJsonWs ++ (',' ::
                          (r4.takeWhile isJsonWs ++ (x :: cm'))))))))))) ++ s0 =
                          '"' :: (css ++ (r1.takeWhile isJsonWs ++ (':' ::
                          (r2.takeWhile isJsonWs ++ (y :: (cv' ++
                          (r3.takeWhile isJsonWs ++ (',' ::
                          (r4.takeWhile isJsonWs ++ (x :: (cm' ++ s0))))))))))) := by simp
                      have hsk1 : skipWs (r1.takeWhile isJsonWs ++ (':' ::
                          (r2.takeWhile isJsonWs ++ (y :: (cv' ++
                          (r3.takeWhile isJsonWs ++ (',' ::
                          (r4.takeWhile isJsonWs ++ (x :: (cm' ++ s0)))))))))) =
                          ':' :: (r2.takeWhile isJsonWs ++ (y :: (cv' ++
                          (r3.takeWhile isJsonWs ++ (',' ::
                          (r4.takeWhile isJsonWs ++ (x :: (cm' ++ s0)))))))) :=
                        skipWs_append_ws (fun c hc => List.mem_takeWhile_imp hc)
                          (by intro c hc
                              simp only [List.head?_cons, Option.some.injEq] at hc
                              subst hc; decide)
                      have hsk2 : skipWs (r2.takeWhile isJsonWs ++ (y :: (cv' ++
                          (r3.takeWhile isJsonWs ++ (',' ::
                          (r4.takeWhile isJsonWs ++ (x :: (cm' ++ s0)))))))) =
                          y :: (cv' ++ (r3.takeWhile isJsonWs ++ (',' ::
                          (r4.takeWhile isJsonWs ++ (x :: (cm' ++ s0)))))) :=
                        skipWs_append_ws (fun c hc => List.mem_takeWhile_imp hc)
                          (by intro c hc
                              simp only [List.head?_cons, Option.some.injEq] at hc
                              subst hc; exact hyws)
                      have hsk3 : skipWs (r3.takeWhile isJsonWs ++ (',' ::
                          (r4.takeWhile isJsonWs ++ (x :: (cm' ++ s0))))) =
                          ',' :: (r4.takeWhile isJsonWs ++ (x :: (cm' ++ s0))) :=
                        skipWs_append_ws (fun c hc => List.mem_takeWhile_imp hc)
                          (by intro c hc
                              simp only [List.head?_cons, Option.some.injEq] at hc
                              subst hc; decide)
                      have hsk4 : skipWs (r4.takeWhile isJsonWs ++ (x :: (cm' ++ s0))) =
                          x :: (cm' ++ s0) :=
                        skipWs_append_ws (fun c hc => List.mem_takeWhile_imp hc)
                          (by intro c hc
                              simp only [List.head?_cons, Option.some.injEq] at hc
                              subst hc; exact hxws)
                      rw [List.cons_append] at hnewv
                      rw [List.cons_append] at hnewm
                      rw [hform, parseMembers_succ]
                      simp [hnews, hsk1, hsk2, hnewv, hsk3, hsk4, hnewm]
              · simp at h
          · simp at h
      · simp at h
    · intro l acc v s0 s1 h
      rw [parseElems_succ] at h
      split at h <;> rename_i heqv
      · simp at h
      · rename_i v' r1
        split at h <;> rename_i hw1
        · -- closing bracket
          rename_i r2
          simp only [Except.ok.injEq, Prod.mk.injEq] at h
          obtain ⟨hv, hr2⟩ := h
          subst hr2
          have hds1 := skipWs_decomp r1
          rw [hw1] at hds1
          have hr1' : r1 = (r1.takeWhile isJsonWs ++ (']' :: s0)) ++ s1 := by
            conv_lhs => rw [hds1]
            simp
          rw [hr1'] at heqv
          obtain ⟨cv, hspv, hnewv⟩ := ihv heqv
          refine ⟨cv ++ (r1.takeWhile isJsonWs ++ [']']), ?_, ?_⟩
          · rw [hspv]
            simp
          · have hform : (cv ++ (r1.takeWhile isJsonWs ++ [']'])) ++ s0 =
                cv ++ (r1.takeWhile isJsonWs ++ (']' :: s0)) := by simp
            have hsk1 : skipWs (r1.takeWhile isJsonWs ++ (']' :: s0)) = ']' :: s0 :=
              skipWs_append_ws (fun c hc => List.mem_takeWhile_imp hc)
                (by intro c hc; simp only [List.head?_cons, Option.some.injEq] at hc
                    subst hc; decide)
            rw [hform, parseElems_succ, hnewv]
            dsimp only
            rw [hsk1]
            simp [← hv]
        · -- comma, next element
          rename_i r2
          obtain ⟨cm, hspm, hnewm⟩ := ihe h
          have hcm : cm ≠ [] := by
            intro hnil
            subst hnil
            have := (parse_consumes f).2.2 hnewm
            simp at this
          match cm, hcm with
          | x :: cm', _ =>
            have hxws : isJsonWs x = false := skipWs_head_false (by rw [hspm]; rfl)
            have hds2 := skipWs_decomp r2
            rw [hspm] at hds2
            have hds1 := skipWs_decomp r1
            rw [hw1] at hds1
            have hr1' : r1 = (r1.takeWhile isJsonWs ++
                (',' :: (r2.takeWhile isJsonWs ++ (x :: (cm' ++ s0))))) ++ s1 := by
              conv_lhs => rw [hds1, hds2]
              simp
            rw [hr1'] at heqv
            obtain ⟨cv, hspv, hnewv⟩ := ihv heqv
            refine ⟨cv ++ (r1.takeWhile isJsonWs ++
              (',' :: (r2.takeWhile isJsonWs ++ (x :: cm')))), ?_, ?_⟩
            · rw [hspv]
              simp
            · have hform : (cv ++ (r1.takeWhile isJsonWs ++
                  (',' :: (r2.takeWhile isJsonWs ++ (x :: cm'))))) ++ s0 =
                  cv ++ (r1.takeWhile isJsonWs ++
                  (',' :: (r2.takeWhile isJsonWs ++ (x :: (cm' ++ s0))))) := by simp
              have hsk1 : skipWs (r1.takeWhile isJsonWs ++
                  (',' :: (r2.takeWhile isJsonWs ++ (x :: (cm' ++ s0))))) =
                  ',' :: (r2.takeWhile isJsonWs ++ (x :: (cm' ++ s0))) :=
                skipWs_append_ws (fun c hc => List.mem_takeWhile_imp hc)
                  (by intro c hc; simp only [List.head?_cons, Option.some.injEq] at hc
                      subst hc; decide)
              have hsk2 : skipWs (r2.takeWhile isJsonWs ++ (x :: (cm' ++ s0))) =
                  x :: (cm' ++ s0) :=
                skipWs_append_ws (fun c hc => List.mem_takeWhile_imp hc)
                  (by intro c hc; simp only [List.head?_cons, Option.some.injEq] at hc
                      subst hc; exact hxws)
              rw [hform, parseElems_succ, hnewv]
              dsimp only
              rw [hsk1]
              rw [List.cons_append] at hnewm
              simp [hsk2, hnewm]
        · simp at h

-- ### Constructor and boundary shape of successful parses

theorem parse_ctor : ∀ f : Nat,
    (∀ {l : List Char} {acc : List (List Char × Json)} {v : Json} {r : List Char},
      parseMembers f l acc = .ok (v, r) → ∃ ms, v = .obj ms) ∧
    (∀ {l : List Char} {acc : List Json} {v : Json} {r : List Char},
      parseElems f l acc = .ok (v, r) → ∃ xs, v = .arr xs) := by
  intro f
  induction f with
  | zero => refine ⟨?_, ?_⟩ <;> intros <;> simp_all [parseMembers, parseElems]
  | succ f ih =>
    obtain ⟨ihm, ihe⟩ := ih
    constructor
    · intro l acc v r h
      rw [parseMembers_succ] at h
      split at h
      · split at h <;> rename_i heqs
        · simp at h
        · rename_i key r1
          split at h <;> rename_i hw1
          · split at h <;> rename_i heqv
            · simp at h
            · rename_i v2 r3
              split at h <;> rename_i hw3
              · simp only [Except.ok.injEq, Prod.mk.injEq] at h
                exact ⟨_, h.1.symm⟩
              · exact ihm h
              · simp at h
          · simp at h
      · simp at h
    · intro l acc v r h
      rw [parseElems_succ] at h
      split at h <;> rename_i heqv
      · simp at h
      · rename_i v2 r1
        split at h <;> rename_i hw1
        · simp only [Except.ok.injEq, Prod.mk.injEq] at h
          exact ⟨_, h.1.symm⟩
        · exact ihe h
        · simp at h

theorem getLast_append_some {a b : List Char} {c : Char} (h : b.getLast? = some c) :
    (a ++ b).getLast? = some c := by
  rw [List.getLast?_append, h]
  rfl

theorem getLast_cons_some {x c : Char} {b : List Char} (h : b.getLast? = some c) :
    (x :: b).getLast? = some c :=
  getLast_append_some (a := [x]) h

/-- A successful exhaustive object-members parse ends at a `\x7d`: the input up
to the rest ends with the closing brace. -/
theorem parseMembers_last : ∀ f : Nat, ∀ {l : List Char} {acc : List (List Char × Json)} {v : Json},
    parseMembers f l acc = .ok (v, []) → l.getLast? = some '\x7d' := by
  intro f
  induction f with
  | zero => intros l acc v h; simp [parseMembers] at h
  | succ f ih =>
    intro l acc v h
    rw [parseMembers_succ] at h
    split at h
    · rename_i rest
      split at h <;> rename_i heqs
      · simp at h
      · rename_i key r1
        split at h <;> rename_i hw1
        · rename_i r2
          split at h <;> rename_i heqv
          · simp at h
          · rename_i v2 r3
            split at h <;> rename_i hw3
            · rename_i r4
              simp only [Except.ok.injEq, Prod.mk.injEq] at h
              obtain ⟨hv, hr4⟩ := h
              have hr3last : r3.getLast? = some '\x7d' := by
                have hds3 := skipWs_decomp r3
                rw [hw3, hr4] at hds3
                rw [hds3]
                exact getLast_append_some rfl
              have heqv2 : parseValue f (skipWs r2) = .ok (v2, [] ++ r3) := by simpa using heqv
              obtain ⟨cv, hspv, _⟩ := (parse_splice f).1 heqv2
              have hr2last : r2.getLast? = some '\x7d' := by
                rw [skipWs_decomp r2, hspv]
                exact getLast_append_some (getLast_append_some hr3last)
              have hr1last : r1.getLast? = some '\x7d' := by
                rw [skipWs_decomp r1, hw1]
                exact getLast_append_some (getLast_cons_some hr2last)
              have heqs2 : scanString f rest = .ok (key, [] ++ r1) := by simpa using heqs
              obtain ⟨css, hsps, _⟩ := scanString_splice f heqs2
              rw [hsps]
              exact getLast_cons_some (getLast_append_some hr1last)
            · rename_i r4
              have hr4last : (skipWs r4).getLast? = some '\x7d' := ih h
              have hr3last : r3.getLast? = some '\x7d' := by
                rw [skipWs_decomp r3, hw3, skipWs_decomp r4]
                exact getLast_append_some (getLast_cons_some (getLast_append_some hr4last))
              have heqv2 : parseValue f (skipWs r2) = .ok (v2, [] ++ r3) := by simpa using heqv
              obtain ⟨cv, hspv, _⟩ := (parse_splice f).1 heqv2
              have hr2last : r2.getLast? = some '\x7d' := by
                rw [skipWs_decomp r2, hspv]
                exact getLast_append_some (getLast_append_some hr3last)
              have hr1last : r1.getLast? = some '\x7d' := by
                rw [skipWs_decomp r1, hw1]
                exact getLast_append_some (getLast_cons_some hr2last)
              have heqs2 : scanString f rest = .ok (key, [] ++ r1) := by simpa using heqs
              obtain ⟨css, hsps, _⟩ := scanString_splice f heqs2
              rw [hsps]
              exact getLast_cons_some (getLast_append_some hr1last)
            · simp at h
        · simp at h
    · simp at h

/-- A full-input object parse ends with the closing brace. -/
theorem parseValue_obj_last : ∀ f : Nat, ∀ {l : List Char} {ms : List (List Char × Json)},
    parseValue f l = .ok (.obj ms, []) → l.getLast? = some '\x7d' := by
  intro f
  cases f with
  | zero => intro l ms h; simp [parseValue] at h
  | succ f =>
    intro l ms h
    match l with
    | [] =>
      rw [parseValue_succ] at h
      simp at h
    | c :: rest =>
      rw [parseValue_succ] at h
      dsimp only at h
      split at h <;> rename_i hc1
      · split at h <;> rename_i heq
        · simp at h
        · simp at h
      · split at h <;> rename_i hc2
        · subst hc2
          split at h <;> rename_i hw
          · simp only [Except.ok.injEq, Prod.mk.injEq] at h
            obtain ⟨_, ht⟩ := h
            have hcons : skipWs rest = ['\x7d'] := by
              cases hsw : skipWs rest with
              | nil => rw [hsw] at hw; simp at hw
              | cons x t =>
                rw [hsw] at hw ht
                simp only [List.head?_cons, Option.some.injEq] at hw
                simp only [List.tail_cons] at ht
                rw [hw, ht]
            rw [skipWs_decomp rest, hcons]
            exact getLast_cons_some (List.getLast?_concat _)
          · have hwlast : (skipWs rest).getLast? = some '\x7d' := parseMembers_last f h
            rw [skipWs_decomp rest]
            exact getLast_cons_some (getLast_append_some hwlast)
        · split at h <;> rename_i hc3
          · split at h <;> rename_i hw
            · simp at h
            · obtain ⟨xs, hxs⟩ := (parse_ctor f).2 h
              exact absurd hxs (by intro hcon; cases hcon)
          · split at h <;> rename_i hn1
            · simp at h
            · split at h <;> rename_i hn2
              · simp at h
              · split at h <;> rename_i hn3
                · simp at h
                · split at h
                  · simp at h
                  · simp at h

/-- A parse returning an object starts at an opening brace. -/
theorem parseValue_obj_head : ∀ f : Nat, ∀ {l r : List Char} {ms : List (List Char × Json)},
    parseValue f l = .ok (.obj ms, r) → l.head? = some '\x7b' := by
  intro f
  cases f with
  | zero => intro l r ms h; simp [parseValue] at h
  | succ f =>
    intro l r ms h
    match l with
    | [] =>
      rw [parseValue_succ] at h
      simp at h
    | c :: rest =>
      rw [parseValue_succ] at h
      dsimp only at h
      split at h <;> rename_i hc1
      · split at h <;> rename_i heq
        · simp at h
        · simp at h
      · split at h <;> rename_i hc2
        · rw [hc2]
          rfl
        · split at h <;> rename_i hc3
          · split at h <;> rename_i hw
            · simp at h
            · obtain ⟨xs, hxs⟩ := (parse_ctor f).2 h
              exact absurd hxs (by intro hcon; cases hcon)
          · split at h <;> rename_i hn1
            · simp at h
            · split at h <;> rename_i hn2
              · simp at h
              · split at h <;> rename_i hn3
                · simp at h
                · split at h
                  · simp at h
                  · simp at h

theorem isJsonWs_ne_braces {c : Char} (h : isJsonWs c = true) :
    c ≠ '\x7b' ∧ c ≠ '\x7d' := by
  constructor <;> (intro heq; subst heq; exact absurd h (by decide))

/-- `braceSpan` of a string that itself starts with `\x7b` and ends with
`\x7d` is the whole string. -/
theorem braceSpan_self {l : List Char} (h1 : l.head? = some '\x7b')
    (h2 : l.getLast? = some '\x7d') : braceSpan l = l := by
  unfold braceSpan
  have hd1 : l.dropWhile (fun c => !(c == '\x7b')) = l := by
    cases l with
    | nil => rfl
    | cons x t =>
      simp only [List.head?_cons, Option.some.injEq] at h1
      subst h1
      exact dropWhile_cons_neg (by decide) t
  rw [hd1]
  have hd2 : l.reverse.dropWhile (fun c => !(c == '\x7d')) = l.reverse := by
    cases hrev : l.reverse with
    | nil => rfl
    | cons x t =>
      have : l.reverse.head? = some x := by rw [hrev]; rfl
      rw [List.head?_reverse] at this
      rw [h2] at this
      simp only [Option.some.injEq] at this
      subst this
      exact dropWhile_cons_neg (by decide) t
  rw [hd2, List.reverse_reverse]

/-- Successful `json.loads`: the whitespace-stripped input splits into a core
consumed exactly by the value parser and trailing JSON whitespace. -/
theorem loads_ok_decomp {l : List Char} {v : Json} (h : json_loads l = .ok v) :
    ∃ cs rest, skipWs l = cs ++ rest ∧ (∀ c ∈ rest, isJsonWs c = true) ∧
      parseValue (2 * l.length + 1) cs = .ok (v, []) := by
  unfold json_loads at h
  split at h <;> rename_i hp
  · simp at h
  · rename_i v0 rest0
    split at h <;> rename_i hw
    · simp only [Except.ok.injEq] at h
      have hp2 : parseValue (2 * l.length + 1) (skipWs l) = .ok (v, [] ++ rest0) := by
        rw [← h]
        simpa using hp
      obtain ⟨cs, hsp, hnew⟩ := (parse_splice _).1 hp2
      refine ⟨cs, rest0, by simpa using hsp, ?_, by simpa using hnew⟩
      intro c hc
      have hw2 : rest0.dropWhile isJsonWs = [] := hw
      rw [List.dropWhile_eq_nil_iff] at hw2
      exact hw2 c hc
    · simp at h

/-- A parser core at any sufficient fuel is itself a `json.loads` success
(for a core whose first character is not whitespace). -/
theorem loads_core {cs : List Char} {v : Json} {F : Nat}
    (hF : 2 * cs.length + 1 ≤ F)
    (hhead : ∀ c, cs.head? = some c → isJsonWs c = false)
    (hp : parseValue F cs = .ok (v, [])) : json_loads cs = .ok v := by
  have hsw : skipWs cs = cs := by
    cases cs with
    | nil => rfl
    | cons x cs2 => exact dropWhile_cons_neg (hhead x rfl) _
  unfold json_loads
  rw [hsw]
  rw [parseValue_fuel_irrel (le_refl _) hF, hp]
  rfl

/-- The console extractor, on brace-free padding around a text that
`json.loads` accepts as an object, returns exactly the parse of that text. -/
theorem console_pad_extract {pre jt suf : List Char} {ms : List (List Char × Json)}
    (hpre : ∀ c ∈ pre, c ≠ '\x7b' ∧ c ≠ '\x7d')
    (hsuf : ∀ c ∈ suf, c ≠ '\x7b' ∧ c ≠ '\x7d')
    (hj : json_loads jt = .ok (.obj ms)) :
    ReqAnalyzer.extract_json (pre ++ jt ++ suf) = .ok (.obj ms) := by
  obtain ⟨cs, rest, hsp, hws, hp⟩ := loads_ok_decomp hj
  have hhead : cs.head? = some '\x7b' := parseValue_obj_head _ hp
  have hlast : cs.getLast? = some '\x7d' := parseValue_obj_last _ hp
  have hjt : jt = (jt.takeWhile isJsonWs ++ cs) ++ rest := by
    conv_lhs => rw [skipWs_decomp jt, hsp]
    simp
  have hre : pre ++ jt ++ suf = (pre ++ jt.takeWhile isJsonWs) ++ cs ++ (rest ++ suf) := by
    conv_lhs => rw [hjt]
    simp
  have hmem_cs1 : '\x7b' ∈ cs := by
    cases cs with
    | nil => simp at hhead
    | cons x t =>
      simp only [List.head?_cons, Option.some.injEq] at hhead
      rw [hhead]
      exact List.mem_cons_self _ _
  have hmem_cs2 : '\x7d' ∈ cs := List.mem_of_getLast?_eq_some hlast
  have hmem1 : '\x7b' ∈ pre ++ jt ++ suf := by
    rw [hre]
    simp [hmem_cs1]
  have hmem2 : '\x7d' ∈ pre ++ jt ++ suf := by
    rw [hre]
    simp [hmem_cs2]
  have ha : ∀ c ∈ pre ++ jt.takeWhile isJsonWs, c ≠ '\x7b' := by
    intro c hc
    rcases List.mem_append.1 hc with hc | hc
    · exact (hpre c hc).1
    · exact (isJsonWs_ne_braces (List.mem_takeWhile_imp hc)).1
  have hb1 : ∀ c ∈ rest ++ suf, c ≠ '\x7b' := by
    intro c hc
    rcases List.mem_append.1 hc with hc | hc
    · exact (isJsonWs_ne_braces (hws c hc)).1
    · exact (hsuf c hc).1
  have hb2 : ∀ c ∈ rest ++ suf, c ≠ '\x7d' := by
    intro c hc
    rcases List.mem_append.1 hc with hc | hc
    · exact (isJsonWs_ne_braces (hws c hc)).2
    · exact (hsuf c hc).2
  have hbs : braceSpan (pre ++ jt ++ suf) = cs := by
    rw [hre, braceSpan_pad ha hb1 hb2]
    exact braceSpan_self hhead hlast
  have hlen : cs.length ≤ jt.length := by
    have := congrArg List.length hjt
    simp only [List.length_append] at this
    omega
  have hloads : json_loads cs = .ok (.obj ms) :=
    loads_core (by omega)
      (fun c hc => by
        rw [hhead] at hc
        simp only [Option.some.injEq] at hc
        rw [← hc]
        decide) hp
  rw [console_eval hmem1 hmem2, hbs]
  simp [hloads]

-- ### The parser invariant: distinct object keys

theorem insertKey_any (t : List (List Char × Json)) (k : List Char) (v : Json)
    (k2 : List Char) :
    ((insertKey t k v).any fun p => p.1 == k2) =
      ((t.any fun p => p.1 == k2) || (k == k2)) := by
  induction t with
  | nil => simp [insertKey]
  | cons a t ih =>
    obtain ⟨ak, av⟩ := a
    by_cases hak : ak = k
    · subst hak
      simp only [insertKey, if_pos rfl, List.any_cons]
      cases hb : (ak == k2) <;> simp [hb]
    · simp only [insertKey, if_neg hak, List.any_cons, ih, Bool.or_assoc]

theorem insertKey_wf {acc : List (List Char × Json)} {k : List Char} {v : Json}
    (hacc : wfMems acc = true) (hv : wfVal v = true) :
    wfMems (insertKey acc k v) = true := by
  induction acc with
  | nil => simp [insertKey, wfMems, hv]
  | cons a t ih =>
    obtain ⟨ak, av⟩ := a
    simp only [wfMems, Bool.and_eq_true] at hacc
    obtain ⟨⟨hfresh, hav⟩, ht⟩ := hacc
    by_cases hak : ak = k
    · subst hak
      simp only [insertKey, if_pos rfl, wfMems, Bool.and_eq_true]
      exact ⟨⟨hfresh, hv⟩, ht⟩
    · simp only [insertKey, if_neg hak, wfMems, Bool.and_eq_true]
      refine ⟨⟨?_, hav⟩, ih ht⟩
      rw [insertKey_any]
      have hkak : (k == ak) = false := by
        rw [Bool.eq_false_iff]
        intro hcon
        exact hak (beq_iff_eq.1 hcon).symm
      simp only [Bool.not_eq_true'] at hfresh ⊢
      simp [hfresh, hkak]

theorem wfItems_append {acc : List Json} {v : Json}
    (hacc : wfItems acc = true) (hv : wfVal v = true) :
    wfItems (acc ++ [v]) = true := by
  induction acc with
  | nil => simp [wfItems, hv]
  | cons x t ih =>
    simp only [wfItems, Bool.and_eq_true] at hacc
    simp only [List.cons_append, wfItems, Bool.and_eq_true]
    exact ⟨hacc.1, ih hacc.2⟩

/-- Parsed values have pairwise-distinct object keys at every level. -/
theorem parse_wf : ∀ f : Nat,
    (∀ {l : List Char} {v : Json} {r : List Char},
      parseValue f l = .ok (v, r) → wfVal v = true) ∧
    (∀ {l : List Char} {acc : List (List Char × Json)} {v : Json} {r : List Char},
      wfMems acc = true → parseMembers f l acc = .ok (v, r) → wfVal v = true) ∧
    (∀ {l : List Char} {acc : List Json} {v : Json} {r : List Char},
      wfItems acc = true → parseElems f l acc = .ok (v, r) → wfVal v = true) := by
  intro f
  induction f with
  | zero =>
    refine ⟨?_, ?_, ?_⟩ <;> intros <;> simp_all [parseValue, parseMembers, parseElems]
  | succ f ih =>
    obtain ⟨ihv, ihm, ihe⟩ := ih
    refine ⟨?_, ?_, ?_⟩
    · intro l v r h
      match l with
      | [] => rw [parseValue_succ] at h; simp at h
      | c :: rest =>
        rw [parseValue_succ] at h
        dsimp only at h
        split at h <;> rename_i hc1
        · split at h <;> rename_i heq
          · simp only [Except.ok.injEq, Prod.mk.injEq] at h
            rw [← h.1]
            simp [wfVal]
          · simp at h
        · split at h <;> rename_i hc2
          · split at h <;> rename_i hw
            · simp only [Except.ok.injEq, Prod.mk.injEq] at h
              rw [← h.1]
              simp [wfVal, wfMems]
            · exact ihm (by simp [wfMems]) h
          · split at h <;> rename_i hc3
            · split at h <;> rename_i hw
              · simp only [Except.ok.injEq, Prod.mk.injEq] at h
                rw [← h.1]
                simp [wfVal, wfItems]
              · exact ihe (by simp [wfItems]) h
            · split at h <;> rename_i h4
              · simp only [Except.ok.injEq, Prod.mk.injEq] at h
                rw [← h.1]
                simp [wfVal]
              · split at h <;> rename_i h5
                · simp only [Except.ok.injEq, Prod.mk.injEq] at h
                  rw [← h.1]
                  simp [wfVal]
                · split at h <;> rename_i h6
                  · simp only [Except.ok.injEq, Prod.mk.injEq] at h
                    rw [← h.1]
                    simp [wfVal]
                  · split at h <;> rename_i heq
                    · simp only [Except.ok.injEq, Prod.mk.injEq] at h
                      rw [← h.1]
                      simp [wfVal]
                    · simp at h
    · intro l acc v r hacc h
      match l with
      | [] => rw [parseMembers_succ] at h; simp at h
      | c :: rest =>
        rw [parseMembers_succ] at h
        split at h <;> rename_i hpat
        · rename_i rest2
          injection hpat with hpc hpr
          subst hpr
          split at h <;> rename_i heqs
          · simp at h
          · rename_i key r1
            split at h <;> rename_i hw1
            · rename_i r2
              split at h <;> rename_i heqv
              · simp at h
              · rename_i v2 r3
                have hwv : wfVal v2 = true := ihv heqv
                split at h <;> rename_i hw3
                · simp only [Except.ok.injEq, Prod.mk.injEq] at h
                  rw [← h.1]
                  simp only [wfVal]
                  exact insertKey_wf hacc hwv
                · exact ihm (insertKey_wf hacc hwv) h
                · simp at h
            · simp at h
        · simp at h
    · intro l acc v r hacc h
      rw [parseElems_succ] at h
      split at h <;> rename_i heqv
      · simp at h
      · rename_i v2 r1
        have hwv : wfVal v2 = true := ihv heqv
        split at h <;> rename_i hw1
        · simp only [Except.ok.injEq, Prod.mk.injEq] at h
          rw [← h.1]
          simp only [wfVal]
          exact wfItems_append hacc hwv
        · exact ihe (wfItems_append hacc hwv) h
        · simp at h

/-- `json.loads` output is well-formed. -/
theorem loads_wf {l : List Char} {v : Json} (h : json_loads l = .ok v) :
    wfVal v = true := by
  unfold json_loads at h
  split at h <;> rename_i hp
  · simp at h
  · rename_i v0 rest0
    split at h
    · simp only [Except.ok.injEq] at h
      rw [← h]
      exact (parse_wf _).1 hp
    · simp at h

-- ### Serialize-reparse round trip: numbers

theorem digitsToNat_append_digit (a : List Char) (d : Char) :
    digitsToNat (a ++ [d]) = digitsToNat a * 10 + (d.toNat - 48) := by
  unfold digitsToNat
  rw [List.foldl_append]
  rfl

theorem char_digit_facts : ∀ k : Nat, k < 10 →
    (Char.ofNat (48 + k)).isDigit = true ∧ (Char.ofNat (48 + k)).toNat = 48 + k ∧
      ((Char.ofNat (48 + k) = '0') ↔ k = 0) := by decide

theorem natDigitsAux_zero : ∀ fuel : Nat, natDigitsAux fuel 0 = [] := by
  intro fuel
  cases fuel with
  | zero => rfl
  | succ fuel => simp [natDigitsAux]

theorem natDigitsAux_all_digits : ∀ (fuel n : Nat), ∀ c ∈ natDigitsAux fuel n,
    c.isDigit = true := by
  intro fuel
  induction fuel with
  | zero => intro n c hc; simp [natDigitsAux] at hc
  | succ fuel ih =>
    intro n c hc
    unfold natDigitsAux at hc
    split at hc
    · simp at hc
    · rcases List.mem_append.1 hc with hc | hc
      · exact ih _ c hc
      · simp only [List.mem_singleton] at hc
        subst hc
        exact (char_digit_facts (n % 10) (Nat.mod_lt _ (by omega))).1

theorem natDigitsAux_ne_nil : ∀ (fuel n : Nat), n ≠ 0 → n ≤ fuel →
    natDigitsAux fuel n ≠ [] := by
  intro fuel n h1 h2
  cases fuel with
  | zero => omega
  | succ fuel =>
    unfold natDigitsAux
    rw [if_neg h1]
    simp

theorem natDigitsAux_spec : ∀ (fuel n : Nat), n ≤ fuel →
    digitsToNat (natDigitsAux fuel n) = n := by
  intro fuel
  induction fuel with
  | zero =>
    intro n h
    have : n = 0 := by omega
    subst this
    rfl
  | succ fuel ih =>
    intro n h
    unfold natDigitsAux
    split
    · rename_i h0
      rw [h0]
      rfl
    · rename_i h0
      have hdiv : n / 10 < n := Nat.div_lt_self (by omega) (by omega)
      rw [digitsToNat_append_digit, ih (n / 10) (by omega)]
      rw [(char_digit_facts (n % 10) (Nat.mod_lt _ (by omega))).2.1]
      omega

theorem natDigitsAux_head_ne_zero : ∀ (fuel n : Nat), n ≠ 0 → n ≤ fuel →
    ∀ {c : Char} {t : List Char}, natDigitsAux fuel n = c :: t → c ≠ '0' := by
  intro fuel
  induction fuel with
  | zero =>
    intro n h1 h2 c t h
    exact absurd h1 (by omega)
  | succ fuel ih =>
    intro n h1 h2 c t h
    unfold natDigitsAux at h
    rw [if_neg h1] at h
    by_cases h10 : n / 10 = 0
    · rw [h10, natDigitsAux_zero] at h
      simp only [List.nil_append, List.cons.injEq] at h
      obtain ⟨hc, -⟩ := h
      rw [← hc]
      intro hcon
      have hk := (char_digit_facts (n % 10) (Nat.mod_lt _ (by omega))).2.2.1 hcon
      omega
    · have hdiv : n / 10 < n := Nat.div_lt_self (by omega) (by omega)
      obtain ⟨c2, t2, hct⟩ : ∃ c2 t2, natDigitsAux fuel (n / 10) = c2 :: t2 := by
        cases hnd : natDigitsAux fuel (n / 10) with
        | nil => exact absurd hnd (natDigitsAux_ne_nil fuel (n / 10) h10 (by omega))
        | cons a b => exact ⟨a, b, rfl⟩
      rw [hct] at h
      simp only [List.cons_append, List.cons.injEq] at h
      obtain ⟨hc, -⟩ := h
      rw [← hc]
      exact ih (n / 10) h10 (by omega) hct

theorem natRepr_all_digits (n : Nat) : ∀ c ∈ natRepr n, c.isDigit = true := by
  unfold natRepr
  split
  · intro c hc
    simp only [List.mem_singleton] at hc
    subst hc
    decide
  · exact natDigitsAux_all_digits n n

theorem natRepr_ne_nil (n : Nat) : natRepr n ≠ [] := by
  unfold natRepr
  split
  · simp
  · rename_i h0
    exact natDigitsAux_ne_nil n n h0 (le_refl n)

theorem digitsToNat_natRepr (n : Nat) : digitsToNat (natRepr n) = n := by
  unfold natRepr
  split
  · rename_i h0
    rw [h0]
    decide
  · exact natDigitsAux_spec n n (le_refl n)

theorem natRepr_head_ne_zero {n : Nat} (hn : n ≠ 0) {c : Char} {t : List Char}
    (h : natRepr n = c :: t) : c ≠ '0' := by
  unfold natRepr at h
  rw [if_neg hn] at h
  exact natDigitsAux_head_ne_zero n n hn (le_refl n) h

theorem scanUIntPart_of_digits {a r : List Char} {c : Char} {t : List Char}
    (hca : a = c :: t) (hdig : ∀ x ∈ a, x.isDigit = true) (hc0 : c ≠ '0')
    (hr : ∀ x, r.head? = some x → x.isDigit = false) :
    scanUIntPart (a ++ r) = .ok ((digitsToNat a : Int), r) := by
  subst hca
  have htw := takeWhile_append_of (p := Char.isDigit) hdig hr
  rw [List.cons_append]
  unfold scanUIntPart
  dsimp only
  rw [if_neg hc0, if_pos (hdig c (List.mem_cons_self _ _))]
  rw [← List.cons_append, htw.1, htw.2]

theorem scanUIntPart_rt (m : Nat) {r : List Char}
    (hr : ∀ c, r.head? = some c → c.isDigit = false) :
    scanUIntPart (natRepr m ++ r) = .ok ((m : Int), r) := by
  by_cases h0 : m = 0
  · subst h0
    show scanUIntPart ('0' :: r) = .ok (((0 : Nat) : Int), r)
    unfold scanUIntPart
    dsimp only
    rw [if_pos rfl]
    simp
  · obtain ⟨c, t, hct⟩ : ∃ c t, natRepr m = c :: t := by
      cases hh : natRepr m with
      | nil => exact absurd hh (natRepr_ne_nil m)
      | cons a b => exact ⟨a, b, rfl⟩
    rw [scanUIntPart_of_digits hct (natRepr_all_digits m) (natRepr_head_ne_zero h0 hct) hr,
      digitsToNat_natRepr]

theorem intRepr_head : ∀ n : Int, ∃ c t, intRepr n = c :: t ∧
    (c = '-' ∨ c.isDigit = true) := by
  intro n
  match n with
  | Int.ofNat m =>
    obtain ⟨c, t, hct⟩ : ∃ c t, natRepr m = c :: t := by
      cases hh : natRepr m with
      | nil => exact absurd hh (natRepr_ne_nil m)
      | cons a b => exact ⟨a, b, rfl⟩
    exact ⟨c, t, hct, Or.inr (natRepr_all_digits m c (by rw [hct]; exact List.mem_cons_self _ _))⟩
  | Int.negSucc m => exact ⟨'-', natRepr (m + 1), rfl, Or.inl rfl⟩

theorem scanNumber_rt : ∀ (n : Int) {r : List Char},
    (∀ c, r.head? = some c → c.isDigit = false) →
    scanNumber (intRepr n ++ r) = .ok (n, r) := by
  intro n r hr
  match n with
  | Int.ofNat m =>
    show scanNumber (natRepr m ++ r) = .ok (Int.ofNat m, r)
    unfold scanNumber
    rw [if_neg ?hm]
    case hm =>
      intro hcon
      obtain ⟨c, t, hct⟩ : ∃ c t, natRepr m = c :: t := by
        cases hh : natRepr m with
        | nil => exact absurd hh (natRepr_ne_nil m)
        | cons a b => exact ⟨a, b, rfl⟩
      rw [hct] at hcon
      simp only [List.cons_append, List.head?_cons, Option.some.injEq] at hcon
      have hcd := natRepr_all_digits m c (by rw [hct]; exact List.mem_cons_self _ _)
      rw [hcon] at hcd
      exact absurd hcd (by decide)
    exact scanUIntPart_rt m hr
  | Int.negSucc m =>
    show scanNumber (('-' :: natRepr (m + 1)) ++ r) = .ok (Int.negSucc m, r)
    rw [List.cons_append]
    unfold scanNumber
    rw [if_pos (by simp)]
    simp only [List.tail_cons]
    rw [scanUIntPart_rt (m + 1) hr]
    dsimp only
    have : -((m + 1 : Nat) : Int) = Int.negSucc m := by
      rw [Int.negSucc_eq]
      push_cast
      ring
    rw [this]

-- ### Serialize-reparse round trip: strings

theorem hexVal_hexDigitChar : ∀ k : Nat, k < 16 → hexVal (hexDigitChar k) = some k := by
  decide

theorem scanEsc_u00 {c : Char} (h : c.toNat < 32) (tail : List Char) :
    scanEsc ('u' :: '0' :: '0' :: hexDigitChar (c.toNat / 16) ::
      hexDigitChar (c.toNat % 16) :: tail) = .ok (c, tail) := by
  unfold scanEsc
  dsimp only
  rw [if_pos rfl]
  have hv0 : hexVal '0' = some 0 := rfl
  rw [hv0, hexVal_hexDigitChar (c.toNat / 16) (by omega),
    hexVal_hexDigitChar (c.toNat % 16) (Nat.mod_lt _ (by omega))]
  dsimp only
  rw [if_pos (Or.inl (by omega))]
  have hn : ((0 * 16 + 0) * 16 + c.toNat / 16) * 16 + c.toNat % 16 = c.toNat := by omega
  rw [hn, Char.ofNat_toNat]

theorem scanString_step_esc {ec c : Char} {tail tail2 : List Char} {f : Nat}
    (he : scanEsc (ec :: tail) = .ok (c, tail2)) {s r : List Char}
    (hrec : scanString f tail2 = .ok (s, r)) :
    scanString (f + 1) ('\\' :: ec :: tail) = .ok (c :: s, r) := by
  rw [scanString_succ]
  dsimp only
  rw [if_neg (by decide), if_pos rfl, he]
  dsimp only
  rw [hrec]

theorem scanString_step_plain {c : Char} (h1 : c ≠ '"') (h2 : c ≠ '\\')
    (h3 : ¬ c.toNat < 32) {tail s r : List Char} {f : Nat}
    (hrec : scanString f tail = .ok (s, r)) :
    scanString (f + 1) (c :: tail) = .ok (c :: s, r) := by
  rw [scanString_succ]
  dsimp only
  rw [if_neg h1, if_neg h2, if_neg h3, hrec]

theorem scanString_rt : ∀ (s : List Char) (f : Nat) (r : List Char),
    (escapeStr s).length + 1 ≤ f →
    scanString f (escapeStr s ++ '"' :: r) = .ok (s, r) := by
  intro s
  induction s with
  | nil =>
    intro f r hf
    cases f with
    | zero => exact absurd hf (by omega)
    | succ f2 =>
      show scanString (f2 + 1) ('"' :: r) = .ok ([], r)
      rw [scanString_succ]
      dsimp only
      rw [if_pos rfl]
  | cons c s ih =>
    intro f r hf
    have hlen : (escapeStr (c :: s)).length =
        (escapeChar c).length + (escapeStr s).length := by
      simp [escapeStr]
    cases f with
    | zero => exact absurd hf (by omega)
    | succ f2 =>
      have hlenc : 1 ≤ (escapeChar c).length := by
        unfold escapeChar
        repeat' split
        all_goals simp
      have hih := ih f2 r (by omega)
      by_cases h1 : c = '"'
      · subst h1
        have hstep : escapeStr ('"' :: s) ++ '"' :: r =
            '\\' :: '"' :: (escapeStr s ++ '"' :: r) := by
          simp [escapeStr, escapeChar]
        rw [hstep]
        refine scanString_step_esc ?_ (ih f2 r ?_)
        · unfold scanEsc
          dsimp only
          rw [if_neg (by decide)]
          rfl
        · rw [hlen] at hf
          simp [escapeChar] at hf
          omega
      · by_cases h2 : c = '\\'
        · subst h2
          have hstep : escapeStr ('\\' :: s) ++ '"' :: r =
              '\\' :: '\\' :: (escapeStr s ++ '"' :: r) := by
            simp [escapeStr, escapeChar]
          rw [hstep]
          refine scanString_step_esc ?_ (ih f2 r ?_)
          · unfold scanEsc
            dsimp only
            rw [if_neg (by decide)]
            rfl
          · rw [hlen] at hf
            simp [escapeChar] at hf
            omega
        · by_cases h3 : c = '\n'
          · subst h3
            have hstep : escapeStr ('\n' :: s) ++ '"' :: r =
                '\\' :: 'n' :: (escapeStr s ++ '"' :: r) := by
              simp [escapeStr, escapeChar]
            rw [hstep]
            refine scanString_step_esc ?_ (ih f2 r ?_)
            · unfold scanEsc
              dsimp only
              rw [if_neg (by decide)]
              rfl
            · rw [hlen] at hf
              simp [escapeChar] at hf
              omega
          · by_cases h4 : c = '\t'
            · subst h4
              have hstep : escapeStr ('\t' :: s) ++ '"' :: r =
                  '\\' :: 't' :: (escapeStr s ++ '"' :: r) := by
                simp [escapeStr, escapeChar]
              rw [hstep]
              refine scanString_step_esc ?_ (ih f2 r ?_)
              · unfold scanEsc
                dsimp only
                rw [if_neg (by decide)]
                rfl
              · rw [hlen] at hf
                simp [escapeChar] at hf
                omega
            · by_cases h5 : c = '\x0d'
              · subst h5
                have hstep : escapeStr ('\x0d' :: s) ++ '"' :: r =
                    '\\' :: 'r' :: (escapeStr s ++ '"' :: r) := by
                  simp [escapeStr, escapeChar]
                rw [hstep]
                refine scanString_step_esc ?_ (ih f2 r ?_)
                · unfold scanEsc
                  dsimp only
                  rw [if_neg (by decide)]
                  rfl
                · rw [hlen] at hf
                  simp [escapeChar] at hf
                  omega
              · by_cases h6 : c = '\x08'
                · subst h6
                  have hstep : escapeStr ('\x08' :: s) ++ '"' :: r =
                      '\\' :: 'b' :: (escapeStr s ++ '"' :: r) := by
                    simp [escapeStr, escapeChar]
                  rw [hstep]
                  refine scanString_step_esc ?_ (ih f2 r ?_)
                  · unfold scanEsc
                    dsimp only
                    rw [if_neg (by decide)]
                    rfl
                  · rw [hlen] at hf
                    simp [escapeChar] at hf
                    omega
                · by_cases h7 : c = '\x0c'
                  · subst h7
                    have hstep : escapeStr ('\x0c' :: s) ++ '"' :: r =
                        '\\' :: 'f' :: (escapeStr s ++ '"' :: r) := by
                      simp [escapeStr, escapeChar]
                    rw [hstep]
                    refine scanString_step_esc ?_ (ih f2 r ?_)
                    · unfold scanEsc
                      dsimp only
                      rw [if_neg (by decide)]
                      rfl
                    · rw [hlen] at hf
                      simp [escapeChar] at hf
                      omega
                  · by_cases h8 : c.toNat < 32
                    · have hec : escapeChar c = ['\\', 'u', '0', '0',
                          hexDigitChar (c.toNat / 16), hexDigitChar (c.toNat % 16)] := by
                        unfold escapeChar
                        rw [if_neg h1, if_neg h2, if_neg h3, if_neg h4, if_neg h5,
                          if_neg h6, if_neg h7, if_pos h8]
                      have hstep : escapeStr (c :: s) ++ '"' :: r =
                          '\\' :: 'u' :: '0' :: '0' :: hexDigitChar (c.toNat / 16) ::
                            hexDigitChar (c.toNat % 16) :: (escapeStr s ++ '"' :: r) := by
                        simp [escapeStr, hec]
                      rw [hstep]
                      refine scanString_step_esc (scanEsc_u00 h8 _) (ih f2 r ?_)
                      rw [hlen, hec] at hf
                      simp at hf
                      omega
                    · have hec : escapeChar c = [c] := by
                        unfold escapeChar
                        rw [if_neg h1, if_neg h2, if_neg h3, if_neg h4, if_neg h5,
                          if_neg h6, if_neg h7, if_neg h8]
                      have hstep : escapeStr (c :: s) ++ '"' :: r =
                          c :: (escapeStr s ++ '"' :: r) := by
                        simp [escapeStr, hec]
                      rw [hstep]
                      exact scanString_step_plain h1 h2 h8 (ih f2 r (by omega))

-- ### Shape of serialized output

theorem isDigit_char_facts {c : Char} (h : c.isDigit = true) :
    isJsonWs c = false ∧ pyIsSpace c = false ∧ c ≠ ']' ∧ c ≠ '\x7d' ∧ c ≠ ',' := by
  refine ⟨?_, ?_, ?_, ?_, ?_⟩
  · by_contra hcon
    rw [Bool.not_eq_false] at hcon
    simp [isJsonWs] at hcon
    rcases hcon with ((rfl | rfl) | rfl) | rfl <;> exact absurd h (by decide)
  · by_contra hcon
    rw [Bool.not_eq_false] at hcon
    simp [pyIsSpace] at hcon
    rcases hcon with ((((rfl | rfl) | rfl) | rfl) | rfl) | rfl <;>
      exact absurd h (by decide)
  · intro heq; subst heq; exact absurd h (by decide)
  · intro heq; subst heq; exact absurd h (by decide)
  · intro heq; subst heq; exact absurd h (by decide)

theorem dumpsVal_head : ∀ v : Json, ∃ c t, dumpsVal v = c :: t ∧
    (c = 'n' ∨ c = 't' ∨ c = 'f' ∨ c = '"' ∨ c = '[' ∨ c = '\x7b' ∨ c = '-' ∨
      c.isDigit = true) := by
  intro v
  match v with
  | .null =>
    refine ⟨'n', ['u', 'l', 'l'], ?_, by simp⟩
    rw [show dumpsVal .null = chars "null" by simp [dumpsVal], chars_null]
  | .bool true =>
    refine ⟨'t', ['r', 'u', 'e'], ?_, by simp⟩
    rw [show dumpsVal (.bool true) = chars "true" by simp [dumpsVal], chars_true]
  | .bool false =>
    refine ⟨'f', ['a', 'l', 's', 'e'], ?_, by simp⟩
    rw [show dumpsVal (.bool false) = chars "false" by simp [dumpsVal], chars_false]
  | .num n =>
    obtain ⟨c, t, hct, hc⟩ := intRepr_head n
    refine ⟨c, t, ?_, ?_⟩
    · rw [show dumpsVal (.num n) = intRepr n by simp [dumpsVal], hct]
    · rcases hc with rfl | hd
      · simp
      · simp [hd]
  | .str s =>
    refine ⟨'"', escapeStr s ++ ['"'], ?_, by simp⟩
    simp [dumpsVal]
  | .arr xs =>
    refine ⟨'[', dumpsItems xs ++ [']'], ?_, by simp⟩
    simp [dumpsVal]
  | .obj ms =>
    refine ⟨'\x7b', dumpsMembers ms ++ ['\x7d'], ?_, by simp⟩
    simp [dumpsVal]

theorem dumpsVal_head_props (v : Json) : ∀ c, (dumpsVal v).head? = some c →
    isJsonWs c = false ∧ pyIsSpace c = false ∧ c ≠ ']' ∧ c ≠ '\x7d' ∧ c ≠ ',' := by
  obtain ⟨c0, t, hv, hc0⟩ := dumpsVal_head v
  intro c hc
  rw [hv] at hc
  simp only [List.head?_cons, Option.some.injEq] at hc
  subst hc
  rcases hc0 with rfl | rfl | rfl | rfl | rfl | rfl | rfl | hd
  · exact ⟨by decide, by decide, by decide, by decide, by decide⟩
  · exact ⟨by decide, by decide, by decide, by decide, by decide⟩
  · exact ⟨by decide, by decide, by decide, by decide, by decide⟩
  · exact ⟨by decide, by decide, by decide, by decide, by decide⟩
  · exact ⟨by decide, by decide, by decide, by decide, by decide⟩
  · exact ⟨by decide, by decide, by decide, by decide, by decide⟩
  · exact ⟨by decide, by decide, by decide, by decide, by decide⟩
  · exact isDigit_char_facts hd

theorem dumpsVal_ne_nil (v : Json) : dumpsVal v ≠ [] := by
  obtain ⟨c, t, hv, -⟩ := dumpsVal_head v
  rw [hv]
  simp

theorem dumpsVal_length_pos (v : Json) : 0 < (dumpsVal v).length := by
  obtain ⟨c, t, hv, -⟩ := dumpsVal_head v
  rw [hv]
  simp

theorem natRepr_last_digit (n : Nat) : ∃ c, (natRepr n).getLast? = some c ∧
    c.isDigit = true := by
  cases hl : (natRepr n).getLast? with
  | none =>
    rw [List.getLast?_eq_none_iff] at hl
    exact absurd hl (natRepr_ne_nil n)
  | some c =>
    exact ⟨c, rfl, natRepr_all_digits n c (List.mem_of_getLast?_eq_some hl)⟩

theorem dumpsVal_last : ∀ v : Json, ∃ c, (dumpsVal v).getLast? = some c ∧
    (c = 'l' ∨ c = 'e' ∨ c = '"' ∨ c = ']' ∨ c = '\x7d' ∨ c.isDigit = true) := by
  intro v
  match v with
  | .null =>
    refine ⟨'l', ?_, by simp⟩
    rw [show dumpsVal .null = chars "null" by simp [dumpsVal], chars_null]
    rfl
  | .bool true =>
    refine ⟨'e', ?_, by simp⟩
    rw [show dumpsVal (.bool true) = chars "true" by simp [dumpsVal], chars_true]
    rfl
  | .bool false =>
    refine ⟨'e', ?_, by simp⟩
    rw [show dumpsVal (.bool false) = chars "false" by simp [dumpsVal], chars_false]
    rfl
  | .num n =>
    match n with
    | Int.ofNat m =>
      obtain ⟨c, hc, hd⟩ := natRepr_last_digit m
      refine ⟨c, ?_, by simp [hd]⟩
      rw [show dumpsVal (.num (Int.ofNat m)) = natRepr m by simp [dumpsVal, intRepr]]
      exact hc
    | Int.negSucc m =>
      obtain ⟨c, hc, hd⟩ := natRepr_last_digit (m + 1)
      refine ⟨c, ?_, by simp [hd]⟩
      rw [show dumpsVal (.num (Int.negSucc m)) = '-' :: natRepr (m + 1) by
        simp [dumpsVal, intRepr]]
      exact getLast_cons_some hc
  | .str s =>
    refine ⟨'"', ?_, by simp⟩
    rw [show dumpsVal (.str s) = '"' :: (escapeStr s ++ ['"']) by simp [dumpsVal]]
    exact getLast_cons_some (List.getLast?_concat _)
  | .arr xs =>
    refine ⟨']', ?_, by simp⟩
    rw [show dumpsVal (.arr xs) = '[' :: (dumpsItems xs ++ [']']) by simp [dumpsVal]]
    exact getLast_cons_some (List.getLast?_concat _)
  | .obj ms =>
    refine ⟨'\x7d', ?_, by simp⟩
    rw [show dumpsVal (.obj ms) = '\x7b' :: (dumpsMembers ms ++ ['\x7d']) by
      simp [dumpsVal]]
    exact getLast_cons_some (List.getLast?_concat _)

theorem dumpsVal_last_props (v : Json) : ∀ c, (dumpsVal v).getLast? = some c →
    pyIsSpace c = false := by
  obtain ⟨c0, hv, hc0⟩ := dumpsVal_last v
  intro c hc
  rw [hv] at hc
  simp only [Option.some.injEq] at hc
  subst hc
  rcases hc0 with rfl | rfl | rfl | rfl | rfl | hd
  · decide
  · decide
  · decide
  · decide
  · decide
  · exact (isDigit_char_facts hd).2.1

theorem insertKey_fresh {acc : List (List Char × Json)} {k : List Char} {v : Json}
    (h : (acc.any fun q => q.1 == k) = false) :
    insertKey acc k v = acc ++ [(k, v)] := by
  induction acc with
  | nil => rfl
  | cons a t ih =>
    obtain ⟨ak, av⟩ := a
    simp only [List.any_cons, Bool.or_eq_false_iff] at h
    obtain ⟨h1, h2⟩ := h
    simp only [insertKey]
    rw [if_neg (by intro hcon; subst hcon; simp at h1), ih h2]
    rfl

theorem skipWs_space_cons (X : List Char) : skipWs (' ' :: X) = skipWs X := by
  simp [skipWs, List.dropWhile_cons, isJsonWs]

theorem dumpsItems_cons_eq (x : Json) (t : List Json) :
    ∃ u, dumpsItems (x :: t) = dumpsVal x ++ u := by
  match t with
  | [] => exact ⟨[], by simp [dumpsItems]⟩
  | y :: t2 => exact ⟨',' :: ' ' :: dumpsItems (y :: t2), by simp [dumpsItems]⟩

theorem dumpsMembers_cons_eq (k : List Char) (v : Json) (t : List (List Char × Json)) :
    ∃ u, dumpsMembers ((k, v) :: t) =
      '"' :: (escapeStr k ++ '"' :: ':' :: ' ' :: (dumpsVal v ++ u)) := by
  match t with
  | [] =>
    refine ⟨[], ?_⟩
    simp [dumpsMembers]
  | p :: t2 =>
    refine ⟨',' :: ' ' :: dumpsMembers (p :: t2), ?_⟩
    simp [dumpsMembers]

theorem skipWs_dumps (v : Json) (X : List Char) :
    skipWs (dumpsVal v ++ X) = dumpsVal v ++ X := by
  obtain ⟨c0, t0, hv, -⟩ := dumpsVal_head v
  have hp := dumpsVal_head_props v c0 (by rw [hv]; rfl)
  rw [hv, List.cons_append]
  exact dropWhile_cons_neg hp.1 _

theorem skipWs_dumpsItems (y : Json) (t2 : List Json) (X : List Char) :
    skipWs (dumpsItems (y :: t2) ++ X) = dumpsItems (y :: t2) ++ X := by
  obtain ⟨u, hu⟩ := dumpsItems_cons_eq y t2
  rw [hu, List.append_assoc]
  exact skipWs_dumps y (u ++ X)

theorem skipWs_dumpsMembers (k : List Char) (v : Json) (t : List (List Char × Json))
    (X : List Char) :
    skipWs (dumpsMembers ((k, v) :: t) ++ X) = dumpsMembers ((k, v) :: t) ++ X := by
  obtain ⟨u, hu⟩ := dumpsMembers_cons_eq k v t
  rw [hu, List.cons_append]
  exact dropWhile_cons_neg (by decide) _

theorem dumpsMembers_head_ne_brace (k : List Char) (v : Json)
    (t : List (List Char × Json)) (X : List Char) :
    (dumpsMembers ((k, v) :: t) ++ X).head? ≠ some '\x7d' := by
  obtain ⟨u, hu⟩ := dumpsMembers_cons_eq k v t
  rw [hu, List.cons_append]
  simp

/-- Parsing a serialized well-formed value consumes exactly the serialization:
`json.dumps` output re-parses to the same value.  The trailing `r` must not
start with a digit (a serialized number followed by a digit would merge). -/
theorem rt_parse : ∀ f : Nat,
    (∀ {v : Json} {r : List Char}, wfVal v = true → (dumpsVal v).length ≤ f →
      (∀ c, r.head? = some c → c.isDigit = false) →
      parseValue f (dumpsVal v ++ r) = .ok (v, r)) ∧
    (∀ {ms acc : List (List Char × Json)} {r : List Char}, ms ≠ [] →
      wfMems ms = true →
      (∀ p ∈ ms, (acc.any fun q => q.1 == p.1) = false) →
      (dumpsMembers ms).length + 1 ≤ f →
      parseMembers f (dumpsMembers ms ++ '\x7d' :: r) acc = .ok (.obj (acc ++ ms), r)) ∧
    (∀ {xs : List Json} {acc : List Json} {r : List Char}, xs ≠ [] →
      wfItems xs = true → (dumpsItems xs).length + 1 ≤ f →
      parseElems f (dumpsItems xs ++ ']' :: r) acc = .ok (.arr (acc ++ xs), r)) := by
  intro f
  induction f with
  | zero =>
    refine ⟨?_, ?_, ?_⟩
    · intro v r hwf hf hr
      have := dumpsVal_length_pos v
      omega
    · intro ms acc r hne hwf hfresh hf
      exact absurd hf (by omega)
    · intro xs acc r hne hwf hf
      exact absurd hf (by omega)
  | succ f ih =>
    obtain ⟨ihv, ihm, ihe⟩ := ih
    refine ⟨?_, ?_, ?_⟩
    · intro v r hwf hf hr
      match v with
      | .null =>
        have hstep : dumpsVal .null ++ r = 'n' :: 'u' :: 'l' :: 'l' :: r := by
          rw [show dumpsVal .null = chars "null" by simp [dumpsVal], chars_null]
          rfl
        rw [hstep, parseValue_succ]
        dsimp only
        rw [if_neg (by decide), if_neg (by decide), if_neg (by decide),
          if_pos (by rfl)]
        rfl
      | .bool true =>
        have hstep : dumpsVal (.bool true) ++ r = 't' :: 'r' :: 'u' :: 'e' :: r := by
          rw [show dumpsVal (.bool true) = chars "true" by simp [dumpsVal], chars_true]
          rfl
        rw [hstep, parseValue_succ]
        dsimp only
        rw [if_neg (by decide), if_neg (by decide), if_neg (by decide),
          if_neg (by intro hcon; rw [chars_null] at hcon; simp at hcon),
          if_pos (by rfl)]
        rfl
      | .bool false =>
        have hstep : dumpsVal (.bool false) ++ r = 'f' :: 'a' :: 'l' :: 's' :: 'e' :: r := by
          rw [show dumpsVal (.bool false) = chars "false" by simp [dumpsVal], chars_false]
          rfl
        rw [hstep, parseValue_succ]
        dsimp only
        rw [if_neg (by decide), if_neg (by decide), if_neg (by decide),
          if_neg (by intro hcon; rw [chars_null] at hcon; simp at hcon),
          if_neg (by intro hcon; rw [chars_true] at hcon; simp at hcon),
          if_pos (by rfl)]
        rfl
      | .num n =>
        obtain ⟨c, t, hct, hcd⟩ := intRepr_head n
        have hne6 := number_head_ne hcd
        have hstep : dumpsVal (.num n) ++ r = c :: (t ++ r) := by
          rw [show dumpsVal (.num n) = intRepr n by simp [dumpsVal], hct]
          rfl
        rw [hstep, parseValue_succ]
        dsimp only
        rw [if_neg hne6.1, if_neg hne6.2.1, if_neg hne6.2.2.1]
        rw [if_neg (fun hcon => hne6.2.2.2.1 (by
          rw [chars_null] at hcon
          exact head_of_take_eq hcon))]
        rw [if_neg (fun hcon => hne6.2.2.2.2.1 (by
          rw [chars_true] at hcon
          exact head_of_take_eq hcon))]
        rw [if_neg (fun hcon => hne6.2.2.2.2.2 (by
          rw [chars_false] at hcon
          exact head_of_take_eq hcon))]
        have hsn : scanNumber (c :: (t ++ r)) = .ok (n, r) := by
          rw [← List.cons_append, ← hct]
          rw [show intRepr n = dumpsVal (.num n) by simp [dumpsVal]]
          rw [show dumpsVal (.num n) ++ r = intRepr n ++ r by simp [dumpsVal]]
          exact scanNumber_rt n hr
        rw [hsn]
      | .str s =>
        have hstep : dumpsVal (.str s) ++ r = '"' :: (escapeStr s ++ '"' :: r) := by
          simp [dumpsVal]
        have hlen := congrArg List.length hstep
        simp only [List.length_append, List.length_cons] at hlen
        rw [hstep, parseValue_succ]
        dsimp only
        rw [if_pos rfl, scanString_rt s f r (by omega)]
      | .arr xs =>
        match xs with
        | [] =>
          have hstep : dumpsVal (.arr []) ++ r = '[' :: ']' :: r := by
            simp [dumpsVal, dumpsItems]
          rw [hstep, parseValue_succ]
          dsimp only
          rw [if_neg (by decide), if_neg (by decide), if_pos rfl]
          rw [show skipWs (']' :: r) = ']' :: r from dropWhile_cons_neg (by decide) r]
          rw [if_pos (by rfl)]
          rfl
        | x :: xs2 =>
          have hstep : dumpsVal (.arr (x :: xs2)) ++ r =
              '[' :: (dumpsItems (x :: xs2) ++ ']' :: r) := by
            simp [dumpsVal]
          have hlen := congrArg List.length hstep
          simp only [List.length_append, List.length_cons] at hlen
          have hwi : wfItems (x :: xs2) = true := by
            simp only [wfVal] at hwf
            exact hwf
          rw [hstep, parseValue_succ]
          dsimp only
          rw [if_neg (by decide), if_neg (by decide), if_pos rfl]
          rw [skipWs_dumpsItems x xs2 (']' :: r)]
          rw [if_neg ?hdni]
          case hdni =>
            obtain ⟨u, hu⟩ := dumpsItems_cons_eq x xs2
            obtain ⟨c0, t0, hvx, -⟩ := dumpsVal_head x
            have hp := dumpsVal_head_props x c0 (by rw [hvx]; rfl)
            rw [hu, hvx]
            simp only [List.cons_append, List.head?_cons, Option.some.injEq]
            exact hp.2.2.1
          have hrec := @ihe (x :: xs2) [] r (by simp) hwi (by omega)
          rw [hrec]
          simp
      | .obj ms =>
        match ms with
        | [] =>
          have hstep : dumpsVal (.obj []) ++ r = '\x7b' :: '\x7d' :: r := by
            simp [dumpsVal, dumpsMembers]
          rw [hstep, parseValue_succ]
          dsimp only
          rw [if_neg (by decide), if_pos rfl]
          rw [show skipWs ('\x7d' :: r) = '\x7d' :: r from dropWhile_cons_neg (by decide) r]
          rw [if_pos (by rfl)]
          rfl
        | (k, v0) :: ms2 =>
          have hstep : dumpsVal (.obj ((k, v0) :: ms2)) ++ r =
              '\x7b' :: (dumpsMembers ((k, v0) :: ms2) ++ '\x7d' :: r) := by
            simp [dumpsVal]
          have hlen := congrArg List.length hstep
          simp only [List.length_append, List.length_cons] at hlen
          have hwm : wfMems ((k, v0) :: ms2) = true := by
            simp only [wfVal] at hwf
            exact hwf
          rw [hstep, parseValue_succ]
          dsimp only
          rw [if_neg (by decide), if_pos rfl]
          rw [skipWs_dumpsMembers k v0 ms2 ('\x7d' :: r)]
          rw [if_neg (dumpsMembers_head_ne_brace k v0 ms2 ('\x7d' :: r))]
          have hrec := @ihm ((k, v0) :: ms2) [] r (by simp) hwm
            (by intro p hp; simp) (by omega)
          rw [hrec]
          simp
    · intro ms acc r hne hwf hfresh hf
      match ms, hne with
      | (k, v0) :: rest, _ =>
        simp only [wfMems, Bool.and_eq_true] at hwf
        obtain ⟨⟨hfreshk, hwv0⟩, hwrest⟩ := hwf
        simp only [Bool.not_eq_true', List.any_eq_false] at hfreshk
        have hik : insertKey acc k v0 = acc ++ [(k, v0)] :=
          insertKey_fresh (hfresh (k, v0) (List.mem_cons_self _ _))
        match rest with
        | [] =>
          have hstep : dumpsMembers [(k, v0)] ++ '\x7d' :: r =
              '"' :: (escapeStr k ++ '"' :: (':' :: (' ' :: (dumpsVal v0 ++
                '\x7d' :: r)))) := by
            simp [dumpsMembers]
          have hlen := congrArg List.length hstep
          simp only [List.length_append, List.length_cons] at hlen
          have hscan : scanString f (escapeStr k ++ '"' :: (':' :: (' ' ::
              (dumpsVal v0 ++ '\x7d' :: r)))) =
              .ok (k, ':' :: (' ' :: (dumpsVal v0 ++ '\x7d' :: r))) :=
            scanString_rt k f _ (by omega)
          have hsk1 : skipWs (':' :: (' ' :: (dumpsVal v0 ++ '\x7d' :: r))) =
              ':' :: (' ' :: (dumpsVal v0 ++ '\x7d' :: r)) :=
            dropWhile_cons_neg (by decide) _
          have hsk2 : skipWs (' ' :: (dumpsVal v0 ++ '\x7d' :: r)) =
              dumpsVal v0 ++ '\x7d' :: r := by
            rw [skipWs_space_cons]
            exact skipWs_dumps v0 _
          have hval : parseValue f (dumpsVal v0 ++ '\x7d' :: r) = .ok (v0, '\x7d' :: r) :=
            ihv hwv0 (by have := dumpsVal_length_pos v0; omega)
              (fun c hc => by
                simp only [List.head?_cons, Option.some.injEq] at hc
                subst hc
                decide)
          have hsk3 : skipWs ('\x7d' :: r) = '\x7d' :: r :=
            dropWhile_cons_neg (by decide) r
          rw [hstep, parseMembers_succ]
          simp [hscan, hsk1, hsk2, hsk3, hval, hik]
        | p :: rest2 =>
          obtain ⟨kp, vp⟩ := p
          have hstep : dumpsMembers ((k, v0) :: (kp, vp) :: rest2) ++ '\x7d' :: r =
              '"' :: (escapeStr k ++ '"' :: (':' :: (' ' :: (dumpsVal v0 ++
                ',' :: (' ' :: (dumpsMembers ((kp, vp) :: rest2) ++ '\x7d' :: r)))))) := by
            simp [dumpsMembers]
          have hlen := congrArg List.length hstep
          simp only [List.length_append, List.length_cons] at hlen
          have hscan : scanString f (escapeStr k ++ '"' :: (':' :: (' ' ::
              (dumpsVal v0 ++ ',' :: (' ' :: (dumpsMembers ((kp, vp) :: rest2) ++
                '\x7d' :: r)))))) =
              .ok (k, ':' :: (' ' :: (dumpsVal v0 ++ ',' :: (' ' ::
                (dumpsMembers ((kp, vp) :: rest2) ++ '\x7d' :: r))))) :=
            scanString_rt k f _ (by omega)
          have hsk1 : skipWs (':' :: (' ' :: (dumpsVal v0 ++ ',' :: (' ' ::
              (dumpsMembers ((kp, vp) :: rest2) ++ '\x7d' :: r))))) =
              ':' :: (' ' :: (dumpsVal v0 ++ ',' :: (' ' ::
              (dumpsMembers ((kp, vp) :: rest2) ++ '\x7d' :: r)))) :=
            dropWhile_cons_neg (by decide) _
          have hsk2 : skipWs (' ' :: (dumpsVal v0 ++ ',' :: (' ' ::
              (dumpsMembers ((kp, vp) :: rest2) ++ '\x7d' :: r)))) =
              dumpsVal v0 ++ ',' :: (' ' ::
              (dumpsMembers ((kp, vp) :: rest2) ++ '\x7d' :: r)) := by
            rw [skipWs_space_cons]
            exact skipWs_dumps v0 _
          have hval : parseValue f (dumpsVal v0 ++ ',' :: (' ' ::
              (dumpsMembers ((kp, vp) :: rest2) ++ '\x7d' :: r))) =
              .ok (v0, ',' :: (' ' :: (dumpsMembers ((kp, vp) :: rest2) ++
                '\x7d' :: r))) :=
            ihv hwv0 (by have := dumpsVal_length_pos v0; omega)
              (fun c hc => by
                simp only [List.head?_cons, Option.some.injEq] at hc
                subst hc
                decide)
          have hsk3 : skipWs (',' :: (' ' :: (dumpsMembers ((kp, vp) :: rest2) ++
              '\x7d' :: r))) =
              ',' :: (' ' :: (dumpsMembers ((kp, vp) :: rest2) ++ '\x7d' :: r)) :=
            dropWhile_cons_neg (by decide) _
          have hsk4 : skipWs (' ' :: (dumpsMembers ((kp, vp) :: rest2) ++
              '\x7d' :: r)) = dumpsMembers ((kp, vp) :: rest2) ++ '\x7d' :: r := by
            rw [skipWs_space_cons]
            exact skipWs_dumpsMembers kp vp rest2 _
          have hfresh2 : ∀ q ∈ (kp, vp) :: rest2,
              (((acc ++ [(k, v0)]).any fun q2 => q2.1 == q.1)) = false := by
            intro q hq
            rw [List.any_append]
            have h1 : (acc.any fun q2 => q2.1 == q.1) = false :=
              hfresh q (List.mem_cons_of_mem _ hq)
            have h2 : (q.1 == k) = false := by
              rw [Bool.eq_false_iff]
              exact hfreshk q hq
            have h3 : (k == q.1) = false := by
              rw [Bool.eq_false_iff] at h2 ⊢
              intro hcon
              exact h2 (by rw [beq_iff_eq] at hcon ⊢; exact hcon.symm)
            simp [h1, h3]
          have hrec := @ihm ((kp, vp) :: rest2) (acc ++ [(k, v0)]) r
            (by simp) hwrest hfresh2 (by omega)
          rw [hstep, parseMembers_succ]
          simp [hscan, hsk1, hsk2, hsk3, hsk4, hval, hik, hrec]
    · intro xs acc r hne hwf hf
      match xs, hne with
      | x :: rest, _ =>
        simp only [wfItems, Bool.and_eq_true] at hwf
        obtain ⟨hwx, hwrest⟩ := hwf
        match rest with
        | [] =>
          have hstep : dumpsItems [x] ++ ']' :: r = dumpsVal x ++ ']' :: r := by
            simp [dumpsItems]
          have hlen := congrArg List.length hstep
          simp only [List.length_append, List.length_cons] at hlen
          have hval : parseValue f (dumpsVal x ++ ']' :: r) = .ok (x, ']' :: r) :=
            ihv hwx (by omega)
              (fun c hc => by
                simp only [List.head?_cons, Option.some.injEq] at hc
                subst hc
                decide)
          have hsk : skipWs (']' :: r) = ']' :: r := dropWhile_cons_neg (by decide) r
          rw [hstep, parseElems_succ]
          simp [hval, hsk]
        | y :: rest2 =>
          have hstep : dumpsItems (x :: y :: rest2) ++ ']' :: r =
              dumpsVal x ++ ',' :: (' ' :: (dumpsItems (y :: rest2) ++ ']' :: r)) := by
            simp [dumpsItems]
          have hlen := congrArg List.length hstep
          simp only [List.length_append, List.length_cons] at hlen
          have hval : parseValue f (dumpsVal x ++ ',' :: (' ' ::
              (dumpsItems (y :: rest2) ++ ']' :: r))) =
              .ok (x, ',' :: (' ' :: (dumpsItems (y :: rest2) ++ ']' :: r))) :=
            ihv hwx (by have := dumpsVal_length_pos x; omega)
              (fun c hc => by
                simp only [List.head?_cons, Option.some.injEq] at hc
                subst hc
                decide)
          have hsk1 : skipWs (',' :: (' ' :: (dumpsItems (y :: rest2) ++ ']' :: r))) =
              ',' :: (' ' :: (dumpsItems (y :: rest2) ++ ']' :: r)) :=
            dropWhile_cons_neg (by decide) _
          have hsk2 : skipWs (' ' :: (dumpsItems (y :: rest2) ++ ']' :: r)) =
              dumpsItems (y :: rest2) ++ ']' :: r := by
            rw [skipWs_space_cons]
            exact skipWs_dumpsItems y rest2 _
          have hrec := @ihe (y :: rest2) (acc ++ [x]) r
            (by simp) hwrest (by omega)
          rw [hstep, parseElems_succ]
          simp [hval, hsk1, hsk2, hrec]

/-- `json.loads ∘ json.dumps` is the identity on well-formed values. -/
theorem loads_dumps {v : Json} (hwf : wfVal v = true) :
    json_loads (dumpsVal v) = .ok v := by
  unfold json_loads
  have hsw : skipWs (dumpsVal v) = dumpsVal v := by
    have := skipWs_dumps v []
    simpa using this
  rw [hsw]
  have h := (rt_parse (2 * (dumpsVal v).length + 1)).1 hwf (by omega)
    (r := []) (by simp)
  rw [List.append_nil] at h
  rw [h]
  rfl

theorem pyStrip_eq_self {l : List Char}
    (h1 : ∀ c, l.head? = some c → pyIsSpace c = false)
    (h2 : ∀ c, l.getLast? = some c → pyIsSpace c = false) : pyStrip l = l := by
  unfold pyStrip pyStripLeft pyStripRight
  cases l with
  | nil => rfl
  | cons x t =>
    rw [dropWhile_cons_neg (h1 x rfl)]
    cases hrev : (x :: t).reverse with
    | nil => simp at hrev
    | cons y u =>
      have hy : (x :: t).getLast? = some y := by
        rw [← List.head?_reverse, hrev]
        rfl
      rw [dropWhile_cons_neg (h2 y hy) u]
      rw [← hrev, List.reverse_reverse]

theorem pyStrip_dumps (v : Json) : pyStrip (dumpsVal v) = dumpsVal v :=
  pyStrip_eq_self (fun c hc => (dumpsVal_head_props v c hc).2.1)
    (dumpsVal_last_props v)

/-- A nonempty `braceSpan` starts at the opening brace. -/
theorem braceSpan_head {s : List Char} (h : braceSpan s ≠ []) :
    (braceSpan s).head? = some '\x7b' := by
  obtain ⟨u, hu⟩ : ∃ u, u ++ ((s.dropWhile fun c => !(c == '\x7b')).reverse.dropWhile
      fun x => !(x == '\x7d')) = (s.dropWhile fun c => !(c == '\x7b')).reverse :=
    ⟨_, List.takeWhile_append_dropWhile _ _⟩
  have hD : (s.dropWhile fun c => !(c == '\x7b')) = braceSpan s ++ u.reverse := by
    have hrv := congrArg List.reverse hu
    rw [List.reverse_append, List.reverse_reverse] at hrv
    rw [← hrv]
    rfl
  cases hbs : braceSpan s with
  | nil => exact absurd hbs h
  | cons c w =>
    rw [hbs] at hD
    have hc := dropWhile_head_false (p := fun c => !(c == '\x7b'))
      (l := s) (c := c) (t := w ++ u.reverse) (by rw [hD]; rfl)
    simp only [Bool.not_eq_false'] at hc
    simp only [List.head?_cons, Option.some.injEq]
    exact beq_iff_eq.1 hc

/-- A `json.loads` success on a string starting with `\x7b` is an object. -/
theorem loads_brace_obj {l : List Char} {v : Json} (hh : l.head? = some '\x7b')
    (h : json_loads l = .ok v) : ∃ ms, v = .obj ms := by
  match l with
  | [] => simp at hh
  | c :: t =>
    simp only [List.head?_cons, Option.some.injEq] at hh
    subst hh
    unfold json_loads at h
    rw [show skipWs ('\x7b' :: t) = '\x7b' :: t from dropWhile_cons_neg (by decide) t] at h
    split at h <;> rename_i hp
    · simp at h
    · rename_i v0 rest0
      split at h
      · simp only [Except.ok.injEq] at h
        subst h
        rw [parseValue_succ] at hp
        dsimp only at hp
        rw [if_neg (by decide), if_pos rfl] at hp
        split at hp <;> rename_i hw
        · simp only [Except.ok.injEq, Prod.mk.injEq] at hp
          exact ⟨[], hp.1.symm⟩
        · obtain ⟨ms, hms⟩ := (parse_ctor _).1 hp
          exact ⟨ms, hms⟩
      · simp at h

/-- The console extractor's success is always a `json.loads` success on the
brace span, and the value is an object. -/
theorem console_ok_loads {s : List Char} {v : Json}
    (h : ReqAnalyzer.extract_json s = .ok v) :
    json_loads (braceSpan s) = .ok v ∧ ∃ ms, v = .obj ms := by
  have hmem1 : '\x7b' ∈ s := by
    by_contra hcon
    rw [console_noJson (Or.inl hcon)] at h
    exact absurd h (by simp)
  have hmem2 : '\x7d' ∈ s := by
    by_contra hcon
    rw [console_noJson (Or.inr hcon)] at h
    exact absurd h (by simp)
  rw [console_eval hmem1 hmem2] at h
  split at h <;> rename_i hl
  · simp only [Except.ok.injEq] at h
    subst h
    refine ⟨hl, ?_⟩
    have hne : braceSpan s ≠ [] := by
      intro hnil
      rw [hnil] at hl
      rw [show json_loads [] = .error ⟨.expectingValue, []⟩ from rfl] at hl
      exact absurd hl (by simp)
    exact loads_brace_obj (braceSpan_head hne) hl
  · simp at h

-- ### Validator lemmas (smoke test)

namespace SmokeTest

theorem lookup_filter_ne {data : List (List Char × Json)} {k k2 : List Char}
    (h : k2 ≠ k) :
    List.lookup k2 (data.filter fun p => !(p.1 = k)) = List.lookup k2 data := by
  induction data with
  | nil => rfl
  | cons a t ih =>
    obtain ⟨ak, av⟩ := a
    simp only [List.filter_cons]
    by_cases hak : ak = k
    · rw [if_neg (by simp [hak])]
      rw [ih, List.lookup_cons]
      have hb : (k2 == ak) = false := by
        rw [beq_eq_false_iff_ne, hak]
        exact h
      rw [hb]
    · rw [if_pos (by simp [hak])]
      rw [List.lookup_cons, List.lookup_cons]
      cases hbeq : (k2 == ak) with
      | true => rfl
      | false => exact ih

theorem lookup_filter_self (data : List (List Char × Json)) (k : List Char) :
    List.lookup k (data.filter fun p => !(p.1 = k)) = none := by
  induction data with
  | nil => rfl
  | cons a t ih =>
    obtain ⟨ak, av⟩ := a
    simp only [List.filter_cons]
    by_cases hak : ak = k
    · rw [if_neg (by simp [hak])]
      exact ih
    · rw [if_pos (by simp [hak])]
      rw [List.lookup_cons]
      have hb : (k == ak) = false := by
        rw [beq_eq_false_iff_ne]
        exact fun hcon => hak hcon.symm
      rw [hb]
      exact ih

theorem lookup_setKey_ne {data : List (List Char × Json)} {k k2 : List Char}
    {v : Json} (h : k2 ≠ k) :
    List.lookup k2 (setKey data k v) = List.lookup k2 data := by
  induction data with
  | nil => rfl
  | cons a t ih =>
    obtain ⟨ak, av⟩ := a
    simp only [setKey, List.map_cons]
    by_cases hak : ak = k
    · rw [if_pos hak]
      rw [List.lookup_cons, List.lookup_cons]
      have hb1 : (k2 == k) = false := beq_eq_false_iff_ne.2 h
      have hb2 : (k2 == ak) = false := beq_eq_false_iff_ne.2 (by rw [hak]; exact h)
      rw [hb1, hb2]
      exact ih
    · rw [if_neg hak]
      rw [List.lookup_cons, List.lookup_cons]
      cases hbeq : (k2 == ak) with
      | true => rfl
      | false => exact ih

theorem lookup_setKey_self {data : List (List Char × Json)} {k : List Char}
    {v w : Json} (h : List.lookup k data = some w) :
    List.lookup k (setKey data k v) = some v := by
  induction data with
  | nil => simp [List.lookup] at h
  | cons a t ih =>
    obtain ⟨ak, av⟩ := a
    simp only [setKey, List.map_cons]
    by_cases hak : ak = k
    · rw [if_pos hak]
      rw [List.lookup_cons]
      rw [show (k == k) = true from beq_iff_eq.2 rfl]
    · rw [if_neg hak]
      rw [List.lookup_cons]
      have hb : (k == ak) = false := beq_eq_false_iff_ne.2 (fun hcon => hak hcon.symm)
      rw [hb]
      rw [List.lookup_cons, hb] at h
      exact ih h

theorem checkKeys_none_lookup : ∀ (R : List (List Char × PyKind))
    (data : List (List Char × Json)), checkKeys R data = none →
    ∀ k t, (k, t) ∈ R →
    ∃ v, List.lookup k data = some v ∧ isinstanceJ v t = true := by
  intro R
  induction R with
  | nil =>
    intro data h k t hkt
    simp at hkt
  | cons a rest ih =>
    intro data h k t hkt
    obtain ⟨ak, at2⟩ := a
    unfold checkKeys at h
    split at h <;> rename_i hlk
    · simp at h
    · rename_i v
      split at h <;> rename_i hinst
      · rcases List.mem_cons.1 hkt with heq | hmem
        · simp only [Prod.mk.injEq] at heq
          obtain ⟨rfl, rfl⟩ := heq
          exact ⟨v, hlk, hinst⟩
        · exact ih data h k t hmem
      · simp at h

theorem checkKeys_remove : ∀ (R : List (List Char × PyKind))
    (data : List (List Char × Json)) (k : List Char) (t : PyKind),
    (k, t) ∈ R → checkKeys R data = none →
    checkKeys R (data.filter fun p => !(p.1 = k)) =
      some (chars "FAIL: missing key: " ++ k) := by
  intro R
  induction R with
  | nil =>
    intro data k t hkt h
    simp at hkt
  | cons a rest ih =>
    intro data k t hkt h
    obtain ⟨ak, at2⟩ := a
    unfold checkKeys at h ⊢
    split at h <;> rename_i hlk
    · simp at h
    · rename_i v
      split at h <;> rename_i hinst
      · by_cases hak : ak = k
        · subst hak
          rw [lookup_filter_self data ak]
        · rw [lookup_filter_ne hak, hlk]
          dsimp only
          rw [if_pos hinst]
          have hmem : (k, t) ∈ rest := by
            rcases List.mem_cons.1 hkt with heq | hmem
            · simp only [Prod.mk.injEq] at heq
              exact absurd heq.1.symm hak
            · exact hmem
          exact ih data k t hmem h
      · simp at h

theorem checkKeys_setKey : ∀ (R : List (List Char × PyKind))
    (data : List (List Char × Json)) (k : List Char) (v : Json),
    checkKeys R data = none →
    (∀ t, (k, t) ∈ R → isinstanceJ v t = true) →
    checkKeys R (setKey data k v) = none := by
  intro R
  induction R with
  | nil => intro data k v h hall; rfl
  | cons a rest ih =>
    intro data k v h hall
    obtain ⟨ak, at2⟩ := a
    unfold checkKeys at h ⊢
    split at h <;> rename_i hlk
    · simp at h
    · rename_i v2
      split at h <;> rename_i hinst
      · by_cases hak : ak = k
        · subst hak
          rw [lookup_setKey_self hlk]
          dsimp only
          rw [if_pos (hall at2 (List.mem_cons_self _ _))]
          exact ih data ak v h (fun t ht => hall t (List.mem_cons_of_mem _ ht))
        · rw [lookup_setKey_ne hak, hlk]
          dsimp only
          rw [if_pos hinst]
          exact ih data k v h (fun t ht => hall t (List.mem_cons_of_mem _ ht))
      · simp at h

theorem mem_keys_unique : ∀ {R : List (List Char × PyKind)},
    (R.map Prod.fst).Nodup → ∀ {k : List Char} {t1 t2 : PyKind},
    (k, t1) ∈ R → (k, t2) ∈ R → t1 = t2 := by
  intro R
  induction R with
  | nil =>
    intro _ k t1 t2 h1 h2
    simp at h1
  | cons a rest ih =>
    intro hnd k t1 t2 h1 h2
    obtain ⟨ak, at2⟩ := a
    simp only [List.map_cons, List.nodup_cons] at hnd
    obtain ⟨hnotin, hnd2⟩ := hnd
    rcases List.mem_cons.1 h1 with he1 | hm1 <;> rcases List.mem_cons.1 h2 with he2 | hm2
    · simp only [Prod.mk.injEq] at he1 he2
      rw [he1.2, he2.2]
    · simp only [Prod.mk.injEq] at he1
      obtain ⟨hk, -⟩ := he1
      exact absurd (hk ▸ List.mem_map_of_mem Prod.fst hm2) hnotin
    · simp only [Prod.mk.injEq] at he2
      obtain ⟨hk, -⟩ := he2
      exact absurd (hk ▸ List.mem_map_of_mem Prod.fst hm1) hnotin
    · exact ih hnd2 hm1 hm2

theorem REQUIRED_KEYS_keys_nodup : (REQUIRED_KEYS.map Prod.fst).Nodup := by decide

theorem checkKeys_setKey_bad : ∀ (R : List (List Char × PyKind))
    (data : List (List Char × Json)) (k : List Char) (t : PyKind) (v : Json),
    (R.map Prod.fst).Nodup → (k, t) ∈ R → checkKeys R data = none →
    isinstanceJ v t = false →
    checkKeys R (setKey data k v) = some (chars "FAIL: key " ++ k ++
      chars " expected " ++ pyKindName t ++ chars ", got " ++ jsonTypeName v) := by
  intro R
  induction R with
  | nil =>
    intro data k t v hnd hkt h hbad
    simp at hkt
  | cons a rest ih =>
    intro data k t v hnd hkt h hbad
    obtain ⟨ak, at2⟩ := a
    simp only [List.map_cons, List.nodup_cons] at hnd
    obtain ⟨hnotin, hnd2⟩ := hnd
    unfold checkKeys at h ⊢
    split at h <;> rename_i hlk
    · simp at h
    · rename_i v2
      split at h <;> rename_i hinst
      · by_cases hak : ak = k
        · subst hak
          have ht : t = at2 := by
            rcases List.mem_cons.1 hkt with heq | hmem
            · simp only [Prod.mk.injEq] at heq
              exact heq.2
            · exact absurd (List.mem_map_of_mem Prod.fst hmem) hnotin
          subst ht
          rw [lookup_setKey_self hlk]
          dsimp only
          rw [if_neg (by rw [hbad]; simp)]
        · rw [lookup_setKey_ne hak, hlk]
          dsimp only
          rw [if_pos hinst]
          have hmem : (k, t) ∈ rest := by
            rcases List.mem_cons.1 hkt with heq | hmem
            · simp only [Prod.mk.injEq] at heq
              exact absurd heq.1.symm hak
            · exact hmem
          exact ih data k t v hnd2 hmem h hbad
      · simp at h

theorem validate_passed_parts {data : List (List Char × Json)}
    (h : validate_report data = .passed) :
    checkKeys REQUIRED_KEYS data = none ∧
    ∃ cs, List.lookup (chars "clarity_score") data = some cs ∧
      0 ≤ jsonIntVal cs ∧ jsonIntVal cs ≤ 100 := by
  unfold validate_report at h
  split at h <;> rename_i h1
  · simp at h
  · refine ⟨h1, ?_⟩
    split at h <;> rename_i h2
    · rename_i cs
      split at h <;> rename_i h3
      · exact ⟨cs, h2, h3.1, h3.2⟩
      · simp at h
    · simp at h

end SmokeTest

theorem foldl_append_map {α β : Type} (f : α → β) (l : List α) : ∀ init : List β,
    l.foldl (fun acc item => acc ++ [f item]) init = init ++ l.map f := by
  induction l with
  | nil => intro init; simp
  | cons x t ih =>
    intro init
    simp only [List.foldl_cons, List.map_cons, ih]
    simp

-- ### Helper facts for the claim theorems

theorem braceCond_false_of_missing {s : List Char} (h : '\x7b' ∉ s ∨ '\x7d' ∉ s) :
    ((s.dropWhile fun c => !(c == '\x7b')).contains '\x7d') = false := by
  rcases h with h | h
  · rw [List.dropWhile_eq_nil_iff.2 (fun x hx => by
      simp only [Bool.not_eq_true']
      rw [beq_eq_false_iff_ne]
      intro hcon
      exact h (hcon ▸ hx))]
    rfl
  · rw [← Bool.not_eq_true]
    intro hcon
    exact h ((List.dropWhile_sublist _).mem (contains_iff_mem.1 hcon))

theorem loads_err_doc {l : List Char} {e : JsonFail} (h : json_loads l = .error e) :
    e.doc = l := by
  unfold json_loads at h
  split at h <;> rename_i hp
  · simp only [Except.error.injEq] at h
    rw [← h]
  · split at h
    · simp at h
    · simp only [Except.error.injEq] at h
      rw [← h]

-- ### The claims

/-- C1 counterexample: `[\x7b\x7d]` holds both braces and its brace span
`\x7b\x7d` parses to the empty object, yet the browser extractor returns the
whole-text parse (a one-element array), not the span's parse. -/
theorem C1_counterexample :
    (chars "[\x7b\x7d]").contains '\x7b' = true ∧
    (chars "[\x7b\x7d]").contains '\x7d' = true ∧
    json_loads (braceSpan (chars "[\x7b\x7d]")) = .ok (.obj []) ∧
    StreamlitApp.extract_json (chars "[\x7b\x7d]") = .ok (.arr [.obj []]) ∧
    StreamlitApp.extract_json (chars "[\x7b\x7d]") ≠ .ok (.obj []) := by
  refine ⟨by decide, by decide, rfl, rfl, ?_⟩
  intro hcon
  rw [show StreamlitApp.extract_json (chars "[\x7b\x7d]") = .ok (.arr [.obj []])
    from rfl] at hcon
  simp at hcon

/-- C1 (amended): the console extractor returns exactly the parse of the
first-`\x7b`-to-last-`\x7d` substring whenever that parses; the browser
extractor does so only after the direct parse of the stripped text fails. -/
theorem C1_amended :
    (∀ (s : List Char) (v : Json), '\x7b' ∈ s → '\x7d' ∈ s →
      json_loads (braceSpan s) = .ok v → ReqAnalyzer.extract_json s = .ok v) ∧
    (∀ (s : List Char) (e : JsonFail) (v : Json),
      json_loads (pyStrip s) = .error e → json_loads (braceSpan s) = .ok v →
      StreamlitApp.extract_json s = .ok v) := by
  constructor
  · intro s v h1 h2 hok
    rw [console_eval h1 h2, hok]
  · intro s e v herr hok
    have hne : braceSpan s ≠ [] := by
      intro hnil
      rw [hnil, show json_loads [] = .error ⟨.expectingValue, []⟩ from rfl] at hok
      exact absurd hok (by simp)
    have hcond : ((s.dropWhile fun c => !(c == '\x7b')).contains '\x7d') = true := by
      by_contra hc
      rw [Bool.not_eq_true] at hc
      exact hne (braceSpan_eq_nil_iff.2 hc)
    rw [streamlit_fallback herr, if_pos hcond, hok]

/-- C1 witness at a concrete input with surrounding text. -/
theorem C1_witness :
    ReqAnalyzer.extract_json (chars "hi \x7b\x7d") = .ok (.obj []) ∧
    StreamlitApp.extract_json (chars "hi \x7b\x7d") = .ok (.obj []) :=
  ⟨C1_amended.1 (chars "hi \x7b\x7d") (.obj []) (by decide) (by decide) rfl,
   C1_amended.2 (chars "hi \x7b\x7d") ⟨.expectingValue, chars "hi \x7b\x7d"⟩
     (.obj []) rfl rfl⟩

/-- C2 counterexample: `42` has no brace at all, yet the browser extractor
succeeds (direct parse), raising no error. -/
theorem C2_counterexample :
    (chars "42").contains '\x7b' = false ∧
    StreamlitApp.extract_json (chars "42") = .ok (.num 42) :=
  ⟨by decide, rfl⟩

/-- C2 (amended): on inputs missing a `\x7b` or a `\x7d` the console extractor
always raises its no-JSON error; the browser extractor does so only when the
direct parse of the stripped text also fails. -/
theorem C2_amended :
    (∀ s : List Char, ('\x7b' ∉ s ∨ '\x7d' ∉ s) →
      ReqAnalyzer.extract_json s = .error (.noJson s)) ∧
    (∀ (s : List Char) (e : JsonFail), json_loads (pyStrip s) = .error e →
      ('\x7b' ∉ s ∨ '\x7d' ∉ s) →
      StreamlitApp.extract_json s = .error (.noJson (pyStrip s))) := by
  constructor
  · exact fun s h => console_noJson h
  · intro s e herr h
    rw [streamlit_fallback herr,
      if_neg (by rw [braceCond_false_of_missing h]; simp)]

/-- C2 witness: the empty-brace inputs. -/
theorem C2_witness :
    ReqAnalyzer.extract_json (chars "hello") = .error (.noJson (chars "hello")) ∧
    StreamlitApp.extract_json (chars "hello") =
      .error (.noJson (pyStrip (chars "hello"))) :=
  ⟨C2_amended.1 (chars "hello") (Or.inl (by decide)),
   C2_amended.2 (chars "hello") ⟨.expectingValue, chars "hello"⟩ rfl
     (Or.inl (by decide))⟩

/-- C3 counterexample: on `\x7d\x7b` (every `\x7d` before the first `\x7b`)
the console extractor parses the empty slice and raises the JSON decode
error, not its no-JSON error. -/
theorem C3_counterexample :
    ReqAnalyzer.extract_json (chars "\x7d\x7b") =
      .error (.decode ⟨.expectingValue, []⟩) ∧
    ReqAnalyzer.extract_json (chars "\x7d\x7b") ≠
      .error (.noJson (chars "\x7d\x7b")) := by
  refine ⟨rfl, ?_⟩
  intro hcon
  rw [show ReqAnalyzer.extract_json (chars "\x7d\x7b") =
    .error (.decode ⟨.expectingValue, []⟩) from rfl] at hcon
  simp at hcon

/-- C3 (amended): when both braces occur but no `\x7d` follows the first
`\x7b`, the browser extractor raises its no-JSON error (after a failed direct
parse), while the console extractor parses the invalid empty slice and raises
the decode error instead. -/
theorem C3_amended :
    (∀ s : List Char, '\x7b' ∈ s → '\x7d' ∈ s →
      ((s.dropWhile fun c => !(c == '\x7b')).contains '\x7d') = false →
      ReqAnalyzer.extract_json s = .error (.decode ⟨.expectingValue, []⟩)) ∧
    (∀ (s : List Char) (e : JsonFail), json_loads (pyStrip s) = .error e →
      ((s.dropWhile fun c => !(c == '\x7b')).contains '\x7d') = false →
      StreamlitApp.extract_json s = .error (.noJson (pyStrip s))) := by
  constructor
  · intro s h1 h2 hcond
    rw [console_eval h1 h2, braceSpan_eq_nil_iff.2 hcond]
    rfl
  · intro s e herr hcond
    rw [streamlit_fallback herr, if_neg (by rw [hcond]; simp)]

/-- C3 witness at `\x7d\x7b`. -/
theorem C3_witness :
    ReqAnalyzer.extract_json (chars "\x7d\x7b") =
      .error (.decode ⟨.expectingValue, []⟩) ∧
    StreamlitApp.extract_json (chars "\x7d\x7b") =
      .error (.noJson (pyStrip (chars "\x7d\x7b"))) :=
  ⟨C3_amended.1 (chars "\x7d\x7b") (by decide) (by decide) (by decide),
   C3_amended.2 (chars "\x7d\x7b")
     ⟨.expectingValue, chars "\x7d\x7b"⟩ rfl (by decide)⟩

/-- C4 counterexample: in `["\x7b", "\x7d"]` the brace-span substring is not
valid JSON, yet the browser extractor succeeds via the direct whole-text
parse instead of failing with a malformed-JSON error. -/
theorem C4_counterexample :
    json_loads (braceSpan (chars "[\"\x7b\", \"\x7d\"]")) =
      .error ⟨.expectingColonDelimiter, braceSpan (chars "[\"\x7b\", \"\x7d\"]")⟩ ∧
    StreamlitApp.extract_json (chars "[\"\x7b\", \"\x7d\"]") =
      .ok (.arr [.str (chars "\x7b"), .str (chars "\x7d")]) :=
  ⟨rfl, rfl⟩

/-- C4 (amended): when the brace-span substring fails to parse, the console
extractor propagates the decode error (whose `doc` carries the substring),
and the browser extractor raises its malformed-JSON error carrying the
substring — but the browser does so only after a failed direct parse. -/
theorem C4_amended :
    (∀ (s : List Char) (e : JsonFail), '\x7b' ∈ s → '\x7d' ∈ s →
      json_loads (braceSpan s) = .error e →
      ReqAnalyzer.extract_json s = .error (.decode e) ∧ e.doc = braceSpan s) ∧
    (∀ (s : List Char) (e0 e : JsonFail), json_loads (pyStrip s) = .error e0 →
      ((s.dropWhile fun c => !(c == '\x7b')).contains '\x7d') = true →
      json_loads (braceSpan s) = .error e →
      StreamlitApp.extract_json s =
        .error (.malformed e (braceSpan s) (pyStrip s)) ∧ e.doc = braceSpan s) := by
  constructor
  · intro s e h1 h2 herr
    refine ⟨?_, loads_err_doc herr⟩
    rw [console_eval h1 h2, herr]
  · intro s e0 e herr0 hcond herr
    refine ⟨?_, loads_err_doc herr⟩
    rw [streamlit_fallback herr0, if_pos hcond, herr]

/-- C4 witness at `x \x7b:\x7d`. -/
theorem C4_witness :
    (ReqAnalyzer.extract_json (chars "x \x7b:\x7d") =
      .error (.decode ⟨.expectingPropertyName, chars "\x7b:\x7d"⟩) ∧
      JsonFail.doc ⟨.expectingPropertyName, chars "\x7b:\x7d"⟩ =
        braceSpan (chars "x \x7b:\x7d")) ∧
    (StreamlitApp.extract_json (chars "x \x7b:\x7d") =
      .error (.malformed ⟨.expectingPropertyName, chars "\x7b:\x7d"⟩
        (braceSpan (chars "x \x7b:\x7d")) (pyStrip (chars "x \x7b:\x7d"))) ∧
      JsonFail.doc ⟨.expectingPropertyName, chars "\x7b:\x7d"⟩ =
        braceSpan (chars "x \x7b:\x7d")) :=
  ⟨C4_amended.1 (chars "x \x7b:\x7d") ⟨.expectingPropertyName, chars "\x7b:\x7d"⟩
     (by decide) (by decide) rfl,
   C4_amended.2 (chars "x \x7b:\x7d") ⟨.expectingValue, chars "x \x7b:\x7d"⟩
     ⟨.expectingPropertyName, chars "\x7b:\x7d"⟩ rfl (by decide) rfl⟩

/-- C5 counterexample: `[` + `\x7b\x7d` + `]` is brace-free padding around a
valid JSON object text, but the browser extractor does not return
`parse("\x7b\x7d")` — the direct whole-text parse wins. -/
theorem C5_counterexample :
    json_loads (chars "\x7b\x7d") = .ok (.obj []) ∧
    ((chars "[").all fun c => !(c = '\x7b') && !(c = '\x7d')) = true ∧
    ((chars "]").all fun c => !(c = '\x7b') && !(c = '\x7d')) = true ∧
    chars "[\x7b\x7d]" = chars "[" ++ chars "\x7b\x7d" ++ chars "]" ∧
    StreamlitApp.extract_json (chars "[\x7b\x7d]") ≠ .ok (.obj []) := by
  refine ⟨rfl, by decide, by decide, rfl, ?_⟩
  intro hcon
  rw [show StreamlitApp.extract_json (chars "[\x7b\x7d]") = .ok (.arr [.obj []])
    from rfl] at hcon
  simp at hcon

/-- C5 (amended): the console extractor recovers the parse of a valid JSON
object text from any brace-free padding around it; the browser extractor
returns the parse of the stripped text whenever that text as a whole is
valid JSON — in particular on a pure JSON object. -/
theorem C5_amended :
    (∀ (pre jt suf : List Char) (ms : List (List Char × Json)),
      (∀ c ∈ pre, c ≠ '\x7b' ∧ c ≠ '\x7d') →
      (∀ c ∈ suf, c ≠ '\x7b' ∧ c ≠ '\x7d') →
      json_loads jt = .ok (.obj ms) →
      ReqAnalyzer.extract_json (pre ++ jt ++ suf) = .ok (.obj ms)) ∧
    (∀ (s : List Char) (v : Json), json_loads (pyStrip s) = .ok v →
      StreamlitApp.extract_json s = .ok v) :=
  ⟨fun _ _ _ _ hpre hsuf hj => console_pad_extract hpre hsuf hj,
   fun _ _ h => streamlit_direct h⟩

/-- C5 witness: commentary before and after an object. -/
theorem C5_witness :
    ReqAnalyzer.extract_json
      (chars "Sure: " ++ chars "\x7b\"a\": 1\x7d" ++ chars " bye") =
      .ok (.obj [(chars "a", .num 1)]) ∧
    StreamlitApp.extract_json (chars " \x7b\x7d ") = .ok (.obj []) :=
  ⟨C5_amended.1 (chars "Sure: ") (chars "\x7b\"a\": 1\x7d") (chars " bye")
     [(chars "a", .num 1)] (by decide) (by decide) rfl,
   C5_amended.2 (chars " \x7b\x7d ") (.obj []) rfl⟩

/-- C6: serialize-then-extract is the identity on each extractor's own
successful output. -/
theorem C6_roundtrip :
    (∀ (s : List Char) (v : Json), ReqAnalyzer.extract_json s = .ok v →
      ReqAnalyzer.extract_json (dumpsVal v) = .ok v) ∧
    (∀ (s : List Char) (v : Json), StreamlitApp.extract_json s = .ok v →
      StreamlitApp.extract_json (dumpsVal v) = .ok v) := by
  constructor
  · intro s v h
    obtain ⟨hl, ms, rfl⟩ := console_ok_loads h
    have hwf := loads_wf hl
    have hd : dumpsVal (.obj ms) = '\x7b' :: (dumpsMembers ms ++ ['\x7d']) := by
      simp [dumpsVal]
    have hm1 : '\x7b' ∈ dumpsVal (.obj ms) := by
      rw [hd]
      exact List.mem_cons_self _ _
    have hm2 : '\x7d' ∈ dumpsVal (.obj ms) := by
      rw [hd]
      exact List.mem_cons_of_mem _ (List.mem_append.2 (Or.inr (by simp)))
    have hbs : braceSpan (dumpsVal (.obj ms)) = dumpsVal (.obj ms) := by
      apply braceSpan_self
      · rw [hd]
        rfl
      · rw [hd]
        exact getLast_cons_some (List.getLast?_concat _)
    rw [console_eval hm1 hm2, hbs, loads_dumps hwf]
  · intro s v h
    have hwf : wfVal v = true := by
      unfold StreamlitApp.extract_json at h
      dsimp only at h
      split at h <;> rename_i h1
      · simp only [Except.ok.injEq] at h
        subst h
        exact loads_wf h1
      · split at h <;> rename_i h2
        · simp at h
        · rename_i js
          split at h <;> rename_i h3
          · simp only [Except.ok.injEq] at h
            subst h
            exact loads_wf h3
          · simp at h
    exact streamlit_direct (by rw [pyStrip_dumps]; exact loads_dumps hwf)

/-- C6 witness on two concrete successful extractions. -/
theorem C6_witness :
    ReqAnalyzer.extract_json (dumpsVal (.obj [(chars "a", .num 1)])) =
      .ok (.obj [(chars "a", .num 1)]) ∧
    StreamlitApp.extract_json (dumpsVal (.num 42)) = .ok (.num 42) :=
  ⟨C6_roundtrip.1 (chars "x \x7b\"a\": 1\x7d") (.obj [(chars "a", .num 1)]) rfl,
   C6_roundtrip.2 (chars "42") (.num 42) rfl⟩

/-- C7: removing any required key from a passing report makes the smoke test
fail naming that key; replacing `clarity_score` by the integer `n` passes
exactly for `0 ≤ n ≤ 100` and otherwise fails with the range message
(covering the spec's -1, 0, 100, 101 cases). -/
theorem C7_validator : ∀ data : List (List Char × Json),
    SmokeTest.validate_report data = .passed →
    (∀ k t, (k, t) ∈ SmokeTest.REQUIRED_KEYS →
      SmokeTest.validate_report (data.filter fun p => !(p.1 = k)) =
        .failed (chars "FAIL: missing key: " ++ k)) ∧
    (∀ n : Int, SmokeTest.validate_report
        (SmokeTest.setKey data (chars "clarity_score") (.num n)) =
      if 0 ≤ n ∧ n ≤ 100 then .passed
      else .failed (chars "FAIL: clarity_score out of range: " ++ intRepr n)) := by
  intro data hpass
  obtain ⟨hck, cs, hlk, hlo, hhi⟩ := SmokeTest.validate_passed_parts hpass
  constructor
  · intro k t hkt
    unfold SmokeTest.validate_report
    rw [SmokeTest.checkKeys_remove SmokeTest.REQUIRED_KEYS data k t hkt hck]
  · intro n
    unfold SmokeTest.validate_report
    rw [SmokeTest.checkKeys_setKey SmokeTest.REQUIRED_KEYS data
      (chars "clarity_score") (.num n) hck ?hall]
    case hall =>
      intro t ht
      have ht2 : t = .int := SmokeTest.mem_keys_unique
        SmokeTest.REQUIRED_KEYS_keys_nodup ht
        (show (chars "clarity_score", SmokeTest.PyKind.int) ∈
          SmokeTest.REQUIRED_KEYS by decide)
      subst ht2
      rfl
    dsimp only
    rw [SmokeTest.lookup_setKey_self (v := Json.num n) hlk]
    dsimp only
    simp only [SmokeTest.jsonIntVal, SmokeTest.pyStrOfIntLike]

/-- C7 witness: a removed key and an out-of-range score on the sample
report. -/
theorem C7_witness :
    SmokeTest.validate_report
      (sampleReport.filter fun p => !(p.1 = chars "clarity_score")) =
      .failed (chars "FAIL: missing key: " ++ chars "clarity_score") ∧
    SmokeTest.validate_report (SmokeTest.setKey sampleReport
      (chars "clarity_score") (.num 101)) =
      .failed (chars "FAIL: clarity_score out of range: " ++ intRepr 101) := by
  constructor
  · exact (C7_validator sampleReport rfl).1 (chars "clarity_score") .int (by decide)
  · have h := (C7_validator sampleReport rfl).2 101
    rw [if_neg (by decide)] at h
    exact h

/-- C8 counterexample: a list field holding a non-string element, and a
boolean clarity score, both pass the smoke test — element kinds and the
int/bool distinction are not checked. -/
theorem C8_counterexample :
    SmokeTest.validate_report (SmokeTest.setKey sampleReport
      (chars "ambiguities") (.arr [.num 42])) = .passed ∧
    SmokeTest.validate_report (SmokeTest.setKey sampleReport
      (chars "clarity_score") (.bool true)) = .passed :=
  ⟨rfl, rfl⟩

/-- C8 (amended): the validator checks only the top-level Python type of each
required key: a value that is not an instance of the required type makes it
fail naming that key, but list elements are never inspected and a boolean
passes the integer check (Python `bool` subclasses `int`). -/
theorem C8_amended :
    (∀ (data : List (List Char × Json)) (k : List Char) (t : SmokeTest.PyKind)
      (v : Json), SmokeTest.validate_report data = .passed →
      (k, t) ∈ SmokeTest.REQUIRED_KEYS → SmokeTest.isinstanceJ v t = false →
      SmokeTest.validate_report (SmokeTest.setKey data k v) =
        .failed (chars "FAIL: key " ++ k ++ chars " expected " ++
          SmokeTest.pyKindName t ++ chars ", got " ++ SmokeTest.jsonTypeName v)) ∧
    (∀ (data : List (List Char × Json)) (k : List Char) (xs : List Json),
      SmokeTest.validate_report data = .passed →
      (k, SmokeTest.PyKind.list) ∈ SmokeTest.REQUIRED_KEYS →
      SmokeTest.validate_report (SmokeTest.setKey data k (.arr xs)) = .passed) ∧
    (∀ (data : List (List Char × Json)) (b : Bool),
      SmokeTest.validate_report data = .passed →
      SmokeTest.validate_report (SmokeTest.setKey data (chars "clarity_score")
        (.bool b)) = .passed) := by
  refine ⟨?_, ?_, ?_⟩
  · intro data k t v hpass hkt hbad
    obtain ⟨hck, cs, hlk, hlo, hhi⟩ := SmokeTest.validate_passed_parts hpass
    unfold SmokeTest.validate_report
    rw [SmokeTest.checkKeys_setKey_bad SmokeTest.REQUIRED_KEYS data k t v
      SmokeTest.REQUIRED_KEYS_keys_nodup hkt hck hbad]
  · intro data k xs hpass hkt
    obtain ⟨hck, cs, hlk, hlo, hhi⟩ := SmokeTest.validate_passed_parts hpass
    have hkne : chars "clarity_score" ≠ k := by
      intro hcon
      have h2 : SmokeTest.PyKind.list = SmokeTest.PyKind.int :=
        SmokeTest.mem_keys_unique SmokeTest.REQUIRED_KEYS_keys_nodup
          (hcon ▸ hkt)
          (show (chars "clarity_score", SmokeTest.PyKind.int) ∈
            SmokeTest.REQUIRED_KEYS by decide)
      exact absurd h2 (by decide)
    unfold SmokeTest.validate_report
    rw [SmokeTest.checkKeys_setKey SmokeTest.REQUIRED_KEYS data k (.arr xs)
      hck ?hall2]
    case hall2 =>
      intro t ht
      have ht2 : t = .list := SmokeTest.mem_keys_unique
        SmokeTest.REQUIRED_KEYS_keys_nodup ht hkt
      subst ht2
      rfl
    dsimp only
    rw [SmokeTest.lookup_setKey_ne hkne, hlk]
    dsimp only
    rw [if_pos ⟨hlo, hhi⟩]
  · intro data b hpass
    obtain ⟨hck, cs, hlk, hlo, hhi⟩ := SmokeTest.validate_passed_parts hpass
    unfold SmokeTest.validate_report
    rw [SmokeTest.checkKeys_setKey SmokeTest.REQUIRED_KEYS data
      (chars "clarity_score") (.bool b) hck ?hall3]
    case hall3 =>
      intro t ht
      have ht2 : t = .int := SmokeTest.mem_keys_unique
        SmokeTest.REQUIRED_KEYS_keys_nodup ht
        (show (chars "clarity_score", SmokeTest.PyKind.int) ∈
          SmokeTest.REQUIRED_KEYS by decide)
      subst ht2
      rfl
    dsimp only
    rw [SmokeTest.lookup_setKey_self (v := Json.bool b) hlk]
    dsimp only
    rw [if_pos (by cases b <;> exact (by decide))]

/-- C8 witness: a mistyped summary is reported; a list of numbers passes. -/
theorem C8_witness :
    SmokeTest.validate_report (SmokeTest.setKey sampleReport (chars "summary")
      (.num 5)) = .failed (chars "FAIL: key " ++ chars "summary" ++
        chars " expected " ++ SmokeTest.pyKindName .str ++ chars ", got " ++
        SmokeTest.jsonTypeName (.num 5)) ∧
    SmokeTest.validate_report (SmokeTest.setKey sampleReport
      (chars "ambiguities") (.arr [.num 42])) = .passed :=
  ⟨C8_amended.1 sampleReport (chars "summary") .str (.num 5) rfl (by decide) rfl,
   C8_amended.2.1 sampleReport (chars "ambiguities") [.num 42] rfl (by decide)⟩

/-- C9 counterexample: the transcript strips each answer (` yes ` becomes
`yes`) and joins blocks with a blank line (`\n\n`), so it differs from the
spec's verbatim newline-joined transcript on both counts. -/
theorem C9_counterexample :
    StreamlitApp.improve_qa_text [⟨chars "Q1", chars "How?", chars " yes "⟩] =
      chars "Q1. How?\nAnswer: yes" ∧
    StreamlitApp.specQaTranscript [⟨chars "Q1", chars "How?", chars " yes "⟩] =
      chars "Q1. How?\nAnswer:  yes " ∧
    StreamlitApp.improve_qa_text [⟨chars "Q1", chars "How?", chars " yes "⟩] ≠
      StreamlitApp.specQaTranscript [⟨chars "Q1", chars "How?", chars " yes "⟩] ∧
    StreamlitApp.improve_qa_text
      [⟨chars "Q1", chars "A?", chars "a"⟩, ⟨chars "Q2", chars "B?", chars "b"⟩] =
      chars "Q1. A?\nAnswer: a\n\nQ2. B?\nAnswer: b" ∧
    StreamlitApp.specQaTranscript
      [⟨chars "Q1", chars "A?", chars "a"⟩, ⟨chars "Q2", chars "B?", chars "b"⟩] =
      chars "Q1. A?\nAnswer: a\nQ2. B?\nAnswer: b" :=
  ⟨by decide, by decide, by decide, by decide, by decide⟩

/-- C9 (amended): the improve-phase prompt fills `qa_text` with one block
`<id>. <question>\nAnswer: <stripped answer>` per question in order, joined
by blank lines (`\n\n`), with the whole transcript stripped. -/
theorem C9_amended : ∀ (requirement : List Char)
    (q_and_a : List StreamlitApp.AnsweredQuestion),
    StreamlitApp.improve_with_answers_prompt requirement q_and_a =
      StreamlitApp.IMPROVE_PROMPT_part1 ++ StreamlitApp.ANALYZE_SCHEMA_text ++
      StreamlitApp.IMPROVE_PROMPT_part2 ++ requirement ++
      StreamlitApp.IMPROVE_PROMPT_part3 ++
      pyStrip (List.intercalate (chars "\n\n") (q_and_a.map fun item =>
        item.id ++ chars ". " ++ item.question ++ chars "\nAnswer: " ++
          pyStrip item.answer)) := by
  intro requirement q_and_a
  unfold StreamlitApp.improve_with_answers_prompt StreamlitApp.improve_qa_text
  rw [foldl_append_map]
  rfl

/-- C10 counterexample: on `42` the console extractor fails while the
browser extractor succeeds, so the two extractors are not equivalent. -/
theorem C10_counterexample :
    ReqAnalyzer.extract_json (chars "42") = .error (.noJson (chars "42")) ∧
    StreamlitApp.extract_json (chars "42") = .ok (.num 42) :=
  ⟨rfl, rfl⟩

/-- C10 (amended): the extractors agree on success exactly when the browser
direct parse of the stripped text fails — then both succeed on the same
inputs with the same value. -/
theorem C10_amended : ∀ (s : List Char) (e0 : JsonFail),
    json_loads (pyStrip s) = .error e0 → ∀ v : Json,
    (ReqAnalyzer.extract_json s = .ok v ↔ StreamlitApp.extract_json s = .ok v) := by
  intro s e0 herr v
  by_cases h1 : '\x7b' ∈ s
  · by_cases h2 : '\x7d' ∈ s
    · rw [console_eval h1 h2, streamlit_fallback herr]
      by_cases hcond : ((s.dropWhile fun c => !(c == '\x7b')).contains '\x7d') = true
      · rw [if_pos hcond]
        cases hl : json_loads (braceSpan s) with
        | ok v0 => simp
        | error e => simp
      · rw [if_neg hcond]
        have hnil : braceSpan s = [] := braceSpan_eq_nil_iff.2 (by
          rw [← Bool.not_eq_true]
          exact hcond)
        rw [hnil, show json_loads [] = .error ⟨.expectingValue, []⟩ from rfl]
        simp
    · rw [console_noJson (Or.inr h2), streamlit_fallback herr,
        if_neg (by rw [braceCond_false_of_missing (Or.inr h2)]; simp)]
      simp
  · rw [console_noJson (Or.inl h1), streamlit_fallback herr,
      if_neg (by rw [braceCond_false_of_missing (Or.inl h1)]; simp)]
    simp

/-- C10 witness: with a failing direct parse the two extractors agree. -/
theorem C10_witness :
    ReqAnalyzer.extract_json (chars "x \x7b\x7d") = .ok (.obj []) ↔
    StreamlitApp.extract_json (chars "x \x7b\x7d") = .ok (.obj []) :=
  C10_amended (chars "x \x7b\x7d") ⟨.expectingValue, chars "x \x7b\x7d"⟩ rfl (.obj [])

example : SmokeTest.validate_report (sampleReport.filter fun p => !(p.1 = chars "summary")) =
    .failed (chars "FAIL: missing key: summary") := by decide
example : StreamlitApp.improve_qa_text
    [⟨chars "Q1", chars "How many?", chars " three "⟩,
     ⟨chars "Q2", chars "Why?", chars "because"⟩] =
    chars "Q1. How many?\nAnswer: three\n\nQ2. Why?\nAnswer: because" := by decide
